import Mathlib

/-!
Verification of the seo-canonical-validator pipeline.

This file shallowly embeds the core of the repository:

* `src/utils/url_processor.py` — URL normalization (`_normalize_url`),
  canonical-tag analysis (`_analyze_canonical_tag`), the per-URL retry loop
  (`_process_single_url`) and the batch driver (`process_urls`);
* `src/utils/sitemap_parser.py` — recursive sitemap expansion with the
  visited-set cycle guard (`extract_urls`);
* `src/utils/robots_parser.py` — robots.txt sitemap discovery
  (`discover_sitemaps`, `_validate_sitemap`).

The Python code delegates URL parsing to CPython's `urllib.parse`
(`urlparse`, `urlunparse`, `urljoin`).  Those stdlib functions are embedded
here faithfully, following the CPython 3.11 implementation, over `List Char`:
scheme detection, netloc splitting with the bracket ("Invalid IPv6 URL")
check, fragment/query splitting, params splitting (`_splitparams`), and the
reassembly rules of `urlunsplit`/`urlunparse`.  Two stdlib audits that fire
only for exotic non-ASCII or bracketed hosts (`_checknetloc`'s NFKC audit and
`_check_bracketed_host`'s ipaddress validation) are not modelled: they can
only turn a successful parse into an error on such hosts and play no role in
the claims below.  Case mapping (`str.lower`) is modelled on ASCII via
`Char.toLower`, which agrees with Python on all ASCII text.

Network I/O, HTML parsing (BeautifulSoup) and XML parsing are modelled by
oracles: a fetch outcome per attempt for the page processor, a finite
URL→document map for the sitemap expander, and response oracles for the
robots discoverer.  Wall-clock response times are modelled by an opaque
`Val.vTime` marker, since no claim inspects their numeric value.
-/

deriving instance DecidableEq for Except

namespace SCV

abbrev Chars := List Char

/-- Split a list at the first occurrence of the character `c`.
Returns `some (before, after)` (neither part containing that occurrence),
or `none` when `c` does not occur.  This is the `str.split(c, 1)` /
`str.find(c)` primitive used throughout `urllib.parse`. -/
def splitFirst (c : Char) : Chars → Option (Chars × Chars)
  | [] => none
  | x :: xs =>
    if x = c then some ([], xs)
    else (splitFirst c xs).map (fun p => (x :: p.1, p.2))

/-- Python's `str.split(c)`: splits at every occurrence, keeping empty pieces
(`''.split('/') == ['']`). -/
def splitAll (c : Char) : Chars → List Chars
  | [] => [[]]
  | x :: xs =>
    let r := splitAll c xs
    if x = c then [] :: r
    else
      match r with
      | [] => [[x]]
      | h :: t => (x :: h) :: t

/-- Python `str.strip()` whitespace set, restricted to ASCII
(space, tab, LF, CR, VT, FF). -/
def pyWhitespace (c : Char) : Bool :=
  c == ' ' || c == '\t' || c == '\n' || c == '\r' || c == '\x0b' || c == '\x0c'

/-- Python `str.strip()` on a character list (ASCII whitespace). -/
def pyStrip (l : Chars) : Chars :=
  ((l.dropWhile pyWhitespace).reverse.dropWhile pyWhitespace).reverse

/-- Python `str.strip()` on a string. -/
def pyStripStr (s : String) : String := ⟨pyStrip s.data⟩

/-- Python `str.startswith` on strings (character-wise prefix test). -/
def pyStartsWith (s pre : String) : Bool := pre.data.isPrefixOf s.data

/-- Python `path.rstrip('/')`: drop every trailing slash. -/
def rstripSlashes (l : Chars) : Chars :=
  (l.reverse.dropWhile (fun c => c == '/')).reverse

/-- ASCII lower-casing of a character list, Python `str.lower()` on ASCII. -/
def pyLower (l : Chars) : Chars := l.map Char.toLower

/-- Characters of `urllib.parse.scheme_chars`:
ASCII letters, digits and `+`, `-`, `.`. -/
def scheme_chars (c : Char) : Bool :=
  c.isAlpha || c.isDigit || c == '+' || c == '-' || c == '.'

/-- Characters stripped from the front of a URL by CPython's `urlsplit`
(`_WHATWG_C0_CONTROL_OR_SPACE`: code points 0x00–0x20). -/
def wsControl (c : Char) : Bool := c.toNat ≤ 32

/-- Characters removed everywhere by CPython's `urlsplit`
(`_UNSAFE_URL_BYTES_TO_REMOVE`: tab, CR, LF). -/
def unsafeByte (c : Char) : Bool := c == '\t' || c == '\r' || c == '\n'

/-- The cleanup CPython's `urlsplit` applies before splitting:
left-strip C0 controls and space, then remove every tab/CR/LF. -/
def presplit (l : Chars) : Chars :=
  (l.dropWhile wsControl).filter (fun c => !unsafeByte c)

/-- Result of `urllib.parse.urlsplit`: the five components. -/
structure SplitResult where
  scheme : Chars
  netloc : Chars
  path : Chars
  query : Chars
  fragment : Chars
deriving DecidableEq, Repr

/-- Result of `urllib.parse.urlparse`: the six components. -/
structure ParseResult where
  scheme : Chars
  netloc : Chars
  path : Chars
  params : Chars
  query : Chars
  fragment : Chars
deriving DecidableEq, Repr

/-- Scheme detection inside CPython's `urlsplit`: a scheme is recognised when
the first `:` has a non-empty prefix whose first character is an ASCII letter
and whose characters all lie in `scheme_chars`; the scheme is lower-cased. -/
def detect_scheme (l : Chars) : Option (Chars × Chars) :=
  match splitFirst ':' l with
  | none => none
  | some (pre, rest) =>
    match pre with
    | [] => none
    | p0 :: _ =>
      if p0.isAlpha && pre.all scheme_chars then some (pyLower pre, rest)
      else none

/-- CPython's `_splitnetloc` (with `start = 2` already applied by the caller):
the netloc runs up to the first `/`, `?` or `#`. -/
def netlocDelim (c : Char) : Bool := c == '/' || c == '?' || c == '#'

/-- Embedding of `urllib.parse.urlsplit(url, scheme=default)` (CPython 3.11).
Errors model the `ValueError("Invalid IPv6 URL")` raised on unbalanced
brackets in the netloc. -/
def urlsplit (default : Chars) (url0 : Chars) : Except String SplitResult :=
  let url := presplit url0
  let sr : Chars × Chars :=
    match detect_scheme url with
    | some p => p
    | none => (default, url)
  let scheme := sr.1
  let rest := sr.2
  let nl : Except String (Chars × Chars) :=
    if rest.take 2 = ['/', '/'] then
      let netloc := (rest.drop 2).takeWhile (fun c => !netlocDelim c)
      if ('[' ∈ netloc ∧ ']' ∉ netloc) ∨ (']' ∈ netloc ∧ '[' ∉ netloc) then
        .error "Invalid IPv6 URL"
      else
        .ok (netloc, (rest.drop 2).dropWhile (fun c => !netlocDelim c))
    else .ok ([], rest)
  match nl with
  | .error e => .error e
  | .ok (netloc, rest1) =>
    let fr : Chars × Chars :=
      match splitFirst '#' rest1 with
      | some p => p
      | none => (rest1, [])
    let qr : Chars × Chars :=
      match splitFirst '?' fr.1 with
      | some p => p
      | none => (fr.1, [])
    .ok ⟨scheme, netloc, qr.1, qr.2, fr.2⟩

/-- `urllib.parse.uses_params` (CPython 3.11). -/
def uses_params : List String :=
  ["", "ftp", "hdl", "prospero", "http", "imap", "https", "shttp",
   "rtsp", "rtsps", "rtspu", "sip", "sips", "mms", "sftp", "tel"]

/-- `urllib.parse.uses_netloc` (CPython 3.11). -/
def uses_netloc : List String :=
  ["", "ftp", "http", "gopher", "nntp", "telnet", "imap", "wais", "file",
   "mms", "https", "shttp", "snews", "prospero", "rtsp", "rtsps", "rtspu",
   "rsync", "svn", "svn+ssh", "sftp", "nfs", "git", "git+ssh", "ws", "wss"]

/-- `urllib.parse.uses_relative` (CPython 3.11). -/
def uses_relative : List String :=
  ["", "ftp", "http", "gopher", "nntp", "imap", "wais", "file", "https",
   "shttp", "mms", "prospero", "rtsp", "rtsps", "rtspu", "sftp", "svn",
   "svn+ssh", "ws", "wss"]

/-- CPython's `_splitparams`: split path parameters at the first `;` of the
last path segment (the first `;` at or after `url.rfind('/')`), or at the
first `;` anywhere when the path has no `/`.  `urlparse` only calls this when
`';' in path`; on a `;`-free, `/`-free path CPython computes `url[:-1]`,
which the last branch mirrors. -/
def splitparams (p : Chars) : Chars × Chars :=
  if '/' ∈ p then
    let lastSeg := (p.reverse.takeWhile (fun c => c ≠ '/')).reverse
    match splitFirst ';' lastSeg with
    | none => (p, [])
    | some (a, b) => (p.take (p.length - lastSeg.length) ++ a, b)
  else
    match splitFirst ';' p with
    | some (a, b) => (a, b)
    | none => (p.dropLast, p)

/-- Embedding of `urllib.parse.urlparse(url, scheme=default)` (CPython 3.11):
`urlsplit` followed by params splitting for schemes in `uses_params`. -/
def urlparse (default : Chars) (url : Chars) : Except String ParseResult :=
  match urlsplit default url with
  | .error e => .error e
  | .ok s =>
    if (String.mk s.scheme) ∈ uses_params ∧ ';' ∈ s.path then
      let pp := splitparams s.path
      .ok ⟨s.scheme, s.netloc, pp.1, pp.2, s.query, s.fragment⟩
    else
      .ok ⟨s.scheme, s.netloc, s.path, [], s.query, s.fragment⟩

/-- Embedding of `urllib.parse.urlunsplit` (CPython 3.11), including the
`netloc or (scheme and scheme in uses_netloc and url[:2] != '//')` guard and
the leading-slash fix-up. -/
def urlunsplit (s : SplitResult) : Chars :=
  let url0 := s.path
  let url1 :=
    if s.netloc ≠ [] ∨
        (s.scheme ≠ [] ∧ (String.mk s.scheme) ∈ uses_netloc ∧
          url0.take 2 ≠ ['/', '/']) then
      ['/', '/'] ++ s.netloc ++
        (if url0 ≠ [] ∧ url0.head? ≠ some '/' then '/' :: url0 else url0)
    else url0
  let url2 := if s.scheme ≠ [] then s.scheme ++ ':' :: url1 else url1
  let url3 := if s.query ≠ [] then url2 ++ '?' :: s.query else url2
  if s.fragment ≠ [] then url3 ++ '#' :: s.fragment else url3

/-- Embedding of `urllib.parse.urlunparse` (CPython 3.11): re-attach params
with `;`, then `urlunsplit`. -/
def urlunparse (p : ParseResult) : Chars :=
  urlunsplit ⟨p.scheme, p.netloc,
    (if p.params ≠ [] then p.path ++ ';' :: p.params else p.path),
    p.query, p.fragment⟩

/-- Python `filter(None, ...)` applied to `segments[1:-1]` in `urljoin`:
keep the first and last segments, drop empty middle segments. -/
def filterMiddle : List Chars → List Chars
  | [] => []
  | [a] => [a]
  | a :: rest =>
    a :: ((rest.dropLast.filter (fun s => s ≠ [])) ++ [rest.getLastD []])

/-- Embedding of `urllib.parse.urljoin` (CPython 3.11), including the
dot-segment resolution loop. -/
def urljoin (base url : Chars) : Except String Chars :=
  if base = [] then .ok url
  else if url = [] then .ok base
  else
    match urlparse [] base with
    | .error e => .error e
    | .ok b =>
      match urlparse b.scheme url with
      | .error e => .error e
      | .ok t =>
        if t.scheme ≠ b.scheme ∨ (String.mk t.scheme) ∉ uses_relative then
          .ok url
        else if (String.mk t.scheme) ∈ uses_netloc ∧ t.netloc ≠ [] then
          .ok (urlunparse t)
        else
          let netloc :=
            if (String.mk t.scheme) ∈ uses_netloc then b.netloc else t.netloc
          if t.path = [] ∧ t.params = [] then
            let query := if t.query = [] then b.query else t.query
            .ok (urlunparse ⟨t.scheme, netloc, b.path, b.params, query,
              t.fragment⟩)
          else
            let base_parts0 := splitAll '/' b.path
            let base_parts :=
              if base_parts0.getLast? ≠ some [] then base_parts0.dropLast
              else base_parts0
            let segments :=
              if t.path.take 1 = ['/'] then splitAll '/' t.path
              else filterMiddle (base_parts ++ splitAll '/' t.path)
            let resolved := segments.foldl
              (fun acc seg =>
                if seg = ['.', '.'] then acc.dropLast
                else if seg = ['.'] then acc
                else acc ++ [seg]) ([] : List Chars)
            let resolved :=
              if segments.getLast? = some ['.'] ∨
                  segments.getLast? = some ['.', '.'] then
                resolved ++ [[]]
              else resolved
            let joined := List.intercalate ['/'] resolved
            .ok (urlunparse ⟨t.scheme, netloc,
              (if joined = [] then ['/'] else joined),
              t.params, t.query, t.fragment⟩)

/-- String-level `urljoin`; `none` models a raised `ValueError`. -/
def urljoinStr (base url : String) : Except String String :=
  match urljoin base.data url.data with
  | .error e => .error e
  | .ok l => .ok ⟨l⟩

/-- Normalization configuration of `URLProcessor`
(`force_https`, `remove_trailing_slash`, `ignore_query_params`). -/
structure Config where
  force_https : Bool
  remove_trailing_slash : Bool
  ignore_query_params : Bool
deriving DecidableEq, Repr

/-- The component rewriting done by `URLProcessor._normalize_url` between
parsing and reassembly: optionally rewrite `http` to `https`, optionally
strip trailing slashes (keeping a bare `/`), optionally drop the query,
lower-case the netloc, drop the fragment. -/
def normComponents (cfg : Config) (p : ParseResult) : ParseResult :=
  ⟨(if cfg.force_https ∧ p.scheme = ("http".data) then "https".data
    else p.scheme),
   p.netloc.map Char.toLower,
   (if cfg.remove_trailing_slash ∧ p.path.getLast? = some '/' ∧
        p.path ≠ ['/'] then
      rstripSlashes p.path
    else p.path),
   p.params,
   (if cfg.ignore_query_params then [] else p.query),
   []⟩

/-- Embedding of `URLProcessor._normalize_url`: parse, rewrite the
components per the configuration (`normComponents`), reassemble.  An
`.error` models the `ValueError` that `urlparse` can raise (uncaught inside
`_normalize_url`). -/
def normalize_url (cfg : Config) (url : Chars) : Except String Chars :=
  if url = [] then .ok url
  else
    match urlparse [] url with
    | .error e => .error e
    | .ok p => .ok (urlunparse (normComponents cfg p))

/-- String-level `_normalize_url`. -/
def normalizeStr (cfg : Config) (s : String) : Except String String :=
  match normalize_url cfg s.data with
  | .error e => .error e
  | .ok l => .ok ⟨l⟩

/-! ### Helper notions for the normalization fixed-point analysis -/

/-- The path-with-params string that `urlunparse` rebuilds before handing to
`urlunsplit`. -/
def joinParams (path params : Chars) : Chars :=
  if params ≠ [] then path ++ ';' :: params else path

/-- The last path segment, in the sense of `_splitparams`: everything after
the last `/` (the whole string when there is no `/`). -/
def lastSegment (p : Chars) : Chars :=
  (p.reverse.takeWhile (fun c => c ≠ '/')).reverse

/-- The prefix of a path up to and including its last `/` (empty when there
is no `/`). -/
def lastSegPre (p : Chars) : Chars :=
  (p.reverse.dropWhile (fun c => c ≠ '/')).reverse

/-- The leading-slash fix-up `urlunsplit` applies to the path when a netloc
part is emitted. -/
def fixSlash (l : Chars) : Chars :=
  if l ≠ [] ∧ l.head? ≠ some '/' then '/' :: l else l

/-- The guard under which `urlunsplit` emits a `//` netloc part. -/
def usCond (s : SplitResult) : Prop :=
  s.netloc ≠ [] ∨
    (s.scheme ≠ [] ∧ (String.mk s.scheme) ∈ uses_netloc ∧
      s.path.take 2 ≠ ['/', '/'])

instance (s : SplitResult) : Decidable (usCond s) := by
  unfold usCond
  infer_instance

/-- The scheme-less, query-less body assembled by `urlunsplit`. -/
def usBody (s : SplitResult) : Chars :=
  if usCond s then ['/', '/'] ++ s.netloc ++ fixSlash s.path else s.path

/-- The path component that `urlsplit` recovers from `urlunparse` output:
the joined path-with-params, with the leading-slash fix-up when the netloc
guard fires. -/
def reparsedPath (q : ParseResult) : Chars :=
  if usCond ⟨q.scheme, q.netloc, joinParams q.path q.params, q.query,
      q.fragment⟩ then
    fixSlash (joinParams q.path q.params)
  else joinParams q.path q.params

/-- A non-empty character list that `urlsplit`'s scheme detection would
accept as a scheme prefix. -/
def schemeLike (s : Chars) : Bool :=
  match s with
  | [] => false
  | c :: _ => c.isAlpha && s.all scheme_chars

/-- The path cannot fool scheme re-detection: its first-colon prefix (if
any) is not scheme-like. -/
def NoSchemeColon (p : Chars) : Prop :=
  ∀ pre rest, splitFirst ':' p = some (pre, rest) → schemeLike pre = false

/-- Shape invariant satisfied by the components `_normalize_url` reassembles,
under the hypotheses of the amended idempotence claim.  `urlunparse` of such
components re-parses to components that normalize and reassemble to the very
same string. -/
structure NormInv (cfg : Config) (q : ParseResult) : Prop where
  scheme_ok : q.scheme = [] ∨
    (schemeLike q.scheme = true ∧ pyLower q.scheme = q.scheme ∧
      (cfg.force_https = true → q.scheme ≠ "http".data))
  netloc_nodelim : ∀ c ∈ q.netloc, netlocDelim c = false
  brackets : ('[' ∈ q.netloc ↔ ']' ∈ q.netloc)
  netloc_lower : q.netloc.map Char.toLower = q.netloc
  path_nohash : '#' ∉ q.path
  path_noq : '?' ∉ q.path
  params_nohash : '#' ∉ q.params
  params_noq : '?' ∉ q.params
  params_noslash : '/' ∉ q.params
  query_nohash : '#' ∉ q.query
  query_drop : cfg.ignore_query_params = true → q.query = []
  frag : q.fragment = []
  scheme_clean : ∀ c ∈ q.scheme, unsafeByte c = false
  netloc_clean : ∀ c ∈ q.netloc, unsafeByte c = false
  path_clean : ∀ c ∈ q.path, unsafeByte c = false
  params_clean : ∀ c ∈ q.params, unsafeByte c = false
  query_clean : ∀ c ∈ q.query, unsafeByte c = false
  head_ok : q.scheme = [] → q.netloc = [] →
    ∀ c, q.path.head? = some c → wsControl c = false
  noscheme : q.scheme = [] → NoSchemeColon q.path
  nohazard : q.netloc = [] → q.path.take 2 ≠ ['/', '/']
  params_empty_ok : q.params = [] →
    (String.mk q.scheme) ∉ uses_params ∨ ';' ∉ lastSegment q.path
  mode : cfg.remove_trailing_slash = false ∨
    (';' ∉ q.path ∧ q.params = [] ∧
      (q.path = ['/'] ∨ ∀ c, q.path.getLast? = some c → c ≠ '/'))

/-! ### Records produced by `URLProcessor`

The Python code returns plain dicts.  They are embedded as association
lists of field name / value pairs, in the exact key order of the dict
literals, so that claims about the exposed field set can be stated
directly.  `Val.vTime` stands for the measured float `response_time`
(no claim inspects its numeric value). -/

/-- Value stored in a result dict. -/
inductive Val where
  | vStr (s : String)
  | vNat (n : Nat)
  | vNone
  | vTime
deriving DecidableEq, Repr

/-- A result dict: field names with values, in literal order. -/
abbrev Record := List (String × Val)

/-- Field access on a record (first binding wins, as in a dict). -/
def getField (r : Record) (k : String) : Option Val :=
  (r.find? (fun p => p.1 == k)).map (·.2)

/-- Outcome of one HTML page, as far as `_analyze_canonical_tag` consumes it:
the final URL after redirects (`response.url`), the `href` attribute of each
`<link rel="canonical">` tag found by BeautifulSoup (`none` when the tag has
no `href` attribute — `tag.get('href', '')` then yields `''`), and an
optional message modelling an exception raised while parsing the HTML. -/
structure PageData where
  final_url : String
  tags : List (Option String)
  parse_error : Option String
deriving DecidableEq, Repr

/-- The `except Exception` record of `_analyze_canonical_tag` (its `try`
covers the whole body, so `urljoin`/`_normalize_url` raising `ValueError`
also lands here). -/
def htmlFailRecord (original_url : String) (e : String) (status_code : Nat) :
    Record :=
  [("URL", .vStr original_url), ("Canonical URL", .vNone),
   ("Status", .vStr "Error"),
   ("Error", .vStr ("HTML parsing failed: " ++ e)),
   ("Response Time", .vTime), ("HTTP Status", .vNat status_code)]

/-- Embedding of `URLProcessor._analyze_canonical_tag` (url_processor.py,
lines 129–206): classify by the number of canonical tags, falling back to
normalized comparison for a single non-empty tag. -/
def analyze_canonical_tag (cfg : Config) (original_url : String)
    (page : PageData) (status_code : Nat) : Record :=
  match page.parse_error with
  | some e => htmlFailRecord original_url e status_code
  | none =>
    match page.tags with
    | [] =>
      [("URL", .vStr original_url), ("Canonical URL", .vNone),
       ("Status", .vStr "Missing"),
       ("Error", .vStr "No canonical tag found"),
       ("Response Time", .vTime), ("HTTP Status", .vNat status_code)]
    | t1 :: t2 :: ts =>
      let tags := t1 :: t2 :: ts
      [("URL", .vStr original_url),
       ("Canonical URL",
         .vStr (String.intercalate ", " (tags.map (fun t => t.getD "")))),
       ("Status", .vStr "Multiple"),
       ("Error", .vStr ("Multiple canonical tags found: " ++
         toString tags.length)),
       ("Response Time", .vTime), ("HTTP Status", .vNat status_code)]
    | [tag] =>
      let canonical_href := pyStripStr (tag.getD "")
      if canonical_href = "" then
        [("URL", .vStr original_url), ("Canonical URL", .vNone),
         ("Status", .vStr "Empty"),
         ("Error", .vStr "Canonical tag is empty"),
         ("Response Time", .vTime), ("HTTP Status", .vNat status_code)]
      else
        match urljoinStr page.final_url canonical_href with
        | .error e => htmlFailRecord original_url e status_code
        | .ok canonical_url =>
          match normalizeStr cfg page.final_url,
              normalizeStr cfg canonical_url with
          | .error e, _ => htmlFailRecord original_url e status_code
          | .ok _, .error e => htmlFailRecord original_url e status_code
          | .ok normalized_original, .ok normalized_canonical =>
            if normalized_original = normalized_canonical then
              [("URL", .vStr original_url),
               ("Final URL", .vStr page.final_url),
               ("Canonical URL", .vStr canonical_url),
               ("Status", .vStr "Match"), ("Error", .vNone),
               ("Response Time", .vTime),
               ("HTTP Status", .vNat status_code)]
            else
              [("URL", .vStr original_url),
               ("Final URL", .vStr page.final_url),
               ("Canonical URL", .vStr canonical_url),
               ("Status", .vStr "Mismatch"),
               ("Error", .vStr "Canonical URL does not match page URL"),
               ("Response Time", .vTime),
               ("HTTP Status", .vNat status_code)]

/-- Outcome of one `session.get` attempt, as `_process_single_url` observes
it: an HTTP response with a status code and page content, a
`requests.RequestException` (retried), or any other exception (escapes the
function). -/
inductive FetchOutcome where
  | resp (status_code : Nat) (page : PageData)
  | reqExc (msg : String)
  | otherExc (msg : String)
deriving DecidableEq, Repr

/-- Observable side effects of the attempt loop: one `session.get` per
attempt and the fixed `time.sleep(1)` back-off before each retry. -/
inductive Event where
  | fetch (attempt : Nat)
  | sleep (seconds : Nat)
deriving DecidableEq, Repr

/-- Processor configuration relevant to the modelled behavior
(`max_retries` plus the three normalization flags of `URLProcessor`). -/
structure Processor where
  max_retries : Nat
  force_https : Bool
  remove_trailing_slash : Bool
  ignore_query_params : Bool
deriving DecidableEq, Repr

/-- The normalization configuration carried by a processor. -/
def Processor.cfg (p : Processor) : Config :=
  ⟨p.force_https, p.remove_trailing_slash, p.ignore_query_params⟩

/-- The non-200 record of `_process_single_url` (lines 106–113). -/
def httpErrorRecord (url : String) (code : Nat) : Record :=
  [("URL", .vStr url), ("Canonical URL", .vNone), ("Status", .vStr "Error"),
   ("Error", .vStr ("HTTP " ++ toString code)),
   ("Response Time", .vTime), ("HTTP Status", .vNat code)]

/-- The exhausted-retries record of `_process_single_url` (lines 117–124). -/
def requestFailedRecord (url : String) (msg : String) : Record :=
  [("URL", .vStr url), ("Canonical URL", .vNone), ("Status", .vStr "Error"),
   ("Error", .vStr ("Request failed: " ++ msg)),
   ("Response Time", .vTime), ("HTTP Status", .vNone)]

/-- The attempt loop of `_process_single_url` (lines 85–127): `k` is the
current attempt index, `remaining` the number of loop iterations left
(`max_retries - k`).  Returns the record (`ok none` models Python's
fall-through `return None` when the loop runs zero times) or a propagated
non-`RequestException` error, together with the fetch/sleep event trace. -/
def process_attempts (proc : Processor) (url : String)
    (att : Nat → FetchOutcome) :
    Nat → Nat → Except String (Option Record) × List Event
  | _, 0 => (.ok none, [])
  | k, remaining + 1 =>
    match att k with
    | .otherExc m => (.error m, [.fetch k])
    | .resp code page =>
      if code = 200 then
        (.ok (some (analyze_canonical_tag proc.cfg url page code)),
          [.fetch k])
      else (.ok (some (httpErrorRecord url code)), [.fetch k])
    | .reqExc m =>
      if remaining = 0 then
        (.ok (some (requestFailedRecord url m)), [.fetch k])
      else
        let r := process_attempts proc url att (k + 1) remaining
        (r.1, .fetch k :: .sleep 1 :: r.2)

/-- Embedding of `URLProcessor._process_single_url`. -/
def process_single_url (proc : Processor) (url : String)
    (att : Nat → FetchOutcome) : Except String (Option Record) × List Event :=
  process_attempts proc url att 0 proc.max_retries

/-- The `'Processing failed: ...'` record appended by `process_urls` when a
task raised (lines 66–73). -/
def processingFailedRecord (url : String) (e : String) : Record :=
  [("URL", .vStr url), ("Canonical URL", .vNone), ("Status", .vStr "Error"),
   ("Error", .vStr ("Processing failed: " ++ e)),
   ("Response Time", .vNone), ("HTTP Status", .vNone)]

/-- Embedding of `URLProcessor.process_urls` (lines 47–79).  `att` gives the
per-URL attempt outcomes; `order` is the order in which the futures complete
(`as_completed` order — any permutation of the submitted URLs).  Each
completed future appends exactly one entry: its record, the
`'Processing failed: ...'` record when the task raised, or literally `None`
when `_process_single_url` fell through (only possible with
`max_retries = 0`). -/
def process_urls (proc : Processor) (att : String → Nat → FetchOutcome)
    (order : List String) : List (Option Record) :=
  order.map (fun url =>
    match (process_single_url proc url (att url)).1 with
    | .ok r => r
    | .error e => some (processingFailedRecord url e))

/-! ### Robots.txt sitemap discovery (`robots_parser.py`) -/

/-- A HEAD response as `_validate_sitemap` consumes it: the status code and
the `content-type` / `content-length` headers (`none` = header absent). -/
structure HeadResponse where
  status_code : Nat
  content_type : String
  content_length : Option String
deriving DecidableEq, Repr

/-- Network oracle for the robots parser: `get` models `requests.get`
(robots.txt: status code and body text), `head` models `requests.head`;
`.error` is a raised `requests.RequestException`. -/
structure RobotsNet where
  get : String → Except String (Nat × String)
  head : String → Except String HeadResponse

/-- A discovered sitemap dict (`_validate_sitemap`'s success value). -/
structure SitemapInfo where
  url : String
  type : String
  status : String
  content_type : String
  size : String
deriving DecidableEq, Repr

/-- Python's substring containment test `needle in hay`. -/
def containsSub (needle : Chars) : Chars → Bool
  | [] => needle.isPrefixOf []
  | x :: t => needle.isPrefixOf (x :: t) || containsSub needle t

/-- Embedding of `RobotsParser._determine_sitemap_type`. -/
def determine_sitemap_type (url content_type : String) : String :=
  let url_lower : String := ⟨pyLower url.data⟩
  if containsSub "xml".data content_type.data ∨
      ".xml".data.isSuffixOf url_lower.data then
    if containsSub "index".data url_lower.data then "XML Index"
    else "XML Sitemap"
  else if containsSub "text".data content_type.data ∨
      ".txt".data.isSuffixOf url_lower.data then "Text Sitemap"
  else if ".gz".data.isSuffixOf url_lower.data then "Compressed Sitemap"
  else if containsSub "json".data content_type.data ∨
      ".json".data.isSuffixOf url_lower.data then "JSON Sitemap"
  else "Unknown Format"

/-- Embedding of `RobotsParser._validate_sitemap`: a HEAD request; any
`RequestException` is swallowed (`none`), a non-200 status yields `none`,
and a 200 yields the classified candidate. -/
def validate_sitemap (net : RobotsNet) (sitemap_url : String) :
    Option SitemapInfo :=
  match net.head sitemap_url with
  | .error _ => none
  | .ok r =>
    if r.status_code = 200 then
      let content_type : String := ⟨pyLower r.content_type.data⟩
      some ⟨sitemap_url, determine_sitemap_type sitemap_url content_type,
        "Available", content_type, r.content_length.getD "Unknown"⟩
    else none

/-- The fixed well-known sitemap paths probed by
`_check_common_sitemap_locations`. -/
def common_paths : List String :=
  ["/sitemap.xml", "/sitemap_index.xml", "/sitemaps.xml", "/sitemap.txt",
   "/sitemap"]

/-- One iteration of `_check_common_sitemap_locations`' loop: resolve the
well-known path against the base URL and append the candidate when it
validates. -/
def probe_location (net : RobotsNet) (base_url : String)
    (acc : List SitemapInfo) (path : String) :
    Except String (List SitemapInfo) := do
  let sitemap_url ← urljoinStr base_url path
  pure (match validate_sitemap net sitemap_url with
    | some info => acc ++ [info]
    | none => acc)

/-- Embedding of `RobotsParser._check_common_sitemap_locations`. -/
def check_common_sitemap_locations (net : RobotsNet) (base_url : String) :
    Except String (List SitemapInfo) :=
  common_paths.foldlM (probe_location net base_url) ([] : List SitemapInfo)

/-- Drop everything up to and including the next newline (the scanner's move
to the next `^` anchor position of a MULTILINE regex). -/
def dropToNextLine (l : Chars) : Chars :=
  match splitFirst '\n' l with
  | some p => p.2
  | none => []

theorem length_takeWhile_le (p : Char → Bool) (l : Chars) :
    (l.takeWhile p).length ≤ l.length := by
  induction l with
  | nil => simp
  | cons x xs ih =>
    by_cases h : p x <;> simp [List.takeWhile_cons, h] <;> omega

theorem length_dropWhile_le (p : Char → Bool) (l : Chars) :
    (l.dropWhile p).length ≤ l.length := by
  induction l with
  | nil => simp
  | cons x xs ih =>
    by_cases h : p x <;> simp [List.dropWhile_cons, h] <;> omega

theorem splitFirst_snd_length_lt {c : Char} {l a b : Chars}
    (h : splitFirst c l = some (a, b)) : b.length < l.length := by
  induction l generalizing a b with
  | nil => simp [splitFirst] at h
  | cons x xs ih =>
    rw [splitFirst] at h
    by_cases hx : x = c
    · rw [if_pos hx] at h
      obtain ⟨h1, h2⟩ := Prod.mk.injEq _ _ _ _ |>.mp (Option.some.inj h)
      subst h2
      simp
    · rw [if_neg hx] at h
      cases hsp : splitFirst c xs with
      | none => rw [hsp] at h; simp at h
      | some p =>
        rw [hsp] at h
        obtain ⟨h1, h2⟩ := Prod.mk.injEq _ _ _ _ |>.mp (Option.some.inj h)
        subst h2
        have := ih (a := p.1) (b := p.2) (by rw [hsp])
        simp
        omega

theorem dropToNextLine_length_le (l : Chars) :
    (dropToNextLine l).length ≤ l.length := by
  unfold dropToNextLine
  match h : splitFirst '\n' l with
  | none => simp
  | some (a, b) => exact le_of_lt (splitFirst_snd_length_lt h)

theorem dropToNextLine_length_lt (l : Chars) (h : l ≠ []) :
    (dropToNextLine l).length < l.length := by
  unfold dropToNextLine
  match hs : splitFirst '\n' l with
  | none => simpa [List.length_pos] using h
  | some (a, b) => exact splitFirst_snd_length_lt hs

/-- Attempt to match `sitemap:\s*(.+)$` (IGNORECASE) at a line-start
position.  Mirrors the regex engine: after the case-insensitive `sitemap:`
literal, `\s*` greedily eats whitespace (which may include newlines, letting
a match spill onto a following line); `(.+)$` then takes the rest of that
line; if only whitespace remains, backtracking yields the last non-newline
whitespace character as the group.  Returns the group and the remainder of
the input after the match. -/
def sitemapMatchAt (l : Chars) : Option (Chars × Chars) :=
  if pyLower (l.take 8) = ("sitemap:".data) then
    let afterKey := l.drop 8
    let w := afterKey.takeWhile pyWhitespace
    let r := afterKey.dropWhile pyWhitespace
    if r ≠ [] then
      some (r.takeWhile (fun c => c ≠ '\n'), r.dropWhile (fun c => c ≠ '\n'))
    else
      let wrev := w.reverse
      match wrev.dropWhile (fun c => c = '\n') with
      | [] => none
      | g :: _ => some ([g], (wrev.takeWhile (fun c => c = '\n')).reverse)
  else none

theorem sitemapMatchAt_rest_lt {l g rest : Chars}
    (h : sitemapMatchAt l = some (g, rest)) : rest.length < l.length := by
  unfold sitemapMatchAt at h
  split at h
  case isFalse => exact absurd h (by simp)
  case isTrue h8 =>
    have hlen8 : 8 ≤ l.length := by
      have hc := congrArg List.length h8
      have hr8 : ("sitemap:".data).length = 8 := rfl
      simp only [pyLower, List.length_map, List.length_take, hr8] at hc
      omega
    have hakLen : (l.drop 8).length = l.length - 8 := by simp
    dsimp only at h
    split at h
    case isTrue hr =>
      obtain ⟨h1, h2⟩ := Prod.mk.injEq _ _ _ _ |>.mp (Option.some.inj h)
      have hb : rest.length ≤ ((l.drop 8).dropWhile pyWhitespace).length := by
        rw [← h2]
        exact length_dropWhile_le _ _
      have hb2 := length_dropWhile_le pyWhitespace (l.drop 8)
      omega
    case isFalse hr =>
      split at h
      · exact absurd h (by simp)
      · obtain ⟨h1, h2⟩ := Prod.mk.injEq _ _ _ _ |>.mp (Option.some.inj h)
        have hb : rest.length ≤ (l.drop 8).length := by
          rw [← h2]
          have ha := length_takeWhile_le (fun c => c = '\n')
            ((l.drop 8).takeWhile pyWhitespace).reverse
          have hb := length_takeWhile_le pyWhitespace (l.drop 8)
          simp at ha ⊢
          omega
        omega

/-- The match results of `re.findall(r'^sitemap:\s*(.+)$', content,
re.IGNORECASE | re.MULTILINE)`: scan every `^` anchor position (start of
input, then after each newline), emitting each match's group and resuming
after the match. -/
def findSitemapDirectives (l : Chars) : List Chars :=
  if hl : l = [] then []
  else
    match hm : sitemapMatchAt l with
    | some (g, rest) => g :: findSitemapDirectives (dropToNextLine rest)
    | none => findSitemapDirectives (dropToNextLine l)
termination_by l.length
decreasing_by
  · exact lt_of_le_of_lt (dropToNextLine_length_le rest)
      (sitemapMatchAt_rest_lt hm)
  · exact dropToNextLine_length_lt l hl

/-- Embedding of `RobotsParser._parse_robots_content`: extract `Sitemap:`
directives, resolve relative ones against the base URL (a raised
`ValueError` from `urljoin` propagates), validate each candidate, and fall
back to the well-known locations when no directive validated. -/
def parse_robots_content (net : RobotsNet) (content base_url : String) :
    Except String (List SitemapInfo) := do
  let ms := findSitemapDirectives content.data
  let sitemaps ← ms.foldlM
    (fun acc m => do
      let sitemap_url := pyStripStr ⟨m⟩
      let sitemap_url ←
        if pyStartsWith sitemap_url "http://" ∨
            pyStartsWith sitemap_url "https://" then
          pure sitemap_url
        else urljoinStr base_url sitemap_url
      pure (match validate_sitemap net sitemap_url with
        | some info => acc ++ [info]
        | none => acc))
    ([] : List SitemapInfo)
  if sitemaps = [] then check_common_sitemap_locations net base_url
  else pure sitemaps

/-- Embedding of `RobotsParser.discover_sitemaps` (lines 17–51): normalize
the domain, build the base URL, fetch robots.txt (`RequestException` is
wrapped and re-raised — the only network call whose failure escapes), parse
directives on 200, otherwise probe the well-known locations.  The
`urlparse`/`urljoin` calls sit outside the `try`, so their `ValueError`
also propagates. -/
def discover_sitemaps (net : RobotsNet) (domain : String) :
    Except String (List SitemapInfo) :=
  let domain1 :=
    if pyStartsWith domain "http://" ∨ pyStartsWith domain "https://" then
      domain
    else "https://" ++ domain
  match urlparse [] domain1.data with
  | .error e => .error e
  | .ok p =>
    let base_url := String.mk p.scheme ++ "://" ++ String.mk p.netloc
    match urljoinStr base_url "/robots.txt" with
    | .error e => .error e
    | .ok robots_url =>
      match net.get robots_url with
      | .error e =>
        .error ("Failed to fetch robots.txt from " ++ robots_url ++ ": " ++ e)
      | .ok (code, text) =>
        if code = 200 then parse_robots_content net text base_url
        else check_common_sitemap_locations net base_url

/-! ### Sitemap expansion (`sitemap_parser.py`)

`extract_urls` fetches a sitemap, parses it, and for a sitemap index
recursively expands each child `<loc>`.  The instance-level
`processed_sitemaps` set guards against cycles (lines 31–34).  Fetching,
decompression and format sniffing are collapsed into a finite map from
sitemap URL to parsed document: `none` models a `requests.RequestException`
(wrapped into `"Failed to fetch sitemap ..."`), `parseFail` models an
exception while parsing (wrapped into `"Failed to parse sitemap ..."`).
A child's propagated exception is re-wrapped by the parent's generic
`except Exception` clause, as in the source.  The returned visited set
carries a growth certificate (`visited ⊆ result`), which both justifies
termination and is the key invariant; the second returned list logs the
URLs actually fetched, in order. -/

/-- A parsed sitemap document, as `extract_urls` consumes it.
For `sitemapindex`/`urlset`, each entry is the text of a `<loc>` child
(`none` when the element is absent or its text is falsy).  `flat` covers the
text/JSON/auto-detected formats, which yield their URL list directly. -/
inductive SitemapDoc where
  | sitemapindex (entries : List (Option String))
  | urlset (entries : List (Option String))
  | flat (urls : List String)
  | parseFail (msg : String)
deriving DecidableEq, Repr

/-- The reachable sitemap universe: URL → document; absent URLs fail to
fetch. -/
structure SitemapWorld where
  docs : List (String × SitemapDoc)
deriving DecidableEq, Repr

/-- Fetch-and-parse oracle lookup. -/
def SitemapWorld.fetch (w : SitemapWorld) (u : String) : Option SitemapDoc :=
  (w.docs.find? (fun p => p.1 == u)).map (·.2)

/-- The finite set of fetchable sitemap URLs (termination measure base). -/
def SitemapWorld.domainSet (w : SitemapWorld) : Finset String :=
  (w.docs.map (·.1)).toFinset

theorem SitemapWorld.fetch_mem_domainSet {w : SitemapWorld} {u : String}
    {d : SitemapDoc} (h : w.fetch u = some d) : u ∈ w.domainSet := by
  unfold SitemapWorld.fetch at h
  cases hf : w.docs.find? (fun p => p.1 == u) with
  | none => rw [hf] at h; simp at h
  | some p =>
    have hmem := List.mem_of_find?_eq_some hf
    have heq : p.1 = u := by
      have := List.find?_some hf
      simpa using this
    unfold SitemapWorld.domainSet
    subst heq
    simp
    exact ⟨p.2, hmem⟩

/-- Joint result of an expansion step: extracted page URLs, the log of
sitemap URLs fetched (in fetch order), and the grown visited set. -/
def ExtractResult (visited : Finset String) : Type :=
  List String × List String × {v : Finset String // visited ⊆ v}

mutual

/-- Embedding of `SitemapParser.extract_urls` (lines 21–67): return `[]` at
once when the URL was already processed; otherwise mark it processed, fetch
and parse, and either collect leaf `<loc>` URLs or recurse over a sitemap
index's children.  Errors model the raised (wrapped) exceptions. -/
def extract_urls (w : SitemapWorld) (url : String)
    (visited : Finset String) : Except String (ExtractResult visited) :=
  if hv : url ∈ visited then .ok ([], [], ⟨visited, Finset.Subset.refl _⟩)
  else
    match hw : w.fetch url with
    | none => .error ("Failed to fetch sitemap " ++ url)
    | some (.parseFail m) =>
      .error ("Failed to parse sitemap " ++ url ++ ": " ++ m)
    | some (.urlset entries) =>
      .ok (entries.filterMap (fun o => o.map pyStripStr), [url],
        ⟨insert url visited, Finset.subset_insert _ _⟩)
    | some (.flat urls) =>
      .ok (urls, [url], ⟨insert url visited, Finset.subset_insert _ _⟩)
    | some (.sitemapindex entries) =>
      match extract_children w (entries.filterMap (fun o => o.map pyStripStr))
          (insert url visited) with
      | .error e => .error ("Failed to parse sitemap " ++ url ++ ": " ++ e)
      | .ok (us, fs, ⟨v2, h2⟩) =>
        .ok (us, url :: fs, ⟨v2, (Finset.subset_insert _ _).trans h2⟩)
termination_by ((w.domainSet \ visited).card, 0)
decreasing_by
  apply Prod.Lex.left
  apply Finset.card_lt_card
  constructor
  · exact Finset.sdiff_subset_sdiff (Finset.Subset.refl _)
      (Finset.subset_insert _ _)
  · intro hsub
    have hmem : url ∈ w.domainSet \ visited :=
      Finset.mem_sdiff.mpr ⟨SitemapWorld.fetch_mem_domainSet hw, hv⟩
    have := hsub hmem
    simp at this

/-- The recursion over a sitemap index's children (lines 106–110): expand
each child in order, threading the processed set and concatenating results;
a child's exception aborts the remaining children. -/
def extract_children (w : SitemapWorld) (cs : List String)
    (v : Finset String) : Except String (ExtractResult v) :=
  match cs with
  | [] => .ok ([], [], ⟨v, Finset.Subset.refl _⟩)
  | c :: rest =>
    match extract_urls w c v with
    | .error e => .error e
    | .ok (us, fs, ⟨v1, h1⟩) =>
      match extract_children w rest v1 with
      | .error e => .error e
      | .ok (us2, fs2, ⟨v2, h2⟩) =>
        .ok (us ++ us2, fs ++ fs2, ⟨v2, h1.trans h2⟩)
termination_by ((w.domainSet \ v).card, cs.length + 1)
decreasing_by
  · exact Prod.Lex.right _ (by omega)
  · have hle : (w.domainSet \ v1).card ≤ (w.domainSet \ v).card :=
      Finset.card_le_card
        (Finset.sdiff_subset_sdiff (Finset.Subset.refl _) h1)
    rcases lt_or_eq_of_le hle with hlt | heq
    · exact Prod.Lex.left _ _ hlt
    · rw [heq]
      exact Prod.Lex.right _ (by simp)

end

/-- Projections of `extract_urls` used in claim statements: the extracted
URL list. -/
def extractUrls (w : SitemapWorld) (url : String) (visited : Finset String) :
    Except String (List String) :=
  (extract_urls w url visited).map (·.1)

/-- The log of sitemap URLs actually fetched during `extract_urls`. -/
def extractFetched (w : SitemapWorld) (url : String)
    (visited : Finset String) : Except String (List String) :=
  (extract_urls w url visited).map (·.2.1)

/-- The processed-sitemaps set after `extract_urls` (the instance state
`self.processed_sitemaps`). -/
def extractVisited (w : SitemapWorld) (url : String)
    (visited : Finset String) : Except String (Finset String) :=
  (extract_urls w url visited).map (·.2.2.1)

/-- Field names of a record, in dict-literal order. -/
def recordKeys (r : Record) : List String := r.map (·.1)

/-- The seven-field set of a Match/Mismatch record. -/
def sevenFields : List String :=
  ["URL", "Final URL", "Canonical URL", "Status", "Error", "Response Time",
   "HTTP Status"]

/-- The six-field set of every other record (no `Final URL`). -/
def sixFields : List String :=
  ["URL", "Canonical URL", "Status", "Error", "Response Time", "HTTP Status"]

/-- The fetch-log invariant: fetched URLs are pairwise distinct, none was in
the incoming visited set, and all are in the outgoing one. -/
def FetchInv (v : Finset String) (res : ExtractResult v) : Prop :=
  res.2.1.Nodup ∧ ∀ f ∈ res.2.1, f ∉ v ∧ f ∈ res.2.2.1

/-- A cyclic sitemap-index world: A references B; B references A (the cycle)
and a leaf urlset C. -/
def cycleWorld : SitemapWorld :=
  ⟨[("A", .sitemapindex [some "B"]),
    ("B", .sitemapindex [some "A", some "C"]),
    ("C", .urlset [some "https://e/1", some "https://e/2"])]⟩


end SCV

namespace SCV

/-! ## Supporting lemmas about the record shapes -/

theorem analyze_shape (cfg : Config) (url : String) (page : PageData)
    (code : Nat) :
    ∃ s, getField (analyze_canonical_tag cfg url page code) "Status" =
        some (.vStr s) ∧
      ((s = "Match" ∨ s = "Mismatch") ∧
        recordKeys (analyze_canonical_tag cfg url page code) = sevenFields ∨
       s ∈ (["Missing", "Multiple", "Empty", "Error"] : List String) ∧
        recordKeys (analyze_canonical_tag cfg url page code) = sixFields) := by
  unfold analyze_canonical_tag htmlFailRecord
  dsimp only
  repeat' split
  all_goals first
    | exact ⟨"Error", rfl, Or.inr ⟨by decide, rfl⟩⟩
    | exact ⟨"Missing", rfl, Or.inr ⟨by decide, rfl⟩⟩
    | exact ⟨"Multiple", rfl, Or.inr ⟨by decide, rfl⟩⟩
    | exact ⟨"Empty", rfl, Or.inr ⟨by decide, rfl⟩⟩
    | exact ⟨"Match", rfl, Or.inl ⟨Or.inl rfl, rfl⟩⟩
    | exact ⟨"Mismatch", rfl, Or.inl ⟨Or.inr rfl, rfl⟩⟩

theorem analyze_url_field (cfg : Config) (url : String) (page : PageData)
    (code : Nat) :
    getField (analyze_canonical_tag cfg url page code) "URL" =
      some (.vStr url) := by
  unfold analyze_canonical_tag htmlFailRecord
  dsimp only
  repeat' split
  all_goals rfl

end SCV

namespace SCV

theorem process_attempts_ok_cases (proc : Processor) (url : String)
    (att : Nat → FetchOutcome) :
    ∀ n k r, (process_attempts proc url att k n).1 = .ok (some r) →
      (∃ page code, r = analyze_canonical_tag proc.cfg url page code) ∨
      (∃ code, r = httpErrorRecord url code) ∨
      (∃ m, r = requestFailedRecord url m) := by
  intro n
  induction n with
  | zero =>
    intro k r h
    simp [process_attempts] at h
  | succ n ih =>
    intro k r h
    rw [process_attempts] at h
    cases hatt : att k with
    | otherExc m => rw [hatt] at h; dsimp only at h; simp at h
    | resp code page =>
      rw [hatt] at h
      dsimp only at h
      by_cases hc : code = 200
      · rw [if_pos hc] at h
        simp at h
        exact Or.inl ⟨page, code, h.symm⟩
      · rw [if_neg hc] at h
        simp at h
        exact Or.inr (Or.inl ⟨code, h.symm⟩)
    | reqExc m =>
      rw [hatt] at h
      dsimp only at h
      by_cases hrem : n = 0
      · rw [if_pos hrem] at h
        simp at h
        exact Or.inr (Or.inr ⟨m, h.symm⟩)
      · rw [if_neg hrem] at h
        exact ih (k + 1) r h

theorem process_attempts_ne_none (proc : Processor) (url : String)
    (att : Nat → FetchOutcome) :
    ∀ n k, 0 < n → (process_attempts proc url att k n).1 ≠ .ok none := by
  intro n
  induction n with
  | zero => intro k h; omega
  | succ n ih =>
    intro k _
    rw [process_attempts]
    cases hatt : att k with
    | otherExc m => simp
    | resp code page =>
      dsimp only
      by_cases hc : code = 200
      · rw [if_pos hc]; simp
      · rw [if_neg hc]; simp
    | reqExc m =>
      dsimp only
      by_cases hrem : n = 0
      · rw [if_pos hrem]; simp
      · rw [if_neg hrem]
        exact ih (k + 1) (by omega)

theorem process_attempts_url_field (proc : Processor) (url : String)
    (att : Nat → FetchOutcome) (n k : Nat) (r : Record)
    (h : (process_attempts proc url att k n).1 = .ok (some r)) :
    getField r "URL" = some (.vStr url) := by
  rcases process_attempts_ok_cases proc url att n k r h with
    ⟨page, code, rfl⟩ | ⟨code, rfl⟩ | ⟨m, rfl⟩
  · exact analyze_url_field _ _ _ _
  · rfl
  · rfl

end SCV

namespace SCV

theorem process_urls_record_shape (proc : Processor)
    (att : String → Nat → FetchOutcome) (order : List String) (rec : Record)
    (h : some rec ∈ process_urls proc att order) :
    ∃ s, getField rec "Status" = some (.vStr s) ∧
      ((s = "Match" ∨ s = "Mismatch") ∧ recordKeys rec = sevenFields ∨
       s ∈ (["Missing", "Multiple", "Empty", "Error"] : List String) ∧
        recordKeys rec = sixFields) := by
  unfold process_urls at h
  rw [List.mem_map] at h
  obtain ⟨url, _, hurl⟩ := h
  revert hurl
  cases hps : (process_single_url proc url (att url)).1 with
  | error e =>
    intro hurl
    dsimp only at hurl
    have : rec = processingFailedRecord url e := by
      injection hurl with h1
      exact h1.symm
    subst this
    exact ⟨"Error", rfl, Or.inr ⟨by decide, rfl⟩⟩
  | ok o =>
    intro hurl
    dsimp only at hurl
    have ho : o = some rec := hurl
    subst ho
    rcases process_attempts_ok_cases proc url (att url) proc.max_retries 0 rec
        hps with ⟨page, code, rfl⟩ | ⟨code, rfl⟩ | ⟨m, rfl⟩
    · exact analyze_shape _ _ _ _
    · exact ⟨"Error", rfl, Or.inr ⟨by decide, rfl⟩⟩
    · exact ⟨"Error", rfl, Or.inr ⟨by decide, rfl⟩⟩

/-- C1 counterexample: a page with HTTP 200 and no canonical tag yields a
`Missing` record whose field set omits `Final URL`, so not every record
exposes the seven-field set the claim asserts. -/
theorem c1_counterexample :
    (process_urls ⟨3, true, true, false⟩
        (fun _ _ => .resp 200 ⟨"https://x/", [], none⟩)
        ["https://x/"]).map (Option.map recordKeys) = [some sixFields] ∧
      sixFields ≠ sevenFields ∧ "Final URL" ∈ sevenFields ∧
      "Final URL" ∉ sixFields := by
  refine ⟨rfl, by decide, by decide, by decide⟩

/-- C1 (amended): every record produced by `process_urls` exposes either the
seven-field set URL, Final URL, Canonical URL, Status, Error, Response Time,
HTTP Status — exactly when its status is Match or Mismatch — or the same set
without `Final URL` (statuses Missing, Multiple, Empty, Error). -/
theorem c1_field_set_amended (proc : Processor)
    (att : String → Nat → FetchOutcome) (order : List String) (rec : Record)
    (h : some rec ∈ process_urls proc att order) :
    (recordKeys rec = sevenFields ∧
      (getField rec "Status" = some (.vStr "Match") ∨
       getField rec "Status" = some (.vStr "Mismatch"))) ∨
    (recordKeys rec = sixFields ∧
      (getField rec "Status" = some (.vStr "Missing") ∨
       getField rec "Status" = some (.vStr "Multiple") ∨
       getField rec "Status" = some (.vStr "Empty") ∨
       getField rec "Status" = some (.vStr "Error"))) := by
  obtain ⟨s, hs, hcase⟩ := process_urls_record_shape proc att order rec h
  rcases hcase with ⟨hm, hk⟩ | ⟨hmem, hk⟩
  · refine Or.inl ⟨hk, ?_⟩
    rcases hm with rfl | rfl
    · exact Or.inl hs
    · exact Or.inr hs
  · refine Or.inr ⟨hk, ?_⟩
    simp only [List.mem_cons, List.mem_singleton] at hmem
    rcases hmem with rfl | rfl | rfl | rfl | hf
    · exact Or.inl hs
    · exact Or.inr (Or.inl hs)
    · exact Or.inr (Or.inr (Or.inl hs))
    · exact Or.inr (Or.inr (Or.inr hs))
    · exact absurd hf (by simp)

/-- Witness for the amended C1 at a concrete run (one Match page, one
Missing page). -/
theorem c1_field_set_amended_witness :
    ∃ rec, some rec ∈ process_urls ⟨3, true, true, false⟩
        (fun _ _ => .resp 200 ⟨"https://x/", [], none⟩) ["https://x/"] ∧
      ((recordKeys rec = sevenFields ∧
        (getField rec "Status" = some (.vStr "Match") ∨
         getField rec "Status" = some (.vStr "Mismatch"))) ∨
       (recordKeys rec = sixFields ∧
        (getField rec "Status" = some (.vStr "Missing") ∨
         getField rec "Status" = some (.vStr "Multiple") ∨
         getField rec "Status" = some (.vStr "Empty") ∨
         getField rec "Status" = some (.vStr "Error")))) := by
  refine ⟨analyze_canonical_tag ⟨true, true, false⟩ "https://x/"
    ⟨"https://x/", [], none⟩ 200, by simp [process_urls, process_single_url,
      process_attempts, Processor.cfg], ?_⟩
  exact c1_field_set_amended ⟨3, true, true, false⟩
    (fun _ _ => .resp 200 ⟨"https://x/", [], none⟩) ["https://x/"] _
    (by simp [process_urls, process_single_url, process_attempts,
      Processor.cfg])

end SCV

namespace SCV

/-- C7: classification is exhaustive and exclusive.  Part 1: every record
produced by processing carries a `Status` field whose value is exactly one of
the six strings.  Part 2: on a successfully fetched and parsed page, zero
canonical tags classify as `Missing`, more than one as `Multiple`, a single
blank-href tag as `Empty`, and a single non-empty tag as `Match` or
`Mismatch` by normalized comparison; an HTML-parsing failure classifies as
`Error`. -/
theorem c7_classification :
    (∀ (proc : Processor) (att : String → Nat → FetchOutcome)
        (order : List String) (rec : Record),
      some rec ∈ process_urls proc att order →
      ∃ s, getField rec "Status" = some (.vStr s) ∧
        s ∈ (["Match", "Mismatch", "Missing", "Multiple", "Empty",
          "Error"] : List String)) ∧
    (∀ (cfg : Config) (url fu : String) (code : Nat),
      getField (analyze_canonical_tag cfg url ⟨fu, [], none⟩ code) "Status" =
        some (.vStr "Missing")) ∧
    (∀ (cfg : Config) (url fu : String) (t1 t2 : Option String)
        (ts : List (Option String)) (code : Nat),
      getField (analyze_canonical_tag cfg url ⟨fu, t1 :: t2 :: ts, none⟩ code)
        "Status" = some (.vStr "Multiple")) ∧
    (∀ (cfg : Config) (url fu : String) (t : Option String) (code : Nat),
      pyStripStr (t.getD "") = "" →
      getField (analyze_canonical_tag cfg url ⟨fu, [t], none⟩ code) "Status" =
        some (.vStr "Empty")) ∧
    (∀ (cfg : Config) (url fu : String) (t : Option String) (code : Nat)
        (cu no nc : String),
      pyStripStr (t.getD "") ≠ "" →
      urljoinStr fu (pyStripStr (t.getD "")) = .ok cu →
      normalizeStr cfg fu = .ok no → normalizeStr cfg cu = .ok nc →
      getField (analyze_canonical_tag cfg url ⟨fu, [t], none⟩ code) "Status" =
        some (.vStr (if no = nc then "Match" else "Mismatch"))) ∧
    (∀ (cfg : Config) (url fu : String) (tags : List (Option String))
        (e : String) (code : Nat),
      getField (analyze_canonical_tag cfg url ⟨fu, tags, some e⟩ code)
        "Status" = some (.vStr "Error")) := by
  refine ⟨?_, fun _ _ _ _ => rfl, fun _ _ _ _ _ _ _ => rfl, ?_, ?_,
    fun _ _ _ _ _ _ => rfl⟩
  · intro proc att order rec h
    obtain ⟨s, hs, hcase⟩ := process_urls_record_shape proc att order rec h
    refine ⟨s, hs, ?_⟩
    rcases hcase with ⟨hm, _⟩ | ⟨hmem, _⟩
    · rcases hm with rfl | rfl
      · decide
      · decide
    · simp only [List.mem_cons, List.mem_singleton] at hmem ⊢
      tauto
  · intro cfg url fu t code hblank
    simp only [analyze_canonical_tag]
    rw [if_pos hblank]
    rfl
  · intro cfg url fu t code cu no nc hne hjoin hno hnc
    simp only [analyze_canonical_tag]
    rw [if_neg hne, hjoin]
    dsimp only
    rw [hno]
    rw [hnc]
    dsimp only
    by_cases heq : no = nc
    · simp only [if_pos heq]; rfl
    · simp only [if_neg heq]; rfl

/-- Witness for C7 at a concrete run: a Missing page on one URL. -/
theorem c7_classification_witness :
    ∃ rec, some rec ∈ process_urls ⟨3, true, true, false⟩
        (fun _ _ => .resp 200 ⟨"https://x/", [], none⟩) ["https://x/"] ∧
      (∃ s, getField rec "Status" = some (.vStr s) ∧
        s ∈ (["Match", "Mismatch", "Missing", "Multiple", "Empty",
          "Error"] : List String)) ∧
      getField (analyze_canonical_tag ⟨true, true, false⟩ "https://x/"
        ⟨"https://x/", [], none⟩ 200) "Status" = some (.vStr "Missing") := by
  refine ⟨analyze_canonical_tag ⟨true, true, false⟩ "https://x/"
      ⟨"https://x/", [], none⟩ 200,
    by simp [process_urls, process_single_url, process_attempts,
      Processor.cfg], ?_, c7_classification.2.1 _ _ _ _⟩
  exact c7_classification.1 ⟨3, true, true, false⟩
    (fun _ _ => .resp 200 ⟨"https://x/", [], none⟩) ["https://x/"] _
    (by simp [process_urls, process_single_url, process_attempts,
      Processor.cfg])

end SCV

namespace SCV

theorem flatMap_map_succ {β : Type} (l : List Nat) (g : Nat → List β) :
    (l.map Nat.succ).flatMap g = l.flatMap (fun x => g (x + 1)) := by
  induction l with
  | nil => rfl
  | cons a t ih => simp [ih, Nat.succ_eq_add_one]

theorem process_attempts_resp_stops (proc : Processor) (url : String)
    (att : Nat → FetchOutcome) (m : Nat → String) :
    ∀ i n k code page, i < n →
    (∀ j, j < i → att (k + j) = .reqExc (m (k + j))) →
    att (k + i) = .resp code page → code ≠ 200 →
    process_attempts proc url att k n =
      (.ok (some (httpErrorRecord url code)),
       (List.range i).bind
         (fun j => [Event.fetch (k + j), Event.sleep 1]) ++
         [Event.fetch (k + i)]) := by
  intro i
  induction i with
  | zero =>
    intro n k code page hin hj hi hc
    obtain ⟨n', rfl⟩ : ∃ n', n = n' + 1 := ⟨n - 1, by omega⟩
    have hk : att k = .resp code page := by simpa using hi
    rw [process_attempts, hk]
    dsimp only
    rw [if_neg hc]
    simp
  | succ i ih =>
    intro n k code page hin hj hi hc
    obtain ⟨n', rfl⟩ : ∃ n', n = n' + 1 := ⟨n - 1, by omega⟩
    have hk : att k = .reqExc (m k) := by simpa using hj 0 (by omega)
    have hn' : n' ≠ 0 := by omega
    rw [process_attempts, hk]
    dsimp only
    rw [if_neg hn']
    have hrec := ih n' (k + 1) code page (by omega)
      (fun j hjlt => by
        have := hj (j + 1) (by omega)
        simpa [Nat.add_assoc, Nat.add_comm 1 j] using this)
      (by simpa [Nat.add_assoc, Nat.add_comm 1 i] using hi) hc
    rw [hrec]
    refine Prod.ext rfl ?_
    dsimp only
    rw [List.range_succ_eq_map]
    have harith : ∀ j : Nat, k + 1 + j = k + (j + 1) := fun j => by omega
    simp [harith, Function.comp, Nat.add_assoc, Nat.add_comm 1 i,
      flatMap_map_succ]

theorem process_attempts_all_reqExc (proc : Processor) (url : String)
    (att : Nat → FetchOutcome) (m : Nat → String) :
    ∀ n k, 0 < n → (∀ j, j < n → att (k + j) = .reqExc (m (k + j))) →
    process_attempts proc url att k n =
      (.ok (some (requestFailedRecord url (m (k + (n - 1))))),
       (List.range (n - 1)).bind
         (fun j => [Event.fetch (k + j), Event.sleep 1]) ++
         [Event.fetch (k + (n - 1))]) := by
  intro n
  induction n with
  | zero => intro k h; omega
  | succ n ih =>
    intro k _ hj
    have hk : att k = .reqExc (m k) := by simpa using hj 0 (by omega)
    rw [process_attempts, hk]
    dsimp only
    by_cases hn : n = 0
    · subst hn
      rw [if_pos rfl]
      simp
    · rw [if_neg hn]
      have hrec := ih (k + 1) (by omega)
        (fun j hjlt => by
          have := hj (j + 1) (by omega)
          simpa [Nat.add_assoc, Nat.add_comm 1 j] using this)
      rw [hrec]
      refine Prod.ext ?_ ?_
      · dsimp only
        have : k + 1 + (n - 1) = k + (n + 1 - 1) := by omega
        rw [this]
      · dsimp only
        obtain ⟨n', rfl⟩ : ∃ n', n = n' + 1 := ⟨n - 1, by omega⟩
        have h1 : n' + 1 + 1 - 1 = n' + 1 := by omega
        have h2 : n' + 1 - 1 = n' := by omega
        rw [h1, h2, List.range_succ_eq_map]
        have harith : ∀ j : Nat, k + 1 + j = k + (j + 1) := fun j => by omega
        simp [harith, Function.comp, Nat.add_assoc, Nat.add_comm 1 n',
          flatMap_map_succ]

end SCV

namespace SCV

/-- C6: in the per-URL attempt loop, an HTTP non-200 response at attempt `i`
terminates immediately with status Error and detail `"HTTP <code>"` — the
trace shows attempts 0..i only, so it is never retried; each of the `i`
preceding transport-exception retries was preceded by exactly one 1-second
sleep; and when a transport exception occurs on the last of `max_retries`
attempts the URL terminates with an Error record carrying that exception's
message. -/
theorem c6_retry_loop :
    (∀ (proc : Processor) (url : String) (att : Nat → FetchOutcome)
        (m : Nat → String) (i code : Nat) (page : PageData),
      i < proc.max_retries →
      (∀ j, j < i → att j = .reqExc (m j)) →
      att i = .resp code page → code ≠ 200 →
      process_single_url proc url att =
        (.ok (some (httpErrorRecord url code)),
         (List.range i).bind
           (fun j => [Event.fetch j, Event.sleep 1]) ++ [Event.fetch i])) ∧
    (∀ (proc : Processor) (url : String) (att : Nat → FetchOutcome)
        (m : Nat → String),
      0 < proc.max_retries →
      (∀ j, j < proc.max_retries → att j = .reqExc (m j)) →
      process_single_url proc url att =
        (.ok (some (requestFailedRecord url (m (proc.max_retries - 1)))),
         (List.range (proc.max_retries - 1)).bind
           (fun j => [Event.fetch j, Event.sleep 1]) ++
           [Event.fetch (proc.max_retries - 1)])) := by
  constructor
  · intro proc url att m i code page hin hj hi hc
    unfold process_single_url
    have := process_attempts_resp_stops proc url att m i proc.max_retries 0
      code page hin (fun j hjlt => by simpa using hj j hjlt)
      (by simpa using hi) hc
    simpa using this
  · intro proc url att m hpos hj
    unfold process_single_url
    have := process_attempts_all_reqExc proc url att m proc.max_retries 0
      hpos (fun j hjlt => by simpa using hj j hjlt)
    simpa using this

/-- Witness for C6: three max retries; attempt 0 is a timeout, attempt 1
returns HTTP 404 — one fetch, one 1-second sleep, one more fetch, Error
record `"HTTP 404"`; and a second oracle where all three attempts fail at
transport level — Error record with the last message after three fetches and
two sleeps. -/
theorem c6_retry_loop_witness :
    process_single_url ⟨3, true, true, false⟩ "https://x/"
        (fun j => if j = 0 then .reqExc "timeout"
          else .resp 404 ⟨"https://x/", [], none⟩) =
      (.ok (some (httpErrorRecord "https://x/" 404)),
       [Event.fetch 0, Event.sleep 1, Event.fetch 1]) ∧
    process_single_url ⟨3, true, true, false⟩ "https://x/"
        (fun j => .reqExc (toString j)) =
      (.ok (some (requestFailedRecord "https://x/" "2")),
       [Event.fetch 0, Event.sleep 1, Event.fetch 1, Event.sleep 1,
        Event.fetch 2]) := by
  constructor
  · have := c6_retry_loop.1 ⟨3, true, true, false⟩ "https://x/"
      (fun j => if j = 0 then .reqExc "timeout"
        else .resp 404 ⟨"https://x/", [], none⟩)
      (fun _ => "timeout") 1 404 ⟨"https://x/", [], none⟩
      (by decide) (fun j hj => by interval_cases j <;> rfl) rfl (by decide)
    simpa using this
  · have := c6_retry_loop.2 ⟨3, true, true, false⟩ "https://x/"
      (fun j => .reqExc (toString j)) (fun j => toString j)
      (by decide) (fun j hj => rfl)
    simpa using this

end SCV

namespace SCV

theorem process_urls_entry (proc : Processor)
    (att : String → Nat → FetchOutcome) (h1 : 1 ≤ proc.max_retries)
    (u : String) :
    ∃ r, (match (process_single_url proc u (att u)).1 with
      | .ok o => o
      | .error e => some (processingFailedRecord u e)) = some r ∧
      getField r "URL" = some (.vStr u) := by
  cases hps : (process_single_url proc u (att u)).1 with
  | error e => exact ⟨processingFailedRecord u e, rfl, rfl⟩
  | ok o =>
    cases o with
    | none =>
      exact absurd hps
        (process_attempts_ne_none proc u (att u) proc.max_retries 0
          (by omega))
    | some r =>
      exact ⟨r, rfl,
        process_attempts_url_field proc u (att u) proc.max_retries 0 r hps⟩

/-- C2: completeness of `process_urls`.  For a (deduplicated) URL list and a
configuration with at least one retry, the result list has exactly one entry
per input URL: its length equals the input length, every entry is a real
record (never `None`), entry `i` carries the `i`-th completed URL in its
`URL` field, and the multiset of `URL` fields is exactly the multiset of
requested URLs — no URL is dropped even when every attempt fails. -/
theorem c2_completeness (proc : Processor)
    (att : String → Nat → FetchOutcome) (urls order : List String)
    (hperm : order.Perm urls) (hmr : 1 ≤ proc.max_retries) :
    (process_urls proc att order).length = urls.length ∧
    (∀ o ∈ process_urls proc att order, o.isSome) ∧
    (process_urls proc att order).map
        (fun o => o.bind (fun r => getField r "URL")) =
      order.map (fun u => some (.vStr u)) ∧
    ((process_urls proc att order).map
        (fun o => o.bind (fun r => getField r "URL"))).Perm
      (urls.map (fun u => some (.vStr u))) := by
  have hmap : (process_urls proc att order).map
      (fun o => o.bind (fun r => getField r "URL")) =
      order.map (fun u => some (.vStr u)) := by
    unfold process_urls
    rw [List.map_map]
    apply List.map_congr_left
    intro u _
    obtain ⟨r, hr, hurl⟩ := process_urls_entry proc att hmr u
    simp only [Function.comp]
    rw [hr]
    simpa using hurl
  refine ⟨?_, ?_, hmap, ?_⟩
  · unfold process_urls
    rw [List.length_map, hperm.length_eq]
  · intro o ho
    unfold process_urls at ho
    rw [List.mem_map] at ho
    obtain ⟨u, _, hu⟩ := ho
    obtain ⟨r, hr, _⟩ := process_urls_entry proc att hmr u
    rw [← hu, hr]
    rfl
  · rw [hmap]
    exact hperm.map _

/-- Witness for C2: two URLs, one failing on every attempt, completing in
reversed order — both records present, URL fields a permutation of the
input. -/
theorem c2_completeness_witness :
    (process_urls ⟨2, true, true, false⟩
        (fun u _ => if u = "https://a/" then .reqExc "refused"
          else .resp 200 ⟨"https://b/", [], none⟩)
        ["https://b/", "https://a/"]).length =
      (["https://a/", "https://b/"] : List String).length ∧
    ((process_urls ⟨2, true, true, false⟩
        (fun u _ => if u = "https://a/" then .reqExc "refused"
          else .resp 200 ⟨"https://b/", [], none⟩)
        ["https://b/", "https://a/"]).map
        (fun o => o.bind (fun r => getField r "URL"))).Perm
      ((["https://a/", "https://b/"] : List String).map
        (fun u => some (.vStr u))) := by
  have h := c2_completeness ⟨2, true, true, false⟩
    (fun u _ => if u = "https://a/" then .reqExc "refused"
      else .resp 200 ⟨"https://b/", [], none⟩)
    ["https://a/", "https://b/"] ["https://b/", "https://a/"]
    (by decide) (by decide)
  exact ⟨h.1, h.2.2.2⟩

end SCV

namespace SCV

/-- C5: for a page whose final URL is `https://example.com/p?x=1` with a
single canonical href resolving to `https://example.com/p`, the
`ignoreQueryParams` toggle decides the outcome: with it off the normalized
forms differ and the status is Mismatch; with it on they coincide and the
status is Match (force-https and trailing-slash flags held equal). -/
theorem c5_query_param_toggle :
    getField (analyze_canonical_tag ⟨true, true, false⟩
        "https://example.com/p?x=1"
        ⟨"https://example.com/p?x=1", [some "https://example.com/p"], none⟩
        200) "Status" = some (.vStr "Mismatch") ∧
    normalizeStr ⟨true, true, false⟩ "https://example.com/p?x=1" ≠
      normalizeStr ⟨true, true, false⟩ "https://example.com/p" ∧
    getField (analyze_canonical_tag ⟨true, true, true⟩
        "https://example.com/p?x=1"
        ⟨"https://example.com/p?x=1", [some "https://example.com/p"], none⟩
        200) "Status" = some (.vStr "Match") ∧
    normalizeStr ⟨true, true, true⟩ "https://example.com/p?x=1" =
      normalizeStr ⟨true, true, true⟩ "https://example.com/p" := by
  refine ⟨by decide, by decide, by decide, by decide⟩

end SCV

namespace SCV

theorem validate_sitemap_ok {net : RobotsNet} {u : String}
    {info : SitemapInfo} (h : validate_sitemap net u = some info) :
    ∃ hr, net.head info.url = .ok hr ∧ hr.status_code = 200 := by
  unfold validate_sitemap at h
  cases hh : net.head u with
  | error e => rw [hh] at h; simp at h
  | ok r =>
    rw [hh] at h
    dsimp only at h
    by_cases hs : r.status_code = 200
    · rw [if_pos hs] at h
      have hinfo := Option.some.inj h
      have hurl : info.url = u := by rw [← hinfo]
      rw [hurl]
      exact ⟨r, hh, hs⟩
    · rw [if_neg hs] at h; simp at h

theorem probe_fold_mem (net : RobotsNet) (base_url : String) :
    ∀ (paths : List String) (acc l : List SitemapInfo),
    paths.foldlM (probe_location net base_url) acc = .ok l →
    ∀ info ∈ l, info ∈ acc ∨
      ∃ hr, net.head info.url = .ok hr ∧ hr.status_code = 200 := by
  intro paths
  induction paths with
  | nil =>
    intro acc l h info hmem
    have hl : acc = l := by
      simpa [List.foldlM, pure, Except.pure] using h
    subst hl
    exact Or.inl hmem
  | cons p ps ih =>
    intro acc l h info hmem
    rw [List.foldlM_cons] at h
    cases hp : probe_location net base_url acc p with
    | error e => rw [hp] at h; simp [Bind.bind, Except.bind] at h
    | ok acc1 =>
      rw [hp] at h
      simp only [Bind.bind, Except.bind] at h
      rcases ih acc1 l h info hmem with hin | hgood
      · unfold probe_location at hp
        cases hj : urljoinStr base_url p with
        | error e => rw [hj] at hp; simp at hp
        | ok u =>
          rw [hj] at hp
          simp only [Bind.bind, Except.bind, pure, Except.pure] at hp
          cases hv : validate_sitemap net u with
          | none =>
            rw [hv] at hp
            have : acc1 = acc := by
              have := hp
              simp at this
              exact this.symm
            subst this
            exact Or.inl hin
          | some i =>
            rw [hv] at hp
            have hacc : acc1 = acc ++ [i] := by
              have := hp
              simp at this
              exact this.symm
            subst hacc
            rcases List.mem_append.mp hin with h1 | h2
            · exact Or.inl h1
            · have : info = i := by simpa using h2
              subst this
              exact Or.inr (validate_sitemap_ok hv)
      · exact Or.inr hgood

end SCV

namespace SCV

/-- C9 counterexample: with a network oracle that never fails (robots.txt
fetch and every HEAD request succeed), `discover_sitemaps` still raises on
the domain `"["`: the uncaught `ValueError` from `urlparse` propagates to the
caller before any fetch, so the robots.txt fetch is not the only error that
can reach the caller. -/
theorem c9_counterexample :
    discover_sitemaps
        ⟨fun _ => .ok (200, ""), fun _ => .ok ⟨200, "", none⟩⟩ "[" =
      .error "Invalid IPv6 URL" := by
  decide

/-- C9 (amended): apart from URL-parsing `ValueError`s on malformed
domains/URLs (which also propagate), discovery's error behavior is as
claimed: (1) a network failure fetching robots.txt propagates as a wrapped
hard error; (2) a network failure during a candidate's HEAD validation is
swallowed, the candidate is merely excluded — every candidate emitted by the
well-known-locations probe really answered HEAD 200; (3) a non-200
robots.txt response does not raise but falls back to probing the well-known
sitemap paths. -/
theorem c9_discovery_errors_amended :
    (∀ (net : RobotsNet) (domain : String) (p : ParseResult) (ru e : String),
      urlparse [] (if pyStartsWith domain "http://" ∨
          pyStartsWith domain "https://" then domain
        else "https://" ++ domain).data = .ok p →
      urljoinStr (String.mk p.scheme ++ "://" ++ String.mk p.netloc)
        "/robots.txt" = .ok ru →
      net.get ru = .error e →
      discover_sitemaps net domain =
        .error ("Failed to fetch robots.txt from " ++ ru ++ ": " ++ e)) ∧
    (∀ (net : RobotsNet) (u e : String),
      net.head u = .error e → validate_sitemap net u = none) ∧
    (∀ (net : RobotsNet) (base : String) (l : List SitemapInfo),
      check_common_sitemap_locations net base = .ok l →
      ∀ info ∈ l, ∃ hr, net.head info.url = .ok hr ∧
        hr.status_code = 200) ∧
    (∀ (net : RobotsNet) (domain : String) (p : ParseResult) (ru text : String)
        (code : Nat),
      urlparse [] (if pyStartsWith domain "http://" ∨
          pyStartsWith domain "https://" then domain
        else "https://" ++ domain).data = .ok p →
      urljoinStr (String.mk p.scheme ++ "://" ++ String.mk p.netloc)
        "/robots.txt" = .ok ru →
      net.get ru = .ok (code, text) → code ≠ 200 →
      discover_sitemaps net domain =
        check_common_sitemap_locations net
          (String.mk p.scheme ++ "://" ++ String.mk p.netloc)) := by
  refine ⟨?_, ?_, ?_, ?_⟩
  · intro net domain p ru e hp hj hg
    unfold discover_sitemaps
    dsimp only
    rw [hp]
    dsimp only
    rw [hj]
    dsimp only
    rw [hg]
  · intro net u e hh
    unfold validate_sitemap
    rw [hh]
  · intro net base l h info hmem
    rcases probe_fold_mem net base common_paths [] l h info hmem with
      hin | hg
    · exact absurd hin (by simp)
    · exact hg
  · intro net domain p ru text code hp hj hg hc
    unfold discover_sitemaps
    dsimp only
    rw [hp]
    dsimp only
    rw [hj]
    dsimp only
    rw [hg]
    dsimp only
    rw [if_neg hc]

/-- Witness for the amended C9 at concrete inputs: a DNS failure on
robots.txt propagates; a failing HEAD excludes the candidate; a 404
robots.txt falls back to the well-known paths. -/
theorem c9_discovery_errors_amended_witness :
    discover_sitemaps ⟨fun _ => .error "dns failure", fun _ => .error "x"⟩
        "example.com" =
      .error ("Failed to fetch robots.txt from " ++
        "https://example.com/robots.txt" ++ ": " ++ "dns failure") ∧
    validate_sitemap ⟨fun _ => .ok (200, ""), fun _ => .error "refused"⟩
        "https://example.com/sitemap.xml" = none ∧
    discover_sitemaps ⟨fun _ => .ok (404, ""), fun _ => .error "x"⟩
        "example.com" =
      check_common_sitemap_locations
        ⟨fun _ => .ok (404, ""), fun _ => .error "x"⟩
        "https://example.com" := by
  refine ⟨?_, ?_, ?_⟩
  · exact c9_discovery_errors_amended.1
      ⟨fun _ => .error "dns failure", fun _ => .error "x"⟩ "example.com"
      ⟨"https".data, "example.com".data, [], [], [], []⟩
      "https://example.com/robots.txt" "dns failure" (by decide) (by decide)
      rfl
  · exact c9_discovery_errors_amended.2.1
      ⟨fun _ => .ok (200, ""), fun _ => .error "refused"⟩
      "https://example.com/sitemap.xml" "refused" rfl
  · exact c9_discovery_errors_amended.2.2.2
      ⟨fun _ => .ok (404, ""), fun _ => .error "x"⟩ "example.com"
      ⟨"https".data, "example.com".data, [], [], [], []⟩
      "https://example.com/robots.txt" "" 404 (by decide) (by decide) rfl
      (by decide)

end SCV

namespace SCV

theorem extract_urls_visited (w : SitemapWorld) (url : String)
    (v : Finset String) (h : url ∈ v) :
    extract_urls w url v = .ok ([], [], ⟨v, Finset.Subset.refl _⟩) := by
  rw [extract_urls]
  simp [h]

theorem extract_invariants (w : SitemapWorld) (n : Nat) :
    (∀ (url : String) (v : Finset String) (res : ExtractResult v),
      (w.domainSet \ v).card ≤ n → extract_urls w url v = .ok res →
      FetchInv v res ∧ url ∈ res.2.2.1.1) ∧
    (∀ (cs : List String) (v : Finset String) (res : ExtractResult v),
      (w.domainSet \ v).card ≤ n → extract_children w cs v = .ok res →
      FetchInv v res) := by
  induction n using Nat.strong_induction_on with
  | _ n ihn =>
  have hext : ∀ (url : String) (v : Finset String) (res : ExtractResult v),
      (w.domainSet \ v).card ≤ n → extract_urls w url v = .ok res →
      FetchInv v res ∧ url ∈ res.2.2.1.1 := by
    intro url v res hcard hok
    rw [extract_urls] at hok
    by_cases hv : url ∈ v
    · rw [dif_pos hv] at hok
      have hres := Except.ok.inj hok
      subst hres
      exact ⟨⟨List.nodup_nil, by simp⟩, hv⟩
    · rw [dif_neg hv] at hok
      cases hw : w.fetch url with
      | none => rw [hw] at hok; simp at hok
      | some doc =>
        rw [hw] at hok
        have hmemD : url ∈ w.domainSet := SitemapWorld.fetch_mem_domainSet hw
        have hpos : 0 < (w.domainSet \ v).card :=
          Finset.card_pos.mpr ⟨url, Finset.mem_sdiff.mpr ⟨hmemD, hv⟩⟩
        obtain ⟨m, rfl⟩ : ∃ m, n = m + 1 := ⟨n - 1, by omega⟩
        have hcard1 : (w.domainSet \ insert url v).card ≤ m := by
          have hlt : (w.domainSet \ insert url v).card <
              (w.domainSet \ v).card := by
            apply Finset.card_lt_card
            constructor
            · exact Finset.sdiff_subset_sdiff (Finset.Subset.refl _)
                (Finset.subset_insert _ _)
            · intro hsub
              have := hsub (Finset.mem_sdiff.mpr ⟨hmemD, hv⟩)
              simp at this
          omega
        cases doc with
        | parseFail m2 => simp at hok
        | urlset entries =>
          have hres := Except.ok.inj hok
          subst hres
          refine ⟨⟨by simp, ?_⟩, by simp⟩
          intro f hf
          simp at hf
          subst hf
          exact ⟨hv, by simp⟩
        | flat urls =>
          have hres := Except.ok.inj hok
          subst hres
          refine ⟨⟨by simp, ?_⟩, by simp⟩
          intro f hf
          simp at hf
          subst hf
          exact ⟨hv, by simp⟩
        | sitemapindex entries =>
          dsimp only at hok
          cases hch : extract_children w
              (entries.filterMap (fun o => o.map pyStripStr))
              (insert url v) with
          | error e => rw [hch] at hok; simp at hok
          | ok cres =>
            rw [hch] at hok
            obtain ⟨us, fs, v2, h2⟩ := cres
            have hres := Except.ok.inj hok
            subst hres
            have hinv := (ihn m (by omega)).2 _ _ _ hcard1 hch
            obtain ⟨hnodup, hmemf⟩ := hinv
            have hurlv2 : url ∈ v2 := h2 (Finset.mem_insert_self _ _)
            refine ⟨⟨?_, ?_⟩, hurlv2⟩
            · refine List.Nodup.cons ?_ hnodup
              intro hin
              exact (hmemf url hin).1 (Finset.mem_insert_self _ _)
            · intro f hf
              rcases List.mem_cons.mp hf with rfl | hf2
              · exact ⟨hv, hurlv2⟩
              · obtain ⟨hnotin, hin2⟩ := hmemf f hf2
                exact ⟨fun hcon => hnotin (Finset.mem_insert_of_mem hcon),
                  hin2⟩
  have hchild : ∀ (cs : List String) (v : Finset String)
      (res : ExtractResult v),
      (w.domainSet \ v).card ≤ n → extract_children w cs v = .ok res →
      FetchInv v res := by
    intro cs
    induction cs with
    | nil =>
      intro v res hcard hok
      rw [extract_children] at hok
      have hres := Except.ok.inj hok
      subst hres
      exact ⟨List.nodup_nil, by simp⟩
    | cons c rest ih =>
      intro v res hcard hok
      rw [extract_children] at hok
      cases he : extract_urls w c v with
      | error e => rw [he] at hok; simp at hok
      | ok r1 =>
        rw [he] at hok
        obtain ⟨us, fs, v1, h1⟩ := r1
        dsimp only at hok
        cases hc2 : extract_children w rest v1 with
        | error e => rw [hc2] at hok; simp at hok
        | ok r2 =>
          rw [hc2] at hok
          obtain ⟨us2, fs2, v2, h2⟩ := r2
          have hres := Except.ok.inj hok
          subst hres
          have hinv1 := (hext c v (us, fs, ⟨v1, h1⟩) hcard he).1
          have hcard1 : (w.domainSet \ v1).card ≤ n :=
            le_trans (Finset.card_le_card
              (Finset.sdiff_subset_sdiff (Finset.Subset.refl _) h1)) hcard
          have hinv2 := ih v1 (us2, fs2, ⟨v2, h2⟩) hcard1 hc2
          obtain ⟨hn1, hm1⟩ := hinv1
          obtain ⟨hn2, hm2⟩ := hinv2
          refine ⟨?_, ?_⟩
          · rw [List.nodup_append]
            refine ⟨hn1, hn2, ?_⟩
            intro a ha ha2
            exact (hm2 a ha2).1 ((hm1 a ha).2)
          · intro f hf
            rcases List.mem_append.mp hf with hf1 | hf2
            · obtain ⟨hni, hii⟩ := hm1 f hf1
              exact ⟨hni, h2 hii⟩
            · obtain ⟨hni, hii⟩ := hm2 f hf2
              exact ⟨fun hcon => hni (h1 hcon), hii⟩
  exact ⟨hext, hchild⟩

end SCV

namespace SCV

theorem cycleWorld_eval :
    extract_urls cycleWorld "A" (∅ : Finset String) =
      .ok (["https://e/1", "https://e/2"], ["A", "B", "C"],
        ⟨insert "C" (insert "B" (insert "A" ∅)), by
          intro a ha
          simp at ha⟩) := by
  have hC : extract_urls cycleWorld "C"
      (insert "B" (insert "A" (∅ : Finset String))) =
      .ok (["https://e/1", "https://e/2"], ["C"],
        ⟨insert "C" (insert "B" (insert "A" ∅)),
          Finset.subset_insert _ _⟩) := by
    rw [extract_urls]
    rw [dif_neg (by decide)]
    rfl
  have hA2 : extract_urls cycleWorld "A"
      (insert "B" (insert "A" (∅ : Finset String))) =
      .ok ([], [], ⟨insert "B" (insert "A" ∅), Finset.Subset.refl _⟩) :=
    extract_urls_visited _ _ _ (by decide)
  have hch2 : extract_children cycleWorld ["A", "C"]
      (insert "B" (insert "A" (∅ : Finset String))) =
      .ok (["https://e/1", "https://e/2"], ["C"],
        ⟨insert "C" (insert "B" (insert "A" ∅)), by
          exact (Finset.subset_insert _ _)⟩) := by
    rw [extract_children, hA2]
    dsimp only
    rw [extract_children, hC]
    dsimp only
    rw [extract_children]
    rfl
  have hB : extract_urls cycleWorld "B" (insert "A" (∅ : Finset String)) =
      .ok (["https://e/1", "https://e/2"], ["B", "C"],
        ⟨insert "C" (insert "B" (insert "A" ∅)), by
          exact (Finset.subset_insert _ _).trans
            (Finset.subset_insert _ _)⟩) := by
    rw [extract_urls]
    rw [dif_neg (by decide)]
    have hfetch : cycleWorld.fetch "B" =
        some (.sitemapindex [some "A", some "C"]) := rfl
    rw [hfetch]
    dsimp only
    have hstrip : (([some "A", some "C"] : List (Option String)).filterMap
        (fun o => o.map pyStripStr)) = ["A", "C"] := rfl
    rw [hstrip, hch2]
  have hch1 : extract_children cycleWorld ["B"]
      (insert "A" (∅ : Finset String)) =
      .ok (["https://e/1", "https://e/2"], ["B", "C"],
        ⟨insert "C" (insert "B" (insert "A" ∅)), by
          exact (Finset.subset_insert _ _).trans
            (Finset.subset_insert _ _)⟩) := by
    rw [extract_children, hB]
    dsimp only
    rw [extract_children]
    rfl
  rw [extract_urls]
  rw [dif_neg (by decide)]
  have hfetch : cycleWorld.fetch "A" = some (.sitemapindex [some "B"]) := rfl
  rw [hfetch]
  dsimp only
  have hstrip : (([some "B"] : List (Option String)).filterMap
      (fun o => o.map pyStripStr)) = ["B"] := rfl
  rw [hstrip, hch1]

/-- C4: cycle safety of sitemap expansion.  `extract_urls` is a total Lean
function (its termination is proved by the strictly shrinking complement of
the visited set), so every run — on cyclic reference graphs included —
terminates with a finite list.  Part 1: a call whose sitemap URL is already
in the visited set returns the empty list immediately, fetching nothing.
Part 2: in any successful run, the log of fetched sitemap URLs has no
duplicates and contains no previously visited URL — each sitemap is fetched
and processed at most once per run. -/
theorem c4_cycle_safety :
    (∀ (w : SitemapWorld) (url : String) (v : Finset String), url ∈ v →
      extract_urls w url v = .ok ([], [], ⟨v, Finset.Subset.refl _⟩)) ∧
    (∀ (w : SitemapWorld) (url : String) (v : Finset String)
        (res : ExtractResult v), extract_urls w url v = .ok res →
      res.2.1.Nodup ∧ ∀ f ∈ res.2.1, f ∉ v) := by
  refine ⟨extract_urls_visited, ?_⟩
  intro w url v res hok
  have h := (extract_invariants w ((w.domainSet \ v).card)).1 url v res
    le_rfl hok
  exact ⟨h.1.1, fun f hf => (h.1.2 f hf).1⟩

/-- Witness for C4 on the concrete cyclic world A ↔ B: the guard returns
empty without fetching, and the full run from the empty visited set fetches
each of A, B, C exactly once while returning C's two page URLs. -/
theorem c4_cycle_safety_witness :
    extract_urls cycleWorld "A" (insert "A" ∅) =
      .ok ([], [], ⟨insert "A" ∅, Finset.Subset.refl _⟩) ∧
    ∃ res, extract_urls cycleWorld "A" (∅ : Finset String) = .ok res ∧
      res.1 = ["https://e/1", "https://e/2"] ∧
      res.2.1 = ["A", "B", "C"] ∧ res.2.1.Nodup := by
  refine ⟨c4_cycle_safety.1 cycleWorld "A" _ (by decide), ?_⟩
  refine ⟨_, cycleWorld_eval, rfl, rfl, ?_⟩
  exact (c4_cycle_safety.2 cycleWorld "A" ∅ _ cycleWorld_eval).1

/-- C10: `extract_urls` is not repeatable on one parser instance.  The
processed-sitemaps set lives on the instance and is never cleared, so once a
call on `url` has completed (returning the grown set `res.2.2.1`, which
always contains `url`), any later call for the same `url` against that
instance state returns the empty list immediately and fetches nothing. -/
theorem c10_not_repeatable (w : SitemapWorld) (url : String)
    (v : Finset String) (res : ExtractResult v)
    (hok : extract_urls w url v = .ok res) :
    extract_urls w url res.2.2.1 =
      .ok ([], [], ⟨res.2.2.1, Finset.Subset.refl _⟩) := by
  have hurl : url ∈ res.2.2.1.1 :=
    ((extract_invariants w ((w.domainSet \ v).card)).1 url v res
      le_rfl hok).2
  exact extract_urls_visited w url _ hurl

/-- Witness for C10: after the completed cyclic run, a second call for "A"
returns nothing and fetches nothing. -/
theorem c10_not_repeatable_witness :
    extract_urls cycleWorld "A" (insert "C" (insert "B" (insert "A" ∅))) =
      .ok ([], [],
        ⟨insert "C" (insert "B" (insert "A" ∅)), Finset.Subset.refl _⟩) := by
  exact c10_not_repeatable cycleWorld "A" ∅ _ cycleWorld_eval

end SCV

namespace SCV

/-! ## Character-level lemmas for ASCII lower-casing -/

theorem charToNat_ofNat (n : Nat) (h : n.isValidChar) :
    (Char.ofNat n).toNat = n := by
  unfold Char.ofNat
  rw [dif_pos h]
  unfold Char.ofNatAux Char.toNat
  simp [UInt32.toNat, BitVec.toNat_ofNatLt]

theorem char_le_iff (a b : Char) : a ≤ b ↔ a.toNat ≤ b.toNat := Iff.rfl

theorem char_eq_iff_toNat (a b : Char) : a = b ↔ a.toNat = b.toNat := by
  constructor
  · intro h; rw [h]
  · intro h
    exact Char.ext (UInt32.ext h)

theorem toNat_toLower (c : Char) :
    (Char.toLower c).toNat =
      if 65 ≤ c.toNat ∧ c.toNat ≤ 90 then c.toNat + 32 else c.toNat := by
  unfold Char.toLower
  dsimp only
  by_cases h : 65 ≤ c.toNat ∧ c.toNat ≤ 90
  · rw [if_pos ⟨h.1, h.2⟩, if_pos h]
    exact charToNat_ofNat _ (Or.inl (by omega))
  · rw [if_neg (fun hcon => h ⟨hcon.1, hcon.2⟩), if_neg h]

theorem toLower_eq_self (c : Char) (h : ¬(65 ≤ c.toNat ∧ c.toNat ≤ 90)) :
    Char.toLower c = c := by
  rw [char_eq_iff_toNat, toNat_toLower, if_neg h]

theorem toLower_idem (c : Char) :
    Char.toLower (Char.toLower c) = Char.toLower c := by
  apply toLower_eq_self
  rw [toNat_toLower]
  by_cases h : 65 ≤ c.toNat ∧ c.toNat ≤ 90
  · rw [if_pos h]; omega
  · rw [if_neg h]; exact h

theorem toLower_eq_nonletter {c d : Char}
    (hd1 : ¬(65 ≤ d.toNat ∧ d.toNat ≤ 90))
    (hd2 : ¬(97 ≤ d.toNat ∧ d.toNat ≤ 122)) :
    Char.toLower c = d ↔ c = d := by
  constructor
  · intro h
    by_cases hc : 65 ≤ c.toNat ∧ c.toNat ≤ 90
    · exfalso
      have := congrArg Char.toNat h
      rw [toNat_toLower, if_pos hc] at this
      exact hd2 (by omega)
    · rw [← toLower_eq_self c hc]; exact h
  · intro h
    subst h
    exact toLower_eq_self c hd1

theorem isAlpha_iff (c : Char) :
    c.isAlpha = true ↔
      (65 ≤ c.toNat ∧ c.toNat ≤ 90) ∨ (97 ≤ c.toNat ∧ c.toNat ≤ 122) := by
  unfold Char.isAlpha Char.isUpper Char.isLower
  simp [char_le_iff]
  constructor
  · rintro (⟨h1, h2⟩ | ⟨h1, h2⟩)
    · exact Or.inl ⟨h1, h2⟩
    · exact Or.inr ⟨h1, h2⟩
  · rintro (⟨h1, h2⟩ | ⟨h1, h2⟩)
    · exact Or.inl ⟨h1, h2⟩
    · exact Or.inr ⟨h1, h2⟩

theorem isAlpha_toLower (c : Char) :
    (Char.toLower c).isAlpha = c.isAlpha := by
  by_cases hc : 65 ≤ c.toNat ∧ c.toNat ≤ 90
  · have h1 : (Char.toLower c).toNat = c.toNat + 32 := by
      rw [toNat_toLower, if_pos hc]
    have h2 : (Char.toLower c).isAlpha = true := by
      rw [isAlpha_iff, h1]; omega
    have h3 : c.isAlpha = true := by rw [isAlpha_iff]; exact Or.inl hc
    rw [h2, h3]
  · rw [toLower_eq_self c hc]

theorem isDigit_iff (c : Char) :
    c.isDigit = true ↔ 48 ≤ c.toNat ∧ c.toNat ≤ 57 := by
  unfold Char.isDigit
  simp [char_le_iff]
  constructor
  · rintro ⟨h1, h2⟩; exact ⟨h1, h2⟩
  · rintro ⟨h1, h2⟩; exact ⟨h1, h2⟩

theorem char_eq_toNat_lit (c d : Char) :
    (c = d) ↔ c.toNat = d.toNat := char_eq_iff_toNat c d

theorem scheme_chars_toLower (c : Char) :
    scheme_chars (Char.toLower c) = scheme_chars c := by
  by_cases hc : 65 ≤ c.toNat ∧ c.toNat ≤ 90
  · have h1 : (Char.toLower c).toNat = c.toNat + 32 := by
      rw [toNat_toLower, if_pos hc]
    have halpha : c.isAlpha = true := by rw [isAlpha_iff]; exact Or.inl hc
    have halpha2 : (Char.toLower c).isAlpha = true := by
      rw [isAlpha_toLower]; exact halpha
    unfold scheme_chars
    rw [halpha, halpha2]
    simp
  · rw [toLower_eq_self c hc]

end SCV

namespace SCV

/-! ## List-splitting lemmas -/

theorem splitFirst_eq_none_iff (c : Char) (l : Chars) :
    splitFirst c l = none ↔ c ∉ l := by
  induction l with
  | nil => simp [splitFirst]
  | cons x xs ih =>
    by_cases hx : x = c
    · subst hx
      simp [splitFirst]
    · simp only [splitFirst, if_neg hx, List.mem_cons]
      cases hsp : splitFirst c xs with
      | none => simp [hsp, Ne.symm, hx] at ih ⊢; tauto
      | some p => simp [hsp] at ih ⊢; tauto

theorem splitFirst_parts {c : Char} {l a b : Chars}
    (h : splitFirst c l = some (a, b)) : l = a ++ c :: b ∧ c ∉ a := by
  induction l generalizing a b with
  | nil => simp [splitFirst] at h
  | cons x xs ih =>
    rw [splitFirst] at h
    by_cases hx : x = c
    · rw [if_pos hx] at h
      obtain ⟨h1, h2⟩ := Prod.mk.injEq _ _ _ _ |>.mp (Option.some.inj h)
      subst hx
      rw [← h1, ← h2]
      simp
    · rw [if_neg hx] at h
      cases hsp : splitFirst c xs with
      | none => rw [hsp] at h; simp at h
      | some p =>
        rw [hsp] at h
        obtain ⟨h1, h2⟩ := Prod.mk.injEq _ _ _ _ |>.mp (Option.some.inj h)
        obtain ⟨hl, hna⟩ := ih (a := p.1) (b := p.2) (by rw [hsp])
        subst h2
        rw [← h1]
        constructor
        · rw [List.cons_append, ← hl]
        · simp only [List.mem_cons]
          rintro (hc | hc)
          · exact hx hc.symm
          · exact hna hc

theorem splitFirst_append_first {c : Char} {a x y : Chars} (b : Chars)
    (h : splitFirst c a = some (x, y)) :
    splitFirst c (a ++ b) = some (x, y ++ b) := by
  induction a generalizing x y with
  | nil => simp [splitFirst] at h
  | cons t ts ih =>
    rw [List.cons_append]
    rw [splitFirst] at h ⊢
    by_cases ht : t = c
    · rw [if_pos ht] at h ⊢
      obtain ⟨h1, h2⟩ := Prod.mk.injEq _ _ _ _ |>.mp (Option.some.inj h)
      rw [← h1, ← h2]
    · rw [if_neg ht] at h ⊢
      cases hsp : splitFirst c ts with
      | none => rw [hsp] at h; simp at h
      | some p =>
        rw [hsp] at h
        obtain ⟨h1, h2⟩ := Prod.mk.injEq _ _ _ _ |>.mp (Option.some.inj h)
        rw [ih (x := p.1) (y := p.2) (by rw [hsp])]
        rw [← h1, ← h2]
        simp

theorem splitFirst_append_of_not_mem {c : Char} {a : Chars} (b : Chars)
    (h : c ∉ a) :
    splitFirst c (a ++ b) =
      (splitFirst c b).map (fun p => (a ++ p.1, p.2)) := by
  induction a with
  | nil => simp [Option.map_id]
  | cons t ts ih =>
    have ht : t ≠ c := fun hc => h (by simp [hc])
    have hts : c ∉ ts := fun hc => h (by simp [hc])
    rw [List.cons_append, splitFirst, if_neg ht, ih hts]
    cases splitFirst c b with
    | none => rfl
    | some p => rfl

theorem splitFirst_boundary {c : Char} {a : Chars} (b : Chars) (h : c ∉ a) :
    splitFirst c (a ++ c :: b) = some (a, b) := by
  rw [splitFirst_append_of_not_mem (c :: b) h]
  simp [splitFirst]

theorem splitFirst_none_of_not_mem {c : Char} {l : Chars} (h : c ∉ l) :
    splitFirst c l = none := (splitFirst_eq_none_iff c l).mpr h

/-! ## takeWhile / dropWhile lemmas -/

theorem takeWhile_append_all {p : Char → Bool} {a : Chars} (b : Chars)
    (h : ∀ x ∈ a, p x = true) :
    (a ++ b).takeWhile p = a ++ b.takeWhile p := by
  induction a with
  | nil => simp
  | cons t ts ih =>
    have ht : p t = true := h t (by simp)
    rw [List.cons_append, List.takeWhile_cons, if_pos ht, ih]
    · simp [List.takeWhile_cons, ht]
    · intro x hx; exact h x (by simp [hx])

theorem dropWhile_append_all {p : Char → Bool} {a : Chars} (b : Chars)
    (h : ∀ x ∈ a, p x = true) :
    (a ++ b).dropWhile p = b.dropWhile p := by
  induction a with
  | nil => simp
  | cons t ts ih =>
    have ht : p t = true := h t (by simp)
    rw [List.cons_append, List.dropWhile_cons, if_pos ht, ih]
    intro x hx; exact h x (by simp [hx])

theorem takeWhile_eq_self {p : Char → Bool} {l : Chars}
    (h : ∀ x ∈ l, p x = true) : l.takeWhile p = l := by
  have := takeWhile_append_all (p := p) (a := l) [] h
  simpa using this

theorem dropWhile_eq_nil {p : Char → Bool} {l : Chars}
    (h : ∀ x ∈ l, p x = true) : l.dropWhile p = [] := by
  have := dropWhile_append_all (p := p) (a := l) [] h
  simpa using this

theorem takeWhile_head_false {p : Char → Bool} {l : Chars}
    (h : ∀ c, l.head? = some c → p c = false) : l.takeWhile p = [] := by
  cases l with
  | nil => rfl
  | cons x xs =>
    rw [List.takeWhile_cons, if_neg]
    simp [h x rfl]

theorem dropWhile_head_false {p : Char → Bool} {l : Chars}
    (h : ∀ c, l.head? = some c → p c = false) : l.dropWhile p = l := by
  cases l with
  | nil => rfl
  | cons x xs =>
    rw [List.dropWhile_cons, if_neg]
    simp [h x rfl]

theorem takeWhile_middle {p : Char → Bool} {a : Chars} (b : Chars)
    (ha : ∀ x ∈ a, p x = true)
    (hb : ∀ c, b.head? = some c → p c = false) :
    (a ++ b).takeWhile p = a ∧ (a ++ b).dropWhile p = b := by
  constructor
  · rw [takeWhile_append_all b ha, takeWhile_head_false hb, List.append_nil]
  · rw [dropWhile_append_all b ha, dropWhile_head_false hb]

end SCV

namespace SCV

theorem head?_dropWhile_false {p : Char → Bool} {l : Chars} {c : Char}
    (h : (l.dropWhile p).head? = some c) : p c = false := by
  induction l with
  | nil => simp at h
  | cons x xs ih =>
    rw [List.dropWhile_cons] at h
    by_cases hx : p x
    · rw [if_pos hx] at h
      exact ih h
    · rw [if_neg hx] at h
      simp at h
      rw [← h]
      simp [hx]

theorem rstrip_decomp (p : Chars) :
    rstripSlashes p ++ (p.reverse.takeWhile (fun c => c == '/')).reverse =
      p := by
  unfold rstripSlashes
  rw [← List.reverse_append, List.takeWhile_append_dropWhile,
    List.reverse_reverse]

theorem rstrip_trailing (p : Chars) :
    ∀ c ∈ (p.reverse.takeWhile (fun c => c == '/')).reverse, c = '/' := by
  intro c hc
  rw [List.mem_reverse] at hc
  have := List.mem_takeWhile_imp hc
  simpa using this

theorem rstrip_getLast (p : Chars) :
    ∀ c, (rstripSlashes p).getLast? = some c → c ≠ '/' := by
  intro c hc
  unfold rstripSlashes at hc
  rw [List.getLast?_reverse] at hc
  have := head?_dropWhile_false hc
  simpa using this

theorem lastSeg_decomp (p : Chars) : lastSegPre p ++ lastSegment p = p := by
  unfold lastSegPre lastSegment
  rw [← List.reverse_append, List.takeWhile_append_dropWhile,
    List.reverse_reverse]

theorem lastSegment_noslash (p : Chars) : '/' ∉ lastSegment p := by
  intro hc
  unfold lastSegment at hc
  rw [List.mem_reverse] at hc
  have := List.mem_takeWhile_imp hc
  simp at this

theorem lastSegPre_getLast {p : Chars} (h : '/' ∈ p) :
    (lastSegPre p).getLast? = some '/' := by
  unfold lastSegPre
  rw [List.getLast?_reverse]
  cases hd : p.reverse.dropWhile (fun c => c ≠ '/') with
  | nil =>
    exfalso
    have hall : ∀ x ∈ p.reverse, (fun c => decide (c ≠ '/')) x = true := by
      rw [← List.dropWhile_eq_nil_iff]
      simpa using hd
    have := hall '/' (by simpa using h)
    simp at this
  | cons x xs =>
    have hx : (fun c => decide (c ≠ '/')) x = false := by
      apply head?_dropWhile_false (p := fun c => decide (c ≠ '/'))
        (l := p.reverse)
      rw [hd]
      rfl
    simp at hx
    simp [hx]

theorem lastSegment_append {x a : Chars} (ha : '/' ∉ a)
    (hx : x.getLast? = some '/') : lastSegment (x ++ a) = a := by
  unfold lastSegment
  rw [List.reverse_append]
  have h1 : a.reverse.takeWhile (fun c => c ≠ '/') = a.reverse := by
    apply takeWhile_eq_self
    intro y hy
    rw [List.mem_reverse] at hy
    simp
    intro hcon
    subst hcon
    exact ha hy
  have h2 : (a.reverse ++ x.reverse).takeWhile (fun c => c ≠ '/') =
      a.reverse := by
    have hh : ∀ c, x.reverse.head? = some c →
        (fun c => decide (c ≠ '/')) c = false := by
      intro c hc
      rw [List.head?_reverse] at hc
      rw [hx] at hc
      simp at hc
      simp [← hc]
    have := takeWhile_middle (a := a.reverse) x.reverse
      (fun y hy => by
        rw [List.mem_reverse] at hy
        simp
        intro hcon
        subst hcon
        exact ha hy) hh
    exact this.1
  rw [h2, List.reverse_reverse]

theorem lastSegment_of_noslash {p : Chars} (h : '/' ∉ p) :
    lastSegment p = p := by
  unfold lastSegment
  rw [takeWhile_eq_self, List.reverse_reverse]
  intro y hy
  rw [List.mem_reverse] at hy
  simp
  intro hcon
  subst hcon
  exact h hy

theorem presplit_eq_self {l : Chars}
    (hclean : ∀ c ∈ l, unsafeByte c = false)
    (hhead : ∀ c, l.head? = some c → wsControl c = false) :
    presplit l = l := by
  unfold presplit
  rw [dropWhile_head_false hhead]
  rw [List.filter_eq_self]
  intro c hc
  simp [hclean c hc]

end SCV

namespace SCV

/-! ## Scheme-detection lemmas -/

theorem scheme_chars_colon : scheme_chars ':' = false := by decide

theorem detect_scheme_of_scheme {s : Chars} (hs : schemeLike s = true)
    (hlow : pyLower s = s) (rest : Chars) :
    detect_scheme (s ++ ':' :: rest) = some (s, rest) := by
  have hnc : ':' ∉ s := by
    intro hc
    cases s with
    | nil => simp at hc
    | cons c cs =>
      unfold schemeLike at hs
      have hall := (Bool.and_eq_true _ _ |>.mp hs).2
      rw [List.all_eq_true] at hall
      have := hall ':' hc
      rw [scheme_chars_colon] at this
      exact Bool.false_ne_true this
  unfold detect_scheme
  rw [splitFirst_boundary rest hnc]
  cases hsc : s with
  | nil => rw [hsc] at hs; simp [schemeLike] at hs
  | cons c cs =>
    subst hsc
    unfold schemeLike at hs
    dsimp only at hs ⊢
    rw [if_pos hs, hlow]

theorem detect_scheme_none_of_splits {S : Chars}
    (h : ∀ pre rest, splitFirst ':' S = some (pre, rest) →
      schemeLike pre = false) :
    detect_scheme S = none := by
  unfold detect_scheme
  cases hsp : splitFirst ':' S with
  | none => rfl
  | some p =>
    obtain ⟨a, b⟩ := p
    have := h a b (by rw [hsp])
    dsimp only
    cases hp1 : a with
    | nil => rfl
    | cons c cs =>
      subst hp1
      dsimp only
      unfold schemeLike at this
      dsimp only at this
      rw [this]
      simp

theorem detect_scheme_none_head {S : Chars}
    (h : ∀ c, S.head? = some c → c.isAlpha = false) :
    detect_scheme S = none := by
  apply detect_scheme_none_of_splits
  intro pre rest hsp
  obtain ⟨hS, _⟩ := splitFirst_parts hsp
  cases hpre : pre with
  | nil => rfl
  | cons c cs =>
    unfold schemeLike
    have hc : S.head? = some c := by rw [hS, hpre]; rfl
    simp [h c hc]

theorem noSchemeColon_of_detect_none {u p : Chars}
    (hd : detect_scheme u = none) (hpre : ∃ t, p ++ t = u) :
    NoSchemeColon p := by
  intro pre rest hsp
  obtain ⟨t, ht⟩ := hpre
  have hu : splitFirst ':' u = some (pre, rest ++ t) := by
    rw [← ht]
    exact splitFirst_append_first t hsp
  unfold detect_scheme at hd
  rw [hu] at hd
  cases hpre2 : pre with
  | nil => rfl
  | cons c cs =>
    subst hpre2
    dsimp only at hd
    unfold schemeLike
    dsimp only
    by_cases hcond : (c.isAlpha && (c :: cs).all scheme_chars) = true
    · rw [if_pos hcond] at hd
      exact absurd hd (by simp)
    · exact Bool.eq_false_iff.mpr hcond

theorem noSchemeColon_prefix {p q : Chars} (h : NoSchemeColon p)
    (hpre : ∃ t, q ++ t = p) : NoSchemeColon q := by
  intro pre rest hsp
  obtain ⟨t, ht⟩ := hpre
  exact h pre (rest ++ t) (by rw [← ht]; exact splitFirst_append_first t hsp)

theorem detect_none_extend {p tail : Chars} (hp : NoSchemeColon p)
    (htail : ∀ c, tail.head? = some c →
      scheme_chars c = false ∧ c ≠ ':') :
    detect_scheme (p ++ tail) = none := by
  apply detect_scheme_none_of_splits
  intro pre rest hsp
  by_cases hcp : ':' ∈ p
  · obtain ⟨pre0, r0, hsp0⟩ : ∃ a b, splitFirst ':' p = some (a, b) := by
      cases hspp : splitFirst ':' p with
      | none => exact absurd ((splitFirst_eq_none_iff _ _).mp hspp) (by simp [hcp])
      | some pr =>
        obtain ⟨x, y⟩ := pr
        exact ⟨x, y, rfl⟩
    have := splitFirst_append_first tail hsp0
    rw [this] at hsp
    obtain ⟨h1, _⟩ := Prod.mk.injEq _ _ _ _ |>.mp (Option.some.inj hsp)
    rw [← h1]
    exact hp pre0 r0 hsp0
  · rw [splitFirst_append_of_not_mem tail hcp] at hsp
    cases hst : splitFirst ':' tail with
    | none => rw [hst] at hsp; simp at hsp
    | some pr =>
      rw [hst] at hsp
      simp only [Option.map] at hsp
      obtain ⟨h1, _⟩ := Prod.mk.injEq _ _ _ _ |>.mp (Option.some.inj hsp)
      obtain ⟨htl, hnpr⟩ := splitFirst_parts hst
      cases hpr1 : pr.1 with
      | nil =>
        exfalso
        rw [hpr1] at htl
        have : tail.head? = some ':' := by rw [htl]; rfl
        exact (htail ':' this).2 rfl
      | cons c cs =>
        have hhead : tail.head? = some c := by rw [htl, hpr1]; rfl
        have hcs : scheme_chars c = false := (htail c hhead).1
        have hcm : c ∈ pre := by
          rw [← h1, hpr1]
          simp
        cases hpre2 : pre with
        | nil => rfl
        | cons d ds =>
          rw [hpre2] at hcm
          have hallf : List.all (d :: ds) scheme_chars = false := by
            apply Bool.eq_false_iff.mpr
            intro hall
            rw [List.all_eq_true] at hall
            have := hall c hcm
            rw [hcs] at this
            exact Bool.false_ne_true this
          unfold schemeLike
          dsimp only
          rw [hallf, Bool.and_false]

end SCV

namespace SCV

/-! ## Params-stage lemmas: `_splitparams` undoes the `;`-join -/

theorem splitparams_def (p : Chars) :
    splitparams p =
      if '/' ∈ p then
        match splitFirst ';' (lastSegment p) with
        | none => (p, [])
        | some (a, b) =>
          (p.take (p.length - (lastSegment p).length) ++ a, b)
      else
        match splitFirst ';' p with
        | some (a, b) => (a, b)
        | none => (p.dropLast, p) := rfl

theorem splitparams_join {path params : Chars} (hps : '/' ∉ params)
    (hseg : params = [] → ';' ∉ lastSegment path)
    (hsemi : ';' ∈ joinParams path params) :
    joinParams (splitparams (joinParams path params)).1
      (splitparams (joinParams path params)).2 = joinParams path params := by
  by_cases hpne : params = []
  · subst hpne
    have hA : joinParams path [] = path := by simp [joinParams]
    rw [hA] at hsemi ⊢
    have hns : ';' ∉ lastSegment path := hseg rfl
    by_cases hsl : '/' ∈ path
    · have hnone : splitFirst ';' (lastSegment path) = none :=
        splitFirst_none_of_not_mem hns
      have hsp : splitparams path = (path, []) := by
        rw [splitparams_def, if_pos hsl, hnone]
      rw [hsp]
      simp [joinParams]
    · rw [lastSegment_of_noslash hsl] at hns
      exact absurd hsemi hns
  · have hA : joinParams path params = path ++ ';' :: params := by
      simp [joinParams, hpne]
    rw [hA]
    by_cases hsl : '/' ∈ path
    · have hpren : (lastSegPre path).getLast? = some '/' :=
        lastSegPre_getLast hsl
      have htail : '/' ∉ lastSegment path ++ ';' :: params := by
        intro hc
        rcases List.mem_append.mp hc with h1 | h2
        · exact lastSegment_noslash path h1
        · rcases List.mem_cons.mp h2 with h3 | h4
          · exact absurd h3.symm (by decide)
          · exact hps h4
      have hdec : path ++ ';' :: params =
          lastSegPre path ++ (lastSegment path ++ ';' :: params) := by
        rw [← List.append_assoc, lastSeg_decomp]
      have hslA : '/' ∈ path ++ ';' :: params :=
        List.mem_append.mpr (Or.inl hsl)
      have hLA : lastSegment (path ++ ';' :: params) =
          lastSegment path ++ ';' :: params := by
        rw [hdec]
        exact lastSegment_append htail hpren
      have htake : (path ++ ';' :: params).take
          ((path ++ ';' :: params).length -
            (lastSegment (path ++ ';' :: params)).length) =
          lastSegPre path := by
        have hlen : (path ++ ';' :: params).length -
            (lastSegment (path ++ ';' :: params)).length =
            (lastSegPre path).length := by
          rw [hLA]
          conv_lhs => rw [hdec]
          simp [List.length_append]
        rw [hlen]
        conv_lhs => rw [hdec]
        exact List.take_left _ _
      by_cases hmem : ';' ∈ lastSegment path
      · obtain ⟨s1, s2, hsf⟩ : ∃ a b,
            splitFirst ';' (lastSegment path) = some (a, b) := by
          cases hq : splitFirst ';' (lastSegment path) with
          | none =>
            exact absurd ((splitFirst_eq_none_iff _ _).mp hq)
              (by simp [hmem])
          | some pr =>
            obtain ⟨x, y⟩ := pr
            exact ⟨x, y, rfl⟩
        obtain ⟨hdecomp, _⟩ := splitFirst_parts hsf
        have hsfA : splitFirst ';'
            (lastSegment (path ++ ';' :: params)) =
            some (s1, s2 ++ ';' :: params) := by
          rw [hLA]
          exact splitFirst_append_first _ hsf
        have hspA : splitparams (path ++ ';' :: params) =
            (lastSegPre path ++ s1, s2 ++ ';' :: params) := by
          rw [splitparams_def, if_pos hslA, hsfA]
          dsimp only
          rw [htake]
        rw [hspA]
        have hne2 : (s2 ++ ';' :: params : Chars) ≠ [] := by simp
        dsimp only
        rw [joinParams, if_pos hne2]
        conv_rhs => rw [← lastSeg_decomp path, hdecomp]
        simp [List.append_assoc]
      · have hsfA : splitFirst ';'
            (lastSegment (path ++ ';' :: params)) =
            some (lastSegment path, params) := by
          rw [hLA]
          exact splitFirst_boundary params hmem
        have hspA : splitparams (path ++ ';' :: params) =
            (path, params) := by
          rw [splitparams_def, if_pos hslA, hsfA]
          dsimp only
          rw [htake, lastSeg_decomp]
        rw [hspA]
        dsimp only
        rw [joinParams, if_pos hpne]
    · have hslA : '/' ∉ path ++ ';' :: params := by
        intro hc
        rcases List.mem_append.mp hc with h1 | h2
        · exact hsl h1
        · rcases List.mem_cons.mp h2 with h3 | h4
          · exact absurd h3.symm (by decide)
          · exact hps h4
      by_cases hmem : ';' ∈ path
      · obtain ⟨p1, p2, hsf⟩ : ∃ a b,
            splitFirst ';' path = some (a, b) := by
          cases hq : splitFirst ';' path with
          | none =>
            exact absurd ((splitFirst_eq_none_iff _ _).mp hq)
              (by simp [hmem])
          | some pr =>
            obtain ⟨x, y⟩ := pr
            exact ⟨x, y, rfl⟩
        obtain ⟨hdecomp, _⟩ := splitFirst_parts hsf
        have hsfA : splitFirst ';' (path ++ ';' :: params) =
            some (p1, p2 ++ ';' :: params) :=
          splitFirst_append_first _ hsf
        have hspA : splitparams (path ++ ';' :: params) =
            (p1, p2 ++ ';' :: params) := by
          rw [splitparams_def, if_neg hslA, hsfA]
        rw [hspA]
        have hne2 : (p2 ++ ';' :: params : Chars) ≠ [] := by simp
        dsimp only
        rw [joinParams, if_pos hne2]
        conv_rhs => rw [hdecomp]
        simp [List.append_assoc]
      · have hsfA : splitFirst ';' (path ++ ';' :: params) =
            some (path, params) :=
          splitFirst_boundary params hmem
        have hspA : splitparams (path ++ ';' :: params) =
            (path, params) := by
          rw [splitparams_def, if_neg hslA, hsfA]
        rw [hspA]
        dsimp only
        rw [joinParams, if_pos hpne]

end SCV

namespace SCV

/-! ## Decomposing `urlunsplit` output -/

theorem mem_fixSlash {c : Char} {l : Chars} (h : c ∈ fixSlash l) :
    c = '/' ∨ c ∈ l := by
  unfold fixSlash at h
  by_cases hc : l ≠ [] ∧ l.head? ≠ some '/'
  · rw [if_pos hc] at h
    rcases List.mem_cons.mp h with h1 | h2
    · exact Or.inl h1
    · exact Or.inr h2
  · rw [if_neg hc] at h
    exact Or.inr h

theorem mem_joinParams {c : Char} {a b : Chars}
    (h : c ∈ joinParams a b) : c ∈ a ∨ c = ';' ∨ c ∈ b := by
  unfold joinParams at h
  by_cases hb : b ≠ []
  · rw [if_pos hb] at h
    rcases List.mem_append.mp h with h1 | h2
    · exact Or.inl h1
    · rcases List.mem_cons.mp h2 with h3 | h4
      · exact Or.inr (Or.inl h3)
      · exact Or.inr (Or.inr h4)
  · rw [if_neg hb] at h
    exact Or.inl h

theorem take2_ne_slashslash {a b : Chars} (ha : a.take 2 ≠ ['/', '/'])
    (hb : ∀ c, b.head? = some c → c ≠ '/') :
    (a ++ b).take 2 ≠ ['/', '/'] := by
  match a with
  | [] =>
    intro hc
    simp only [List.nil_append] at hc
    cases b with
    | nil => simp at hc
    | cons x xs =>
      have : x = '/' := by
        have := congrArg (fun l => l.head?) hc
        simpa [List.take] using this
      exact hb x rfl this
  | [x] =>
    intro hc
    simp only [List.cons_append, List.nil_append] at hc
    cases b with
    | nil => simp [List.take] at hc
    | cons y ys =>
      have h2 : x = '/' ∧ y = '/' := by
        simpa [List.take] using hc
      exact hb y rfl h2.2
  | x :: y :: t =>
    intro hc
    apply ha
    simp only [List.cons_append] at hc
    simpa [List.take] using hc

theorem urlunsplit_decomp (s : SplitResult) (hfrag : s.fragment = []) :
    urlunsplit s =
      (if s.scheme ≠ [] then s.scheme ++ ':' :: usBody s else usBody s) ++
        (if s.query ≠ [] then '?' :: s.query else []) := by
  unfold urlunsplit usBody usCond fixSlash
  rw [hfrag]
  by_cases hq : s.query = []
  · simp [hq]
  · simp [hq]

end SCV


namespace SCV

/-! ## Evaluating `urlsplit` on well-shaped input -/

theorem urlsplit_eval_netloc {d U sc nl T P qu : Chars}
    (hpres : presplit U = U)
    (hdet : detect_scheme U = some (sc, '/' :: '/' :: (nl ++ T)) ∨
      (detect_scheme U = none ∧ d = sc ∧ U = '/' :: '/' :: (nl ++ T)))
    (hnd : ∀ c ∈ nl, netlocDelim c = false)
    (hTh : ∀ c, T.head? = some c → netlocDelim c = true)
    (hbr : ('[' ∈ nl ↔ ']' ∈ nl))
    (hTfr : '#' ∉ T)
    (hTq : splitFirst '?' T = some (P, qu) ∨
      (splitFirst '?' T = none ∧ T = P ∧ qu = [])) :
    urlsplit d U = .ok ⟨sc, nl, P, qu, []⟩ := by
  have hmid := takeWhile_middle (p := fun c => !netlocDelim c) (a := nl) T
    (fun x hx => by simp [hnd x hx])
    (fun c hc => by simp [hTh c hc])
  have hbrf : ¬(('[' ∈ nl ∧ ']' ∉ nl) ∨ (']' ∈ nl ∧ '[' ∉ nl)) := by
    rintro (⟨h1, h2⟩ | ⟨h1, h2⟩)
    · exact h2 (hbr.mp h1)
    · exact h2 (hbr.mpr h1)
  have htk : List.take 2 ('/' :: '/' :: (nl ++ T)) = ['/', '/'] := rfl
  have hdp : List.drop 2 ('/' :: '/' :: (nl ++ T)) = nl ++ T := rfl
  rcases hdet with hdet | ⟨hdet, hd, hUeq⟩
  · unfold urlsplit
    rw [hpres]
    dsimp only
    rw [hdet]
    dsimp only
    rw [if_pos htk, hdp, hmid.1, hmid.2, if_neg hbrf]
    dsimp only
    rw [splitFirst_none_of_not_mem hTfr]
    dsimp only
    rcases hTq with hTq | ⟨hTq, hTP, hqu⟩
    · rw [hTq]
    · rw [hTq]
      dsimp only
      rw [hTP, hqu]
  · subst hd
    unfold urlsplit
    rw [hpres]
    dsimp only
    rw [hdet]
    dsimp only
    rw [hUeq]
    rw [if_pos htk, hdp, hmid.1, hmid.2, if_neg hbrf]
    dsimp only
    rw [splitFirst_none_of_not_mem hTfr]
    dsimp only
    rcases hTq with hTq | ⟨hTq, hTP, hqu⟩
    · rw [hTq]
    · rw [hTq]
      dsimp only
      rw [hTP, hqu]

theorem urlsplit_eval_nonetloc {d U sc T P qu : Chars}
    (hpres : presplit U = U)
    (hdet : detect_scheme U = some (sc, T) ∨
      (detect_scheme U = none ∧ d = sc ∧ U = T))
    (hT2 : T.take 2 ≠ ['/', '/'])
    (hTfr : '#' ∉ T)
    (hTq : splitFirst '?' T = some (P, qu) ∨
      (splitFirst '?' T = none ∧ T = P ∧ qu = [])) :
    urlsplit d U = .ok ⟨sc, [], P, qu, []⟩ := by
  rcases hdet with hdet | ⟨hdet, hd, hUeq⟩
  · unfold urlsplit
    rw [hpres]
    dsimp only
    rw [hdet]
    dsimp only
    rw [if_neg hT2]
    dsimp only
    rw [splitFirst_none_of_not_mem hTfr]
    dsimp only
    rcases hTq with hTq | ⟨hTq, hTP, hqu⟩
    · rw [hTq]
    · rw [hTq]
      dsimp only
      rw [hTP, hqu]
  · subst hd
    unfold urlsplit
    rw [hpres]
    dsimp only
    rw [hdet]
    dsimp only
    rw [hUeq]
    rw [if_neg hT2]
    dsimp only
    rw [splitFirst_none_of_not_mem hTfr]
    dsimp only
    rcases hTq with hTq | ⟨hTq, hTP, hqu⟩
    · rw [hTq]
    · rw [hTq]
      dsimp only
      rw [hTP, hqu]

end SCV

namespace SCV

/-! ## Round trip: `urlsplit` of `urlunsplit` -/

theorem urlsplit_unsplit {s : SplitResult}
    (hscheme : s.scheme = [] ∨
      (schemeLike s.scheme = true ∧ pyLower s.scheme = s.scheme))
    (hnd : ∀ c ∈ s.netloc, netlocDelim c = false)
    (hbr : ('[' ∈ s.netloc ↔ ']' ∈ s.netloc))
    (hph : '#' ∉ s.path) (hpq : '?' ∉ s.path) (hqh : '#' ∉ s.query)
    (hfr : s.fragment = [])
    (hsc : ∀ c ∈ s.scheme, unsafeByte c = false)
    (hnc : ∀ c ∈ s.netloc, unsafeByte c = false)
    (hpc : ∀ c ∈ s.path, unsafeByte c = false)
    (hqc : ∀ c ∈ s.query, unsafeByte c = false)
    (hho : s.scheme = [] → s.netloc = [] →
      ∀ c, s.path.head? = some c → wsControl c = false)
    (hns : s.scheme = [] → NoSchemeColon s.path)
    (hhz : s.netloc = [] → s.path.take 2 ≠ ['/', '/']) :
    urlsplit [] (urlunsplit s) =
      .ok ⟨s.scheme, s.netloc,
        (if usCond s then fixSlash s.path else s.path), s.query, []⟩ := by
  obtain ⟨sc, nl, pa, qu, fr⟩ := s
  dsimp only at *
  subst hfr
  have hU : urlunsplit ⟨sc, nl, pa, qu, []⟩ =
      (if sc ≠ [] then sc ++ ':' :: usBody ⟨sc, nl, pa, qu, []⟩
       else usBody ⟨sc, nl, pa, qu, []⟩) ++
        (if qu ≠ [] then '?' :: qu else []) :=
    urlunsplit_decomp _ rfl
  have hQsh : ∀ c, (if qu ≠ [] then '?' :: qu else ([] : Chars)).head? =
      some c → c = '?' := by
    intro c hc
    by_cases hq : qu ≠ []
    · rw [if_pos hq] at hc
      simpa using hc.symm
    · rw [if_neg hq] at hc
      simp at hc
  have hQc : ∀ c ∈ (if qu ≠ [] then '?' :: qu else ([] : Chars)),
      unsafeByte c = false := by
    intro c hc
    by_cases hq : qu ≠ []
    · rw [if_pos hq] at hc
      rcases List.mem_cons.mp hc with h1 | h2
      · subst h1; decide
      · exact hqc c h2
    · rw [if_neg hq] at hc
      simp at hc
  have hbody_mem : ∀ c ∈ usBody ⟨sc, nl, pa, qu, []⟩,
      unsafeByte c = false := by
    intro c hc
    unfold usBody at hc
    by_cases hcond : usCond ⟨sc, nl, pa, qu, []⟩
    · rw [if_pos hcond] at hc
      rcases List.mem_append.mp hc with h1 | h2
      · rcases List.mem_append.mp h1 with h3 | h4
        · have : c = '/' := by simpa using h3
          subst this; decide
        · exact hnc c h4
      · rcases mem_fixSlash h2 with h3 | h4
        · subst h3; decide
        · exact hpc c h4
    · rw [if_neg hcond] at hc
      exact hpc c hc
  have hclean : ∀ c ∈ urlunsplit ⟨sc, nl, pa, qu, []⟩,
      unsafeByte c = false := by
    rw [hU]
    intro c hc
    rcases List.mem_append.mp hc with h1 | h2
    · by_cases hs : sc ≠ []
      · rw [if_pos hs] at h1
        rcases List.mem_append.mp h1 with h3 | h4
        · exact hsc c h3
        · rcases List.mem_cons.mp h4 with h5 | h6
          · subst h5; decide
          · exact hbody_mem c h6
      · rw [if_neg hs] at h1
        exact hbody_mem c h1
    · exact hQc c h2
  have hhead : ∀ c, (urlunsplit ⟨sc, nl, pa, qu, []⟩).head? = some c →
      wsControl c = false := by
    rw [hU]
    intro c hc
    by_cases hs : sc ≠ []
    · rw [if_pos hs] at hc
      rcases hscheme with h0 | ⟨hsl, hlow⟩
      · exact absurd h0 hs
      · cases hsc2 : sc with
        | nil => exact absurd hsc2 hs
        | cons s0 ss =>
          subst hsc2
          rw [List.cons_append, List.cons_append] at hc
          have hcs : c = s0 := by simpa using hc.symm
          subst hcs
          unfold schemeLike at hsl
          dsimp only at hsl
          have halpha : c.isAlpha = true := (Bool.and_eq_true _ _ |>.mp hsl).1
          have hb := (isAlpha_iff c).mp halpha
          unfold wsControl
          simp only [decide_eq_false_iff_not]
          omega
    · rw [if_neg hs] at hc
      push_neg at hs
      unfold usBody at hc
      by_cases hcond : usCond ⟨sc, nl, pa, qu, []⟩
      · rw [if_pos hcond] at hc
        have : c = '/' := by simpa using hc.symm
        subst this; decide
      · rw [if_neg hcond] at hc
        have hnl : nl = [] := by
          unfold usCond at hcond
          push_neg at hcond
          exact hcond.1
        cases hpa : pa with
        | nil =>
          rw [hpa] at hc
          have := hQsh c (by simpa using hc)
          subst this; decide
        | cons p0 ps =>
          rw [hpa] at hc
          have hcp : c = p0 := by simpa using hc.symm
          subst hcp
          exact hho hs hnl c (by rw [hpa]; rfl)
  have hpres := presplit_eq_self hclean hhead
  by_cases hcond : usCond ⟨sc, nl, pa, qu, []⟩
  · rw [if_pos hcond]
    have hbodyval : usBody ⟨sc, nl, pa, qu, []⟩ =
        ['/', '/'] ++ nl ++ fixSlash pa := by
      unfold usBody
      rw [if_pos hcond]
    set T := fixSlash pa ++ (if qu ≠ [] then '?' :: qu else []) with hT
    have hRform : usBody ⟨sc, nl, pa, qu, []⟩ ++
        (if qu ≠ [] then '?' :: qu else []) = '/' :: '/' :: (nl ++ T) := by
      rw [hbodyval, hT]
      simp [List.append_assoc]
    have hTh : ∀ c, T.head? = some c → netlocDelim c = true := by
      intro c hc
      rw [hT] at hc
      unfold fixSlash at hc
      by_cases hfs : pa ≠ [] ∧ pa.head? ≠ some '/'
      · rw [if_pos hfs] at hc
        have : c = '/' := by simpa using hc.symm
        subst this; decide
      · rw [if_neg hfs] at hc
        push_neg at hfs
        by_cases hpan : pa = []
        · rw [hpan] at hc
          have := hQsh c (by simpa using hc)
          subst this; decide
        · have hph' := hfs hpan
          cases hpa2 : pa with
          | nil => exact absurd hpa2 hpan
          | cons p0 ps =>
            rw [hpa2] at hc hph'
            have h1 : p0 = '/' := by simpa using hph'
            have h2 : c = p0 := by simpa using hc.symm
            subst h2
            rw [h1]
            decide
    have hTfr : '#' ∉ T := by
      rw [hT]
      intro hcm
      rcases List.mem_append.mp hcm with h1 | h2
      · rcases mem_fixSlash h1 with h3 | h4
        · exact absurd h3 (by decide)
        · exact hph h4
      · by_cases hq : qu ≠ []
        · rw [if_pos hq] at h2
          rcases List.mem_cons.mp h2 with h3 | h4
          · exact absurd h3 (by decide)
          · exact hqh h4
        · rw [if_neg hq] at h2
          simp at h2
    have hnq : '?' ∉ fixSlash pa := by
      intro hm
      rcases mem_fixSlash hm with h3 | h4
      · exact absurd h3 (by decide)
      · exact hpq h4
    have hTq : splitFirst '?' T = some (fixSlash pa, qu) ∨
        (splitFirst '?' T = none ∧ T = fixSlash pa ∧ qu = []) := by
      by_cases hq : qu ≠ []
      · left
        rw [hT, if_pos hq]
        exact splitFirst_boundary qu hnq
      · right
        push_neg at hq
        refine ⟨?_, ?_, hq⟩
        · apply splitFirst_none_of_not_mem
          rw [hT, if_neg (by simp [hq])]
          simpa using hnq
        · rw [hT, if_neg (by simp [hq])]
          simp
    by_cases hs : sc = []
    · have hUform : urlunsplit ⟨sc, nl, pa, qu, []⟩ =
          '/' :: '/' :: (nl ++ T) := by
        rw [hU, if_neg (by simp [hs]), hRform]
      have hdetn : detect_scheme (urlunsplit ⟨sc, nl, pa, qu, []⟩) =
          none := by
        apply detect_scheme_none_head
        intro c hc
        rw [hUform] at hc
        have : c = '/' := by simpa using hc.symm
        subst this; decide
      exact urlsplit_eval_netloc (d := []) hpres
        (Or.inr ⟨hdetn, hs.symm, hUform⟩) hnd hTh hbr hTfr hTq
    · rcases hscheme with h0 | ⟨hsl, hlow⟩
      · exact absurd h0 hs
      · have hU2 : urlunsplit ⟨sc, nl, pa, qu, []⟩ =
            sc ++ ':' :: ('/' :: '/' :: (nl ++ T)) := by
          rw [hU, if_pos hs, List.append_assoc, List.cons_append, hRform]
        have hdets : detect_scheme (urlunsplit ⟨sc, nl, pa, qu, []⟩) =
            some (sc, '/' :: '/' :: (nl ++ T)) := by
          rw [hU2]
          exact detect_scheme_of_scheme hsl hlow _
        exact urlsplit_eval_netloc (d := []) hpres (Or.inl hdets) hnd hTh hbr
          hTfr hTq
  · rw [if_neg hcond]
    have hnl : nl = [] := by
      unfold usCond at hcond
      push_neg at hcond
      exact hcond.1
    have hbodyval : usBody ⟨sc, nl, pa, qu, []⟩ = pa := by
      unfold usBody
      rw [if_neg hcond]
    set T := pa ++ (if qu ≠ [] then '?' :: qu else []) with hT
    have hRform : usBody ⟨sc, nl, pa, qu, []⟩ ++
        (if qu ≠ [] then '?' :: qu else []) = T := by
      rw [hbodyval, hT]
    have hT2 : T.take 2 ≠ ['/', '/'] := by
      rw [hT]
      apply take2_ne_slashslash (hhz hnl)
      intro c hc
      have := hQsh c hc
      subst this
      decide
    have hTfr : '#' ∉ T := by
      rw [hT]
      intro hcm
      rcases List.mem_append.mp hcm with h1 | h2
      · exact hph h1
      · by_cases hq : qu ≠ []
        · rw [if_pos hq] at h2
          rcases List.mem_cons.mp h2 with h3 | h4
          · exact absurd h3 (by decide)
          · exact hqh h4
        · rw [if_neg hq] at h2
          simp at h2
    have hTq : splitFirst '?' T = some (pa, qu) ∨
        (splitFirst '?' T = none ∧ T = pa ∧ qu = []) := by
      by_cases hq : qu ≠ []
      · left
        rw [hT, if_pos hq]
        exact splitFirst_boundary qu hpq
      · right
        push_neg at hq
        refine ⟨?_, ?_, hq⟩
        · apply splitFirst_none_of_not_mem
          rw [hT, if_neg (by simp [hq])]
          simpa using hpq
        · rw [hT, if_neg (by simp [hq])]
          simp
    by_cases hs : sc = []
    · have hUT : urlunsplit ⟨sc, nl, pa, qu, []⟩ = T := by
        rw [hU, if_neg (by simp [hs]), hRform]
      have hdetn : detect_scheme (urlunsplit ⟨sc, nl, pa, qu, []⟩) =
          none := by
        rw [hUT, hT]
        apply detect_none_extend (hns hs)
        intro c hc
        have := hQsh c hc
        subst this
        exact ⟨by decide, by decide⟩
      have := urlsplit_eval_nonetloc (d := []) hpres
        (Or.inr ⟨hdetn, hs.symm, hUT⟩) hT2 hTfr hTq
      rw [hnl] at this ⊢
      exact this
    · rcases hscheme with h0 | ⟨hsl, hlow⟩
      · exact absurd h0 hs
      · have hU2 : urlunsplit ⟨sc, nl, pa, qu, []⟩ = sc ++ ':' :: T := by
          rw [hU, if_pos hs, List.append_assoc, List.cons_append, hRform]
        have hdets : detect_scheme (urlunsplit ⟨sc, nl, pa, qu, []⟩) =
            some (sc, T) := by
          rw [hU2]
          exact detect_scheme_of_scheme hsl hlow _
        have := urlsplit_eval_nonetloc (d := []) hpres (Or.inl hdets) hT2 hTfr hTq
        rw [hnl] at this ⊢
        exact this

end SCV

namespace SCV

/-! ## Small facts about `fixSlash`, `joinParams`, segments -/

theorem joinParams_nil (a : Chars) : joinParams a [] = a := by
  simp [joinParams]

theorem getLast?_cons_ne {x : Char} {p : Chars} (h : p ≠ []) :
    (x :: p).getLast? = p.getLast? := by
  cases p with
  | nil => exact absurd rfl h
  | cons y ys => exact List.getLast?_cons_cons

theorem lastSegment_cons_slash (p : Chars) :
    lastSegment ('/' :: p) = lastSegment p := by
  by_cases h : '/' ∈ p
  · have hdec : '/' :: p = ('/' :: lastSegPre p) ++ lastSegment p := by
      conv_lhs => rw [← lastSeg_decomp p]
      rw [List.cons_append]
    rw [hdec]
    apply lastSegment_append (lastSegment_noslash p)
    have hg := lastSegPre_getLast h
    cases hq : lastSegPre p with
    | nil => rw [hq] at hg; simp at hg
    | cons x xs =>
      rw [hq] at hg
      rw [getLast?_cons_ne (by simp)]
      exact hg
  · rw [lastSegment_of_noslash h]
    show lastSegment (['/'] ++ p) = p
    exact lastSegment_append h rfl

theorem fixSlash_idem (l : Chars) : fixSlash (fixSlash l) = fixSlash l := by
  unfold fixSlash
  by_cases hc : l ≠ [] ∧ l.head? ≠ some '/'
  · rw [if_pos hc, if_neg (by simp)]
  · rw [if_neg hc, if_neg hc]

theorem usCond_fixSlash {sc nl J qu : Chars}
    (h : usCond ⟨sc, nl, J, qu, []⟩) :
    usCond ⟨sc, nl, fixSlash J, qu, []⟩ := by
  unfold usCond at *
  dsimp only at *
  rcases h with h | ⟨h1, h2, h3⟩
  · exact Or.inl h
  · right
    refine ⟨h1, h2, ?_⟩
    unfold fixSlash
    by_cases hc : J ≠ [] ∧ J.head? ≠ some '/'
    · rw [if_pos hc]
      cases J with
      | nil => exact absurd rfl hc.1
      | cons j0 js =>
        intro hcontra
        have htk : ('/' :: j0 :: js).take 2 = ['/', j0] := rfl
        rw [htk] at hcontra
        simp at hcontra
        exact hc.2 (by rw [hcontra]; rfl)
    · rw [if_neg hc]
      exact h3

theorem urlunsplit_fixSlash {sc nl J qu : Chars}
    (h : usCond ⟨sc, nl, J, qu, []⟩) :
    urlunsplit ⟨sc, nl, fixSlash J, qu, []⟩ =
      urlunsplit ⟨sc, nl, J, qu, []⟩ := by
  have h2 : usCond ⟨sc, nl, fixSlash J, qu, []⟩ := usCond_fixSlash h
  rw [urlunsplit_decomp _ rfl, urlunsplit_decomp _ rfl]
  have hbody : usBody ⟨sc, nl, fixSlash J, qu, []⟩ =
      usBody ⟨sc, nl, J, qu, []⟩ := by
    unfold usBody
    rw [if_pos h2, if_pos h]
    dsimp only
    rw [fixSlash_idem]
  rw [hbody]

end SCV

namespace SCV

/-! ## `urlsplit` of `urlunparse` under the normalization invariant -/

theorem urlsplit_unparse {cfg : Config} {q : ParseResult}
    (h : NormInv cfg q) :
    urlsplit [] (urlunparse q) =
      .ok ⟨q.scheme, q.netloc, reparsedPath q, q.query, []⟩ := by
  have hqu : urlunparse q = urlunsplit ⟨q.scheme, q.netloc,
      joinParams q.path q.params, q.query, q.fragment⟩ := rfl
  rw [hqu]
  have h1 : (⟨q.scheme, q.netloc, joinParams q.path q.params, q.query,
      q.fragment⟩ : SplitResult).scheme = [] ∨
      (schemeLike q.scheme = true ∧ pyLower q.scheme = q.scheme) := by
    rcases h.scheme_ok with h0 | ⟨ha, hb, _⟩
    · exact Or.inl h0
    · exact Or.inr ⟨ha, hb⟩
  have h4 : '#' ∉ joinParams q.path q.params := by
    intro hm
    rcases mem_joinParams hm with hp | hsemi | hpr
    · exact h.path_nohash hp
    · exact absurd hsemi (by decide)
    · exact h.params_nohash hpr
  have h5 : '?' ∉ joinParams q.path q.params := by
    intro hm
    rcases mem_joinParams hm with hp | hsemi | hpr
    · exact h.path_noq hp
    · exact absurd hsemi (by decide)
    · exact h.params_noq hpr
  have h10 : ∀ c ∈ joinParams q.path q.params, unsafeByte c = false := by
    intro c hc
    rcases mem_joinParams hc with hp | hsemi | hpr
    · exact h.path_clean c hp
    · subst hsemi; decide
    · exact h.params_clean c hpr
  have h12 : q.scheme = [] → q.netloc = [] → ∀ c,
      (joinParams q.path q.params).head? = some c →
      wsControl c = false := by
    intro hs hnl c hc
    unfold joinParams at hc
    by_cases hpne : q.params ≠ []
    · rw [if_pos hpne] at hc
      cases hpa : q.path with
      | nil =>
        rw [hpa] at hc
        have : c = ';' := by simpa using hc.symm
        subst this; decide
      | cons p0 ps =>
        rw [hpa] at hc
        have : c = p0 := by simpa using hc.symm
        subst this
        exact h.head_ok hs hnl c (by rw [hpa]; rfl)
    · rw [if_neg hpne] at hc
      exact h.head_ok hs hnl c hc
  have h13 : q.scheme = [] → NoSchemeColon (joinParams q.path q.params) := by
    intro hs
    by_cases hpne : q.params = []
    · rw [hpne, joinParams_nil]
      exact h.noscheme hs
    · have hJd : joinParams q.path q.params =
          q.path ++ ';' :: q.params := by
        simp [joinParams, hpne]
      rw [hJd]
      refine noSchemeColon_of_detect_none
        (detect_none_extend (h.noscheme hs) ?_) ⟨[], List.append_nil _⟩
      intro c hc
      have : c = ';' := by simpa using hc.symm
      subst this
      exact ⟨by decide, by decide⟩
  have h14 : q.netloc = [] →
      (joinParams q.path q.params).take 2 ≠ ['/', '/'] := by
    intro hnl
    by_cases hpne : q.params = []
    · rw [hpne, joinParams_nil]
      exact h.nohazard hnl
    · have hJd : joinParams q.path q.params =
          q.path ++ ';' :: q.params := by
        simp [joinParams, hpne]
      rw [hJd]
      refine take2_ne_slashslash (h.nohazard hnl) ?_
      intro c hc
      have : c = ';' := by simpa using hc.symm
      subst this
      decide
  have H := urlsplit_unsplit h1 h.netloc_nodelim h.brackets h4 h5
    h.query_nohash h.frag h.scheme_clean h.netloc_clean h10
    h.query_clean h12 h13 h14
  dsimp only at H
  unfold reparsedPath
  exact H

end SCV

namespace SCV

/-! ## The fixed point of `_normalize_url` -/

theorem normalize_fixed {cfg : Config} {q : ParseResult}
    (h : NormInv cfg q) :
    normalize_url cfg (urlunparse q) = .ok (urlunparse q) := by
  obtain ⟨qs, qn, qp, qpar, qq, qf⟩ := q
  have hqf : qf = [] := h.frag
  subst hqf
  have hso : qs = [] ∨ (schemeLike qs = true ∧ pyLower qs = qs ∧
      (cfg.force_https = true → qs ≠ "http".data)) := h.scheme_ok
  have hnlow : qn.map Char.toLower = qn := h.netloc_lower
  have hqdrop0 : cfg.ignore_query_params = true → qq = [] := h.query_drop
  have hpeok : qpar = [] → (String.mk qs) ∉ uses_params ∨
      ';' ∉ lastSegment qp := h.params_empty_ok
  have hpns : '/' ∉ qpar := h.params_noslash
  have hmode : cfg.remove_trailing_slash = false ∨
      (';' ∉ qp ∧ qpar = [] ∧
        (qp = ['/'] ∨ ∀ c, qp.getLast? = some c → c ≠ '/')) := h.mode
  by_cases hUe : urlunparse ⟨qs, qn, qp, qpar, qq, []⟩ = []
  · unfold normalize_url
    rw [if_pos hUe]
  · have hsp := urlsplit_unparse h
    set P := reparsedPath ⟨qs, qn, qp, qpar, qq, []⟩ with hPdef
    have hforce : ¬(cfg.force_https = true ∧ qs = "http".data) := by
      rintro ⟨hf1, hf2⟩
      rcases hso with h0 | ⟨_, _, hf⟩
      · rw [h0] at hf2
        exact absurd hf2 (by decide)
      · exact hf hf1 hf2
    have hqdrop : (if cfg.ignore_query_params then [] else qq) = qq := by
      by_cases hig : cfg.ignore_query_params
      · rw [if_pos hig, hqdrop0 hig]
      · rw [if_neg hig]
    have hfinal : urlunsplit ⟨qs, qn, P, qq, []⟩ =
        urlunparse ⟨qs, qn, qp, qpar, qq, []⟩ := by
      by_cases hcond : usCond ⟨qs, qn, joinParams qp qpar, qq, []⟩
      · have hPval : P = fixSlash (joinParams qp qpar) := by
          rw [hPdef]
          unfold reparsedPath
          rw [if_pos hcond]
        rw [hPval]
        exact urlunsplit_fixSlash hcond
      · have hPval : P = joinParams qp qpar := by
          rw [hPdef]
          unfold reparsedPath
          rw [if_neg hcond]
        rw [hPval]
        rfl
    unfold normalize_url
    rw [if_neg hUe]
    by_cases hgate : (String.mk qs) ∈ uses_params ∧ ';' ∈ P
    · have hparse : urlparse [] (urlunparse ⟨qs, qn, qp, qpar, qq, []⟩) =
          .ok ⟨qs, qn, (splitparams P).1, (splitparams P).2, qq, []⟩ := by
        unfold urlparse
        rw [hsp]
        dsimp only
        rw [if_pos hgate]
      rw [hparse]
      dsimp only
      have hrts : cfg.remove_trailing_slash = false := by
        rcases hmode with hm | ⟨hsem, hpar, _⟩
        · exact hm
        · exfalso
          have hJ : joinParams qp qpar = qp := by
            rw [hpar, joinParams_nil]
          have hPm : ';' ∈ P → False := by
            intro hm2
            rw [hPdef] at hm2
            unfold reparsedPath at hm2
            rw [hJ] at hm2
            by_cases hcond : usCond ⟨qs, qn, qp, qq, []⟩
            · rw [if_pos hcond] at hm2
              rcases mem_fixSlash hm2 with h1 | h2
              · exact absurd h1 (by decide)
              · exact hsem h2
            · rw [if_neg hcond] at hm2
              exact hsem hm2
          exact hPm hgate.2
      have hA : ∃ A', P = joinParams A' qpar ∧
          lastSegment A' = lastSegment qp := by
        by_cases hcond : usCond ⟨qs, qn, joinParams qp qpar, qq, []⟩
        · have hPval : P = fixSlash (joinParams qp qpar) := by
            rw [hPdef]
            unfold reparsedPath
            rw [if_pos hcond]
          by_cases hfs : joinParams qp qpar ≠ [] ∧
              (joinParams qp qpar).head? ≠ some '/'
          · refine ⟨'/' :: qp, ?_, lastSegment_cons_slash qp⟩
            rw [hPval]
            unfold fixSlash
            rw [if_pos hfs]
            unfold joinParams
            by_cases hpne : qpar ≠ []
            · rw [if_pos hpne, if_pos hpne, List.cons_append]
            · rw [if_neg hpne, if_neg hpne]
          · refine ⟨qp, ?_, rfl⟩
            rw [hPval]
            unfold fixSlash
            rw [if_neg hfs]
        · refine ⟨qp, ?_, rfl⟩
          rw [hPdef]
          unfold reparsedPath
          rw [if_neg hcond]
      obtain ⟨A', hPj, hsegA⟩ := hA
      have hseg' : qpar = [] → ';' ∉ lastSegment A' := by
        intro hp0
        rw [hsegA]
        rcases hpeok hp0 with hnu | hnseg
        · exact absurd hgate.1 hnu
        · exact hnseg
      have hJP : joinParams (splitparams P).1 (splitparams P).2 = P := by
        rw [hPj]
        exact splitparams_join hpns hseg' (by rw [← hPj]; exact hgate.2)
      have hNC : normComponents cfg
          ⟨qs, qn, (splitparams P).1, (splitparams P).2, qq, []⟩ =
          ⟨qs, qn, (splitparams P).1, (splitparams P).2, qq, []⟩ := by
        unfold normComponents
        dsimp only
        rw [if_neg hforce, hnlow, hqdrop, if_neg (by
          rintro ⟨hc1, _⟩
          rw [hrts] at hc1
          exact Bool.false_ne_true hc1)]
      rw [hNC]
      have hunp : urlunparse
          ⟨qs, qn, (splitparams P).1, (splitparams P).2, qq, []⟩ =
          urlunsplit ⟨qs, qn,
            joinParams (splitparams P).1 (splitparams P).2, qq, []⟩ := rfl
      rw [hunp, hJP, hfinal]
    · have hparse : urlparse [] (urlunparse ⟨qs, qn, qp, qpar, qq, []⟩) =
          .ok ⟨qs, qn, P, [], qq, []⟩ := by
        unfold urlparse
        rw [hsp]
        dsimp only
        rw [if_neg hgate]
      rw [hparse]
      dsimp only
      have hpathf : ¬(cfg.remove_trailing_slash = true ∧
          P.getLast? = some '/' ∧ P ≠ ['/']) := by
        rcases hmode with hm | ⟨hsem, hpar, hshape⟩
        · rintro ⟨hc1, _⟩
          rw [hm] at hc1
          exact Bool.false_ne_true hc1
        · rintro ⟨_, hc2, hc3⟩
          have hJ : joinParams qp qpar = qp := by
            rw [hpar, joinParams_nil]
          have hPcases : P = fixSlash qp ∨ P = qp := by
            rw [hPdef]
            unfold reparsedPath
            rw [hJ]
            by_cases hcond : usCond ⟨qs, qn, qp, qq, []⟩
            · rw [if_pos hcond]
              exact Or.inl rfl
            · rw [if_neg hcond]
              exact Or.inr rfl
          rcases hshape with hone | hlast
          · subst hone
            have hfx : fixSlash ['/'] = ['/'] := by decide
            rcases hPcases with hPv | hPv
            · rw [hfx] at hPv
              exact hc3 hPv
            · exact hc3 hPv
          · have hqplast : qp.getLast? ≠ some '/' := by
              intro hcc
              exact hlast '/' hcc rfl
            rcases hPcases with hPv | hPv
            · rw [hPv] at hc2
              unfold fixSlash at hc2
              by_cases hfs : qp ≠ [] ∧ qp.head? ≠ some '/'
              · rw [if_pos hfs] at hc2
                rw [getLast?_cons_ne hfs.1] at hc2
                exact hqplast hc2
              · rw [if_neg hfs] at hc2
                exact hqplast hc2
            · rw [hPv] at hc2
              exact hqplast hc2
      have hNC : normComponents cfg ⟨qs, qn, P, [], qq, []⟩ =
          ⟨qs, qn, P, [], qq, []⟩ := by
        unfold normComponents
        dsimp only
        rw [if_neg hforce, hnlow, hqdrop, if_neg hpathf]
      rw [hNC]
      have hunp : urlunparse ⟨qs, qn, P, [], qq, []⟩ =
          urlunsplit ⟨qs, qn, joinParams P [], qq, []⟩ := rfl
      rw [hunp, joinParams_nil, hfinal]

end SCV

namespace SCV

/-! ## Forward shape analysis of `urlsplit` output -/

theorem detect_scheme_some_inv {l a b : Chars}
    (h : detect_scheme l = some (a, b)) :
    ∃ pre, l = pre ++ ':' :: b ∧ a = pyLower pre ∧ schemeLike pre = true := by
  unfold detect_scheme at h
  cases hsp : splitFirst ':' l with
  | none => rw [hsp] at h; simp at h
  | some pr =>
    obtain ⟨x, y⟩ := pr
    rw [hsp] at h
    dsimp only at h
    cases hx : x with
    | nil => rw [hx] at h; simp at h
    | cons c cs =>
      rw [hx] at h hsp
      dsimp only at h
      by_cases hcond : (c.isAlpha && List.all (c :: cs) scheme_chars) = true
      · rw [if_pos hcond] at h
        obtain ⟨h1, h2⟩ := Prod.mk.injEq _ _ _ _ |>.mp (Option.some.inj h)
        obtain ⟨hdec, _⟩ := splitFirst_parts hsp
        subst h2
        refine ⟨c :: cs, hdec, h1.symm, ?_⟩
        unfold schemeLike
        exact hcond
      · rw [if_neg hcond] at h
        simp at h

theorem noSchemeColon_head_nonalpha {p : Chars}
    (h : ∀ c, p.head? = some c → c.isAlpha = false) : NoSchemeColon p := by
  intro pre rest hsp
  obtain ⟨hdec, _⟩ := splitFirst_parts hsp
  cases hpre : pre with
  | nil => rfl
  | cons c cs =>
    have hc : p.head? = some c := by rw [hdec, hpre]; rfl
    unfold schemeLike
    simp [h c hc]

theorem mem_presplit {c : Char} {u : Chars} (h : c ∈ presplit u) :
    c ∈ u := by
  unfold presplit at h
  exact List.dropWhile_subset _ (List.mem_of_mem_filter h)

theorem presplit_clean {u : Chars} : ∀ c ∈ presplit u,
    unsafeByte c = false := by
  intro c hc
  unfold presplit at hc
  have := List.of_mem_filter hc
  simpa using this

theorem presplit_head {u : Chars} : ∀ c, (presplit u).head? = some c →
    wsControl c = false := by
  intro c hc
  unfold presplit at hc
  cases hd : u.dropWhile wsControl with
  | nil => rw [hd] at hc; simp at hc
  | cons x xs =>
    have hx : wsControl x = false :=
      head?_dropWhile_false (p := wsControl) (by rw [hd]; rfl)
    have hxu : unsafeByte x = false := by
      cases hxu0 : unsafeByte x
      · rfl
      · exfalso
        unfold unsafeByte at hxu0
        simp at hxu0
        rcases hxu0 with (h1 | h1) | h1 <;> subst h1 <;>
          exact absurd hx (by decide)
    rw [hd, List.filter_cons, if_pos (by simp [hxu])] at hc
    have : c = x := by simpa using hc.symm
    subst this
    exact hx

theorem tail_components {SC NL R1 : Chars} {s : SplitResult}
    (hp : (Except.ok (⟨SC, NL,
        (match splitFirst '?' ((match splitFirst '#' R1 with
            | some p => p
            | none => (R1, [])).1) with
          | some p => p
          | none => ((match splitFirst '#' R1 with
              | some p => p
              | none => (R1, [])).1, [])).1,
        (match splitFirst '?' ((match splitFirst '#' R1 with
            | some p => p
            | none => (R1, [])).1) with
          | some p => p
          | none => ((match splitFirst '#' R1 with
              | some p => p
              | none => (R1, [])).1, [])).2,
        (match splitFirst '#' R1 with
          | some p => p
          | none => (R1, [])).2⟩ : SplitResult) :
        Except String SplitResult) = Except.ok s) :
    s.scheme = SC ∧ s.netloc = NL ∧
    (∃ t, s.path ++ t = R1) ∧ '#' ∉ s.path ∧ '?' ∉ s.path ∧
    '#' ∉ s.query ∧ (∀ c ∈ s.query, c ∈ R1) := by
  cases hsf : splitFirst '#' R1 with
  | none =>
    have hf1 : '#' ∉ R1 := (splitFirst_eq_none_iff _ _).mp hsf
    rw [hsf] at hp
    dsimp only at hp
    cases hsq : splitFirst '?' R1 with
    | none =>
      have hq1 : '?' ∉ R1 := (splitFirst_eq_none_iff _ _).mp hsq
      rw [hsq] at hp
      dsimp only at hp
      have hs := Except.ok.inj hp
      subst hs
      exact ⟨rfl, rfl, ⟨[], List.append_nil _⟩, hf1, hq1, by simp,
        by simp⟩
    | some pr =>
      obtain ⟨a, b⟩ := pr
      obtain ⟨hdec, hna⟩ := splitFirst_parts hsq
      rw [hsq] at hp
      dsimp only at hp
      have hs := Except.ok.inj hp
      subst hs
      refine ⟨rfl, rfl, ⟨'?' :: b, hdec.symm⟩, ?_, hna, ?_, ?_⟩
      · intro hm
        exact hf1 (by rw [hdec]; exact List.mem_append.mpr (Or.inl hm))
      · intro hm
        exact hf1 (by
          rw [hdec]
          exact List.mem_append.mpr (Or.inr (List.mem_cons_of_mem _ hm)))
      · intro c hm
        rw [hdec]
        exact List.mem_append.mpr (Or.inr (List.mem_cons_of_mem _ hm))
  | some pr =>
    obtain ⟨f1, fg⟩ := pr
    obtain ⟨hdec1, hnf1⟩ := splitFirst_parts hsf
    rw [hsf] at hp
    dsimp only at hp
    cases hsq : splitFirst '?' f1 with
    | none =>
      have hq1 : '?' ∉ f1 := (splitFirst_eq_none_iff _ _).mp hsq
      rw [hsq] at hp
      dsimp only at hp
      have hs := Except.ok.inj hp
      subst hs
      exact ⟨rfl, rfl, ⟨'#' :: fg, hdec1.symm⟩, hnf1, hq1, by simp,
        by simp⟩
    | some pr2 =>
      obtain ⟨a, b⟩ := pr2
      obtain ⟨hdec2, hna⟩ := splitFirst_parts hsq
      rw [hsq] at hp
      dsimp only at hp
      have hs := Except.ok.inj hp
      subst hs
      refine ⟨rfl, rfl, ⟨'?' :: b ++ '#' :: fg, ?_⟩, ?_, hna, ?_, ?_⟩
      · rw [← List.append_assoc, ← hdec2]
        exact hdec1.symm
      · intro hm
        exact hnf1 (by rw [hdec2]; exact List.mem_append.mpr (Or.inl hm))
      · intro hm
        exact hnf1 (by
          rw [hdec2]
          exact List.mem_append.mpr (Or.inr (List.mem_cons_of_mem _ hm)))
      · intro c hm
        rw [hdec1]
        apply List.mem_append.mpr
        left
        rw [hdec2]
        exact List.mem_append.mpr (Or.inr (List.mem_cons_of_mem _ hm))

end SCV

namespace SCV

theorem prefix_head {a t l : Chars} (h : a ++ t = l) {c : Char}
    (hc : a.head? = some c) : l.head? = some c := by
  cases a with
  | nil => simp at hc
  | cons x xs =>
    rw [← h]
    simpa using hc

theorem unsafeByte_toLower {c : Char} (h : unsafeByte c = false) :
    unsafeByte (Char.toLower c) = false := by
  by_cases hc : 65 ≤ c.toNat ∧ c.toNat ≤ 90
  · have h1 : (Char.toLower c).toNat = c.toNat + 32 := by
      rw [toNat_toLower, if_pos hc]
    have hne1 : Char.toLower c ≠ '\t' := by
      intro hcon
      have hq := congrArg Char.toNat hcon
      rw [h1] at hq
      have hv : ('\t').toNat = 9 := rfl
      rw [hv] at hq
      omega
    have hne2 : Char.toLower c ≠ '\r' := by
      intro hcon
      have hq := congrArg Char.toNat hcon
      rw [h1] at hq
      have hv : ('\r').toNat = 13 := rfl
      rw [hv] at hq
      omega
    have hne3 : Char.toLower c ≠ '\n' := by
      intro hcon
      have hq := congrArg Char.toNat hcon
      rw [h1] at hq
      have hv : ('\n').toNat = 10 := rfl
      rw [hv] at hq
      omega
    unfold unsafeByte
    simp [hne1, hne2, hne3]
  · rw [toLower_eq_self c hc]
    exact h

theorem schemeLike_pyLower {pre : Chars} (h : schemeLike pre = true) :
    schemeLike (pyLower pre) = true ∧
    pyLower (pyLower pre) = pyLower pre := by
  constructor
  · cases pre with
    | nil => simp [schemeLike] at h
    | cons c cs =>
      unfold schemeLike at h
      dsimp only at h
      obtain ⟨h1, h2⟩ := Bool.and_eq_true _ _ |>.mp h
      unfold pyLower
      rw [List.map_cons]
      unfold schemeLike
      dsimp only
      apply Bool.and_eq_true _ _ |>.mpr
      constructor
      · rw [isAlpha_toLower]
        exact h1
      · rw [List.all_eq_true] at h2 ⊢
        intro x hx
        rw [← List.map_cons] at hx
        obtain ⟨y, hy, hxy⟩ := List.mem_map.mp hx
        rw [← hxy, scheme_chars_toLower]
        exact h2 y hy
  · unfold pyLower
    rw [List.map_map]
    apply List.map_congr_left
    intro a _
    exact toLower_idem a

end SCV

namespace SCV

theorem urlsplit_shape {u : Chars} {s : SplitResult}
    (hp : urlsplit [] u = .ok s) :
    (s.scheme = [] ∨ (schemeLike s.scheme = true ∧
      pyLower s.scheme = s.scheme)) ∧
    (∀ c ∈ s.netloc, netlocDelim c = false) ∧
    ('[' ∈ s.netloc ↔ ']' ∈ s.netloc) ∧
    '#' ∉ s.path ∧ '?' ∉ s.path ∧ '#' ∉ s.query ∧
    (∀ c ∈ s.scheme, unsafeByte c = false) ∧
    (∀ c ∈ s.netloc, unsafeByte c = false) ∧
    (∀ c ∈ s.path, unsafeByte c = false) ∧
    (∀ c ∈ s.query, unsafeByte c = false) ∧
    (s.scheme = [] → s.netloc = [] →
      ∀ c, s.path.head? = some c → wsControl c = false) ∧
    (s.scheme = [] → NoSchemeColon s.path) ∧
    (∀ c ∈ s.path, c ∈ u) ∧ (∀ c ∈ s.query, c ∈ u) := by
  unfold urlsplit at hp
  dsimp only at hp
  cases hdet : detect_scheme (presplit u) with
  | none =>
    rw [hdet] at hp
    dsimp only at hp
    have hRsubu : ∀ c ∈ presplit u, c ∈ u := fun c hc => mem_presplit hc
    have hRclean : ∀ c ∈ presplit u, unsafeByte c = false :=
      presplit_clean
    by_cases h2 : List.take 2 (presplit u) = ['/', '/']
    · rw [if_pos h2] at hp
      by_cases hbrc : ('[' ∈ (List.drop 2 (presplit u)).takeWhile
            (fun c => !netlocDelim c) ∧
          ']' ∉ (List.drop 2 (presplit u)).takeWhile
            (fun c => !netlocDelim c)) ∨
          (']' ∈ (List.drop 2 (presplit u)).takeWhile
            (fun c => !netlocDelim c) ∧
          '[' ∉ (List.drop 2 (presplit u)).takeWhile
            (fun c => !netlocDelim c))
      · rw [if_pos hbrc] at hp
        dsimp only at hp
        simp at hp
      · rw [if_neg hbrc] at hp
        dsimp only at hp
        obtain ⟨hsc', hnl', ⟨t, hpre_t⟩, hpa_h, hpa_q, hqy_h, hqy_sub⟩ :=
          tail_components hp
        have hpasubR : ∀ c ∈ s.path, c ∈ presplit u := by
          intro c hcm
          have h1 : c ∈ (List.drop 2 (presplit u)).dropWhile
              (fun c => !netlocDelim c) := by
            rw [← hpre_t]
            exact List.mem_append.mpr (Or.inl hcm)
          exact List.mem_of_mem_drop (List.dropWhile_subset _ h1)
        have hqysubR : ∀ c ∈ s.query, c ∈ presplit u := by
          intro c hcm
          exact List.mem_of_mem_drop
            (List.dropWhile_subset _ (hqy_sub c hcm))
        have hpahead : ∀ c, s.path.head? = some c → c = '/' := by
          intro c hc
          have hR1 := prefix_head hpre_t hc
          have hd := head?_dropWhile_false
            (p := fun c => !netlocDelim c) hR1
          have hd2 : netlocDelim c = true := by simpa using hd
          have hcm : c ∈ s.path := List.mem_of_mem_head? hc
          unfold netlocDelim at hd2
          simp at hd2
          rcases hd2 with (h1 | h1) | h1
          · exact h1
          · subst h1
            exact absurd hcm hpa_q
          · subst h1
            exact absurd hcm hpa_h
        refine ⟨Or.inl hsc', ?_, ?_, hpa_h, hpa_q, hqy_h, ?_, ?_, ?_, ?_,
          ?_, ?_, ?_, ?_⟩
        · rw [hnl']
          intro c hcm
          have := List.mem_takeWhile_imp hcm
          simpa using this
        · rw [hnl']
          constructor
          · intro hx
            by_contra hy
            exact hbrc (Or.inl ⟨hx, hy⟩)
          · intro hx
            by_contra hy
            exact hbrc (Or.inr ⟨hx, hy⟩)
        · rw [hsc']
          simp
        · rw [hnl']
          intro c hcm
          exact hRclean c (List.mem_of_mem_drop
            (List.takeWhile_subset _ hcm))
        · intro c hcm
          exact hRclean c (hpasubR c hcm)
        · intro c hcm
          exact hRclean c (hqysubR c hcm)
        · intro _ _ c hc
          have := hpahead c hc
          subst this
          decide
        · intro _
          apply noSchemeColon_head_nonalpha
          intro c hc
          have := hpahead c hc
          subst this
          decide
        · intro c hcm
          exact hRsubu c (hpasubR c hcm)
        · intro c hcm
          exact hRsubu c (hqysubR c hcm)
    · rw [if_neg h2] at hp
      dsimp only at hp
      obtain ⟨hsc', hnl', ⟨t, hpre_t⟩, hpa_h, hpa_q, hqy_h, hqy_sub⟩ :=
        tail_components hp
      have hpasubR : ∀ c ∈ s.path, c ∈ presplit u := by
        intro c hcm
        rw [← hpre_t]
        exact List.mem_append.mpr (Or.inl hcm)
      refine ⟨Or.inl hsc', ?_, ?_, hpa_h, hpa_q, hqy_h, ?_, ?_, ?_, ?_,
        ?_, ?_, ?_, ?_⟩
      · rw [hnl']
        simp
      · rw [hnl']
        simp
      · rw [hsc']
        simp
      · rw [hnl']
        simp
      · intro c hcm
        exact hRclean c (hpasubR c hcm)
      · intro c hcm
        exact hRclean c (hqy_sub c hcm)
      · intro _ _ c hc
        exact presplit_head c (prefix_head hpre_t hc)
      · intro _
        exact noSchemeColon_of_detect_none hdet ⟨t, hpre_t⟩
      · intro c hcm
        exact hRsubu c (hpasubR c hcm)
      · intro c hcm
        exact hRsubu c (hqy_sub c hcm)
  | some pr =>
    obtain ⟨a, b⟩ := pr
    rw [hdet] at hp
    dsimp only at hp
    obtain ⟨pre, hdecp, ha, hpre⟩ := detect_scheme_some_inv hdet
    have hprene : pre ≠ [] := by
      intro hcon
      rw [hcon] at hpre
      simp [schemeLike] at hpre
    have hane : a ≠ [] := by
      rw [ha]
      unfold pyLower
      simp [hprene]
    have hbsubu : ∀ c ∈ b, c ∈ u := by
      intro c hc
      apply mem_presplit (u := u)
      rw [hdecp]
      exact List.mem_append.mpr (Or.inr (List.mem_cons_of_mem _ hc))
    have hbclean : ∀ c ∈ b, unsafeByte c = false := by
      intro c hc
      apply presplit_clean (u := u)
      rw [hdecp]
      exact List.mem_append.mpr (Or.inr (List.mem_cons_of_mem _ hc))
    have hsclean : ∀ c ∈ a, unsafeByte c = false := by
      intro c hc
      rw [ha] at hc
      unfold pyLower at hc
      obtain ⟨y, hy, hxy⟩ := List.mem_map.mp hc
      rw [← hxy]
      apply unsafeByte_toLower
      apply presplit_clean (u := u)
      rw [hdecp]
      exact List.mem_append.mpr (Or.inl hy)
    have hschemeok : schemeLike a = true ∧ pyLower a = a := by
      rw [ha]
      exact schemeLike_pyLower hpre
    by_cases h2 : List.take 2 b = ['/', '/']
    · rw [if_pos h2] at hp
      by_cases hbrc : ('[' ∈ (List.drop 2 b).takeWhile
            (fun c => !netlocDelim c) ∧
          ']' ∉ (List.drop 2 b).takeWhile (fun c => !netlocDelim c)) ∨
          (']' ∈ (List.drop 2 b).takeWhile (fun c => !netlocDelim c) ∧
          '[' ∉ (List.drop 2 b).takeWhile (fun c => !netlocDelim c))
      · rw [if_pos hbrc] at hp
        dsimp only at hp
        simp at hp
      · rw [if_neg hbrc] at hp
        dsimp only at hp
        obtain ⟨hsc', hnl', ⟨t, hpre_t⟩, hpa_h, hpa_q, hqy_h, hqy_sub⟩ :=
          tail_components hp
        have hpasubR : ∀ c ∈ s.path, c ∈ b := by
          intro c hcm
          have h1 : c ∈ (List.drop 2 b).dropWhile
              (fun c => !netlocDelim c) := by
            rw [← hpre_t]
            exact List.mem_append.mpr (Or.inl hcm)
          exact List.mem_of_mem_drop (List.dropWhile_subset _ h1)
        have hqysubR : ∀ c ∈ s.query, c ∈ b := by
          intro c hcm
          exact List.mem_of_mem_drop
            (List.dropWhile_subset _ (hqy_sub c hcm))
        have hpahead : ∀ c, s.path.head? = some c → c = '/' := by
          intro c hc
          have hR1 := prefix_head hpre_t hc
          have hd := head?_dropWhile_false
            (p := fun c => !netlocDelim c) hR1
          have hd2 : netlocDelim c = true := by simpa using hd
          have hcm : c ∈ s.path := List.mem_of_mem_head? hc
          unfold netlocDelim at hd2
          simp at hd2
          rcases hd2 with (h1 | h1) | h1
          · exact h1
          · subst h1
            exact absurd hcm hpa_q
          · subst h1
            exact absurd hcm hpa_h
        refine ⟨Or.inr (by rw [hsc']; exact hschemeok), ?_, ?_, hpa_h,
          hpa_q, hqy_h, ?_, ?_, ?_, ?_, ?_, ?_, ?_, ?_⟩
        · rw [hnl']
          intro c hcm
          have := List.mem_takeWhile_imp hcm
          simpa using this
        · rw [hnl']
          constructor
          · intro hx
            by_contra hy
            exact hbrc (Or.inl ⟨hx, hy⟩)
          · intro hx
            by_contra hy
            exact hbrc (Or.inr ⟨hx, hy⟩)
        · rw [hsc']
          exact hsclean
        · rw [hnl']
          intro c hcm
          exact hbclean c (List.mem_of_mem_drop
            (List.takeWhile_subset _ hcm))
        · intro c hcm
          exact hbclean c (hpasubR c hcm)
        · intro c hcm
          exact hbclean c (hqysubR c hcm)
        · intro h0
          rw [hsc'] at h0
          exact absurd h0 hane
        · intro h0
          rw [hsc'] at h0
          exact absurd h0 hane
        · intro c hcm
          exact hbsubu c (hpasubR c hcm)
        · intro c hcm
          exact hbsubu c (hqysubR c hcm)
    · rw [if_neg h2] at hp
      dsimp only at hp
      obtain ⟨hsc', hnl', ⟨t, hpre_t⟩, hpa_h, hpa_q, hqy_h, hqy_sub⟩ :=
        tail_components hp
      have hpasubR : ∀ c ∈ s.path, c ∈ b := by
        intro c hcm
        rw [← hpre_t]
        exact List.mem_append.mpr (Or.inl hcm)
      refine ⟨Or.inr (by rw [hsc']; exact hschemeok), ?_, ?_, hpa_h,
        hpa_q, hqy_h, ?_, ?_, ?_, ?_, ?_, ?_, ?_, ?_⟩
      · rw [hnl']
        simp
      · rw [hnl']
        simp
      · rw [hsc']
        exact hsclean
      · rw [hnl']
        simp
      · intro c hcm
        exact hbclean c (hpasubR c hcm)
      · intro c hcm
        exact hbclean c (hqy_sub c hcm)
      · intro h0
        rw [hsc'] at h0
        exact absurd h0 hane
      · intro h0
        rw [hsc'] at h0
        exact absurd h0 hane
      · intro c hcm
        exact hbsubu c (hpasubR c hcm)
      · intro c hcm
        exact hbsubu c (hqy_sub c hcm)

end SCV

namespace SCV

/-! ## Shape of `_splitparams` output -/

theorem take_lastSegPre (p : Chars) :
    p.take (p.length - (lastSegment p).length) = lastSegPre p := by
  have hlen0 := congrArg List.length (lastSeg_decomp p)
  rw [List.length_append] at hlen0
  have hlen : p.length - (lastSegment p).length =
      (lastSegPre p).length := by omega
  have ht := List.take_left (lastSegPre p) (lastSegment p)
  rw [lastSeg_decomp p] at ht
  rw [hlen]
  exact ht

theorem mem_lastSegment {c : Char} {p : Chars}
    (h : c ∈ lastSegment p) : c ∈ p := by
  rw [← lastSeg_decomp p]
  exact List.mem_append.mpr (Or.inr h)

theorem splitparams_fst_prefix (p : Chars) :
    ∃ t, (splitparams p).1 ++ t = p := by
  rw [splitparams_def]
  by_cases hs : '/' ∈ p
  · rw [if_pos hs]
    cases hsf : splitFirst ';' (lastSegment p) with
    | none =>
      dsimp only
      exact ⟨[], List.append_nil _⟩
    | some pr =>
      obtain ⟨a, b⟩ := pr
      obtain ⟨hdec, hna⟩ := splitFirst_parts hsf
      dsimp only
      rw [take_lastSegPre]
      refine ⟨';' :: b, ?_⟩
      rw [List.append_assoc, ← hdec]
      exact lastSeg_decomp p
  · rw [if_neg hs]
    cases hsf : splitFirst ';' p with
    | some pr =>
      obtain ⟨a, b⟩ := pr
      obtain ⟨hdec, _⟩ := splitFirst_parts hsf
      dsimp only
      exact ⟨';' :: b, hdec.symm⟩
    | none =>
      dsimp only
      by_cases hpe : p = []
      · subst hpe
        exact ⟨[], rfl⟩
      · exact ⟨[p.getLast hpe], List.dropLast_append_getLast hpe⟩

theorem splitparams_snd_subset (p : Chars) :
    ∀ c ∈ (splitparams p).2, c ∈ p := by
  rw [splitparams_def]
  by_cases hs : '/' ∈ p
  · rw [if_pos hs]
    cases hsf : splitFirst ';' (lastSegment p) with
    | none =>
      dsimp only
      simp
    | some pr =>
      obtain ⟨a, b⟩ := pr
      obtain ⟨hdec, _⟩ := splitFirst_parts hsf
      dsimp only
      intro c hc
      apply mem_lastSegment (p := p)
      rw [hdec]
      exact List.mem_append.mpr (Or.inr (List.mem_cons_of_mem _ hc))
  · rw [if_neg hs]
    cases hsf : splitFirst ';' p with
    | some pr =>
      obtain ⟨a, b⟩ := pr
      obtain ⟨hdec, _⟩ := splitFirst_parts hsf
      dsimp only
      intro c hc
      rw [hdec]
      exact List.mem_append.mpr (Or.inr (List.mem_cons_of_mem _ hc))
    | none =>
      dsimp only
      intro c hc
      exact hc

theorem splitparams_snd_noslash (p : Chars) :
    '/' ∉ (splitparams p).2 := by
  rw [splitparams_def]
  by_cases hs : '/' ∈ p
  · rw [if_pos hs]
    cases hsf : splitFirst ';' (lastSegment p) with
    | none =>
      dsimp only
      simp
    | some pr =>
      obtain ⟨a, b⟩ := pr
      obtain ⟨hdec, _⟩ := splitFirst_parts hsf
      dsimp only
      intro hcon
      apply lastSegment_noslash p
      rw [hdec]
      exact List.mem_append.mpr (Or.inr (List.mem_cons_of_mem _ hcon))
  · rw [if_neg hs]
    cases hsf : splitFirst ';' p with
    | some pr =>
      obtain ⟨a, b⟩ := pr
      obtain ⟨hdec, _⟩ := splitFirst_parts hsf
      dsimp only
      intro hcon
      exact hs (by
        rw [hdec]
        exact List.mem_append.mpr (Or.inr (List.mem_cons_of_mem _ hcon)))
    | none =>
      dsimp only
      exact hs

theorem splitparams_empty_seg {p : Chars} (hm : ';' ∈ p)
    (h2 : (splitparams p).2 = []) :
    ';' ∉ lastSegment (splitparams p).1 := by
  rw [splitparams_def] at h2 ⊢
  by_cases hs : '/' ∈ p
  · rw [if_pos hs] at h2 ⊢
    cases hsf : splitFirst ';' (lastSegment p) with
    | none =>
      dsimp only
      exact (splitFirst_eq_none_iff _ _).mp hsf
    | some pr =>
      obtain ⟨a, b⟩ := pr
      rw [hsf] at h2
      dsimp only at h2
      subst h2
      obtain ⟨hdec, hna⟩ := splitFirst_parts hsf
      dsimp only
      rw [take_lastSegPre]
      have hnsa : '/' ∉ a := by
        intro hcon
        apply lastSegment_noslash p
        rw [hdec]
        exact List.mem_append.mpr (Or.inl hcon)
      rw [lastSegment_append hnsa (lastSegPre_getLast hs)]
      exact hna
  · rw [if_neg hs] at h2 ⊢
    cases hsf : splitFirst ';' p with
    | some pr =>
      obtain ⟨a, b⟩ := pr
      rw [hsf] at h2
      dsimp only at h2
      subst h2
      obtain ⟨hdec, hna⟩ := splitFirst_parts hsf
      dsimp only
      have hnsa : '/' ∉ a := by
        intro hcon
        exact hs (by
          rw [hdec]
          exact List.mem_append.mpr (Or.inl hcon))
      rw [lastSegment_of_noslash hnsa]
      exact hna
    | none =>
      exact absurd hm ((splitFirst_eq_none_iff _ _).mp hsf)

end SCV

namespace SCV

theorem urlparse_shape {u : Chars} {p : ParseResult}
    (hp : urlparse [] u = .ok p) :
    (p.scheme = [] ∨ (schemeLike p.scheme = true ∧
      pyLower p.scheme = p.scheme)) ∧
    (∀ c ∈ p.netloc, netlocDelim c = false) ∧
    ('[' ∈ p.netloc ↔ ']' ∈ p.netloc) ∧
    '#' ∉ p.path ∧ '?' ∉ p.path ∧
    '#' ∉ p.params ∧ '?' ∉ p.params ∧ '/' ∉ p.params ∧
    '#' ∉ p.query ∧
    (∀ c ∈ p.scheme, unsafeByte c = false) ∧
    (∀ c ∈ p.netloc, unsafeByte c = false) ∧
    (∀ c ∈ p.path, unsafeByte c = false) ∧
    (∀ c ∈ p.params, unsafeByte c = false) ∧
    (∀ c ∈ p.query, unsafeByte c = false) ∧
    (p.scheme = [] → p.netloc = [] →
      ∀ c, p.path.head? = some c → wsControl c = false) ∧
    (p.scheme = [] → NoSchemeColon p.path) ∧
    (p.params = [] → (String.mk p.scheme) ∉ uses_params ∨
      ';' ∉ lastSegment p.path) ∧
    (∀ c ∈ p.path, c ∈ u) ∧ (∀ c ∈ p.params, c ∈ u) ∧
    (p.params ≠ [] → ';' ∈ u) := by
  unfold urlparse at hp
  cases hsp : urlsplit [] u with
  | error e =>
    rw [hsp] at hp
    simp at hp
  | ok s =>
    rw [hsp] at hp
    dsimp only at hp
    obtain ⟨Sok, Snd, Sbr, Sph, Spq, Sqh, Ssc, Snc, Spc, Sqc, Shd, Sns,
      Spu, Squ⟩ := urlsplit_shape hsp
    by_cases hgate : (String.mk s.scheme) ∈ uses_params ∧ ';' ∈ s.path
    · rw [if_pos hgate] at hp
      have hpv := Except.ok.inj hp
      subst hpv
      obtain ⟨t0, hpre0⟩ := splitparams_fst_prefix s.path
      have hfsub : ∀ c ∈ (splitparams s.path).1, c ∈ s.path := by
        intro c hc
        rw [← hpre0]
        exact List.mem_append.mpr (Or.inl hc)
      have hssub := splitparams_snd_subset s.path
      refine ⟨Sok, Snd, Sbr, ?_, ?_, ?_, ?_, splitparams_snd_noslash _,
        Sqh, Ssc, Snc, ?_, ?_, Sqc, ?_, ?_, ?_, ?_, ?_,
        fun _ => Spu _ hgate.2⟩
      · intro hm
        exact Sph (hfsub _ hm)
      · intro hm
        exact Spq (hfsub _ hm)
      · intro hm
        exact Sph (hssub _ hm)
      · intro hm
        exact Spq (hssub _ hm)
      · intro c hc
        exact Spc c (hfsub _ hc)
      · intro c hc
        exact Spc c (hssub _ hc)
      · intro h1 h2 c hc
        exact Shd h1 h2 c (prefix_head hpre0 hc)
      · intro h1
        exact noSchemeColon_prefix (Sns h1) ⟨t0, hpre0⟩
      · intro h2
        exact Or.inr (splitparams_empty_seg hgate.2 h2)
      · intro c hc
        exact Spu c (hfsub _ hc)
      · intro c hc
        exact Spu c (hssub _ hc)
    · rw [if_neg hgate] at hp
      have hpv := Except.ok.inj hp
      subst hpv
      refine ⟨Sok, Snd, Sbr, Sph, Spq, by simp, by simp, by simp, Sqh,
        Ssc, Snc, Spc, by simp, Sqc, Shd, Sns, ?_, Spu, by simp,
        by simp⟩
      intro _
      rcases not_and_or.mp hgate with h1 | h1
      · exact Or.inl h1
      · exact Or.inr (fun hm => h1 (mem_lastSegment hm))

end SCV

namespace SCV

theorem take2_prefix {a t l : Chars} (h : a ++ t = l)
    (h2 : a.take 2 = ['/', '/']) : l.take 2 = ['/', '/'] := by
  have hlen := congrArg List.length h2
  rw [List.length_take] at hlen
  simp at hlen
  have hge : 2 ≤ a.length := by omega
  rw [← h, List.take_append_eq_append_take, h2]
  have h0 : 2 - a.length = 0 := by omega
  rw [h0]
  simp

theorem netlocDelim_toLower {c : Char} (h : netlocDelim c = false) :
    netlocDelim (Char.toLower c) = false := by
  by_cases hc : 65 ≤ c.toNat ∧ c.toNat ≤ 90
  · have h1 : (Char.toLower c).toNat = c.toNat + 32 := by
      rw [toNat_toLower, if_pos hc]
    have hne1 : Char.toLower c ≠ '/' := by
      intro hcon
      have hq := congrArg Char.toNat hcon
      rw [h1] at hq
      have hv : ('/').toNat = 47 := rfl
      rw [hv] at hq
      omega
    have hne2 : Char.toLower c ≠ '?' := by
      intro hcon
      have hq := congrArg Char.toNat hcon
      rw [h1] at hq
      have hv : ('?').toNat = 63 := rfl
      rw [hv] at hq
      omega
    have hne3 : Char.toLower c ≠ '#' := by
      intro hcon
      have hq := congrArg Char.toNat hcon
      rw [h1] at hq
      have hv : ('#').toNat = 35 := rfl
      rw [hv] at hq
      omega
    unfold netlocDelim
    simp [hne1, hne2, hne3]
  · rw [toLower_eq_self c hc]
    exact h

theorem mem_map_toLower_nonletter {d : Char}
    (hd : ¬(65 ≤ d.toNat ∧ d.toNat ≤ 90))
    (hd2 : ¬(97 ≤ d.toNat ∧ d.toNat ≤ 122)) (l : Chars) :
    d ∈ l.map Char.toLower ↔ d ∈ l := by
  constructor
  · intro hm
    obtain ⟨y, hy, hxy⟩ := List.mem_map.mp hm
    by_cases hyc : 65 ≤ y.toNat ∧ y.toNat ≤ 90
    · exfalso
      have h1 : (Char.toLower y).toNat = y.toNat + 32 := by
        rw [toNat_toLower, if_pos hyc]
      rw [hxy] at h1
      exact hd2 (by omega)
    · rw [toLower_eq_self y hyc] at hxy
      rw [← hxy]
      exact hy
  · intro hm
    rw [← toLower_eq_self d hd]
    exact List.mem_map_of_mem _ hm

end SCV

namespace SCV

theorem NormInv_of {cfg : Config} {SC NL PA PR QU : Chars}
    (h1 : SC = [] ∨ (schemeLike SC = true ∧ pyLower SC = SC ∧
      (cfg.force_https = true → SC ≠ "http".data)))
    (h2 : ∀ c ∈ NL, netlocDelim c = false)
    (h3 : '[' ∈ NL ↔ ']' ∈ NL)
    (h4 : NL.map Char.toLower = NL)
    (h5 : '#' ∉ PA) (h6 : '?' ∉ PA)
    (h7 : '#' ∉ PR) (h8 : '?' ∉ PR) (h9 : '/' ∉ PR)
    (h10 : '#' ∉ QU)
    (h11 : cfg.ignore_query_params = true → QU = [])
    (h12 : ∀ c ∈ SC, unsafeByte c = false)
    (h13 : ∀ c ∈ NL, unsafeByte c = false)
    (h14 : ∀ c ∈ PA, unsafeByte c = false)
    (h15 : ∀ c ∈ PR, unsafeByte c = false)
    (h16 : ∀ c ∈ QU, unsafeByte c = false)
    (h17 : SC = [] → NL = [] →
      ∀ c, PA.head? = some c → wsControl c = false)
    (h18 : SC = [] → NoSchemeColon PA)
    (h19 : NL = [] → PA.take 2 ≠ ['/', '/'])
    (h20 : PR = [] → (String.mk SC) ∉ uses_params ∨
      ';' ∉ lastSegment PA)
    (h21 : cfg.remove_trailing_slash = false ∨ (';' ∉ PA ∧ PR = [] ∧
      (PA = ['/'] ∨ ∀ c, PA.getLast? = some c → c ≠ '/'))) :
    NormInv cfg ⟨SC, NL, PA, PR, QU, []⟩ :=
  ⟨h1, h2, h3, h4, h5, h6, h7, h8, h9, h10, h11, rfl, h12, h13, h14,
    h15, h16, h17, h18, h19, h20, h21⟩

theorem normComponents_inv {cfg : Config} {u : Chars} {p : ParseResult}
    (hp : urlparse [] u = .ok p)
    (hz : ¬(p.netloc = [] ∧ p.path.take 2 = ['/', '/']))
    (hm : cfg.remove_trailing_slash = false ∨ ';' ∉ u) :
    NormInv cfg (normComponents cfg p) := by
  have SS := urlparse_shape hp
  obtain ⟨qs, qn, qp, qpar, qq, qf⟩ := p
  dsimp only at SS hz
  obtain ⟨S1, S2, S3, S4, S5, S6, S7, S8, S9, S10, S11, S12, S13, S14,
    S15, S16, S17, S18, S19, S20⟩ := SS
  obtain ⟨tp, htp, htpc⟩ : ∃ t,
      (if (cfg.remove_trailing_slash ∧ qp.getLast? = some '/' ∧
          qp ≠ ['/']) then rstripSlashes qp else qp) ++ t = qp ∧
      ∀ c ∈ t, c = '/' := by
    by_cases hc : (cfg.remove_trailing_slash ∧ qp.getLast? = some '/' ∧
        qp ≠ ['/'])
    · rw [if_pos hc]
      exact ⟨_, rstrip_decomp qp, rstrip_trailing qp⟩
    · rw [if_neg hc]
      exact ⟨[], List.append_nil _, by simp⟩
  have hPAsub : ∀ c ∈ (if (cfg.remove_trailing_slash ∧
      qp.getLast? = some '/' ∧ qp ≠ ['/']) then rstripSlashes qp
      else qp), c ∈ qp := by
    intro c hc
    rw [← htp]
    exact List.mem_append.mpr (Or.inl hc)
  unfold normComponents
  dsimp only
  refine NormInv_of ?_ ?_ ?_ ?_ ?_ ?_ S6 S7 S8 ?_ ?_ ?_ ?_ ?_ S13 ?_
    ?_ ?_ ?_ ?_ ?_
  · by_cases hfq : (cfg.force_https ∧ qs = ("http".data))
    · rw [if_pos hfq]
      exact Or.inr ⟨by decide, by decide, fun _ => by decide⟩
    · rw [if_neg hfq]
      rcases S1 with h0 | ⟨ha, hb⟩
      · exact Or.inl h0
      · refine Or.inr ⟨ha, hb, ?_⟩
        intro hforce hcon
        exact hfq ⟨hforce, hcon⟩
  · intro c hc
    obtain ⟨y, hy, hxy⟩ := List.mem_map.mp hc
    rw [← hxy]
    exact netlocDelim_toLower (S2 y hy)
  · rw [mem_map_toLower_nonletter (d := '[') (by decide) (by decide) qn,
      mem_map_toLower_nonletter (d := ']') (by decide) (by decide) qn]
    exact S3
  · rw [List.map_map]
    apply List.map_congr_left
    intro a _
    exact toLower_idem a
  · intro hmem
    exact S4 (hPAsub _ hmem)
  · intro hmem
    exact S5 (hPAsub _ hmem)
  · by_cases hig : cfg.ignore_query_params = true
    · rw [if_pos hig]
      simp
    · rw [if_neg hig]
      exact S9
  · intro hig
    rw [if_pos hig]
  · by_cases hfq : (cfg.force_https ∧ qs = ("http".data))
    · rw [if_pos hfq]
      decide
    · rw [if_neg hfq]
      exact S10
  · intro c hc
    obtain ⟨y, hy, hxy⟩ := List.mem_map.mp hc
    rw [← hxy]
    exact unsafeByte_toLower (S11 y hy)
  · intro c hc
    exact S12 c (hPAsub _ hc)
  · by_cases hig : cfg.ignore_query_params = true
    · rw [if_pos hig]
      simp
    · rw [if_neg hig]
      exact S14
  · intro hsc hnl c hc
    have hqs : qs = [] := by
      by_cases hfq : (cfg.force_https ∧ qs = ("http".data))
      · rw [if_pos hfq] at hsc
        exact absurd hsc (by decide)
      · rw [if_neg hfq] at hsc
        exact hsc
    have hqn : qn = [] := by simpa using hnl
    exact S15 hqs hqn c (prefix_head htp hc)
  · intro hsc
    have hqs : qs = [] := by
      by_cases hfq : (cfg.force_https ∧ qs = ("http".data))
      · rw [if_pos hfq] at hsc
        exact absurd hsc (by decide)
      · rw [if_neg hfq] at hsc
        exact hsc
    exact noSchemeColon_prefix (S16 hqs) ⟨tp, htp⟩
  · intro hnl
    have hqn : qn = [] := by simpa using hnl
    intro hcon
    exact hz ⟨hqn, take2_prefix htp hcon⟩
  · intro hpr
    rcases hm with hrts | hnsu
    · have hcondf : ¬(cfg.remove_trailing_slash = true ∧
          qp.getLast? = some '/' ∧ qp ≠ ['/']) := by
        rintro ⟨hc1, _⟩
        rw [hrts] at hc1
        exact Bool.false_ne_true hc1
      rw [if_neg hcondf]
      rcases S17 hpr with hl | hr
      · by_cases hfq : (cfg.force_https ∧ qs = ("http".data))
        · have : (String.mk qs) ∈ uses_params := by
            rw [hfq.2]
            decide
          exact absurd this hl
        · rw [if_neg hfq]
          exact Or.inl hl
      · exact Or.inr hr
    · right
      intro hcon
      exact hnsu (S18 _ (hPAsub _ (mem_lastSegment hcon)))
  · rcases hm with hrts | hnsu
    · exact Or.inl hrts
    · by_cases hrts2 : cfg.remove_trailing_slash = false
      · exact Or.inl hrts2
      · right
        have hrts3 : cfg.remove_trailing_slash = true := by
          revert hrts2
          cases cfg.remove_trailing_slash <;> simp
        have hnsp : ';' ∉ qp := fun hcon => hnsu (S18 _ hcon)
        have hnsP : ';' ∉ (if (cfg.remove_trailing_slash ∧
            qp.getLast? = some '/' ∧ qp ≠ ['/']) then rstripSlashes qp
            else qp) := fun hcon => hnsp (hPAsub _ hcon)
        have hpr : qpar = [] := by
          by_contra hne
          exact hnsu (S20 hne)
        refine ⟨hnsP, hpr, ?_⟩
        by_cases hc : (cfg.remove_trailing_slash ∧
            qp.getLast? = some '/' ∧ qp ≠ ['/'])
        · rw [if_pos hc]
          exact Or.inr (rstrip_getLast qp)
        · rw [if_neg hc]
          rcases not_and_or.mp hc with h1 | h1
          · exact absurd hrts3 h1
          · rcases not_and_or.mp h1 with h2 | h2
            · right
              intro c hcc hceq
              subst hceq
              exact h2 hcc
            · left
              exact not_not.mp h2

end SCV

namespace SCV

/-- C3: the literal claim — `normalize(normalize(u, c), c) = normalize(u, c)`
for every URL and configuration — is false.  Two counterexamples: with
`remove_trailing_slash`, stripping the slash from `/a/;b/` exposes a `;` in
the last path segment, so the second pass splits params and yields `/a;b`;
and `////Xy` parses as empty netloc plus path `//Xy`, so reassembly produces
`//Xy`, which re-parses with netloc `Xy` that the second pass lower-cases. -/
theorem c3_counterexample :
    (normalizeStr ⟨false, true, false⟩ "/a/;b/" = .ok "/a/;b" ∧
      normalizeStr ⟨false, true, false⟩ "/a/;b" = .ok "/a;b" ∧
      ("/a/;b" : String) ≠ "/a;b") ∧
    (normalizeStr ⟨false, false, false⟩ "////Xy" = .ok "//Xy" ∧
      normalizeStr ⟨false, false, false⟩ "//Xy" = .ok "//xy" ∧
      ("//Xy" : String) ≠ "//xy") := by
  exact ⟨⟨by decide, by decide, by decide⟩,
    ⟨by decide, by decide, by decide⟩⟩

/-- C3 (amended): `_normalize_url` is idempotent on every URL whose parse
does not hit the empty-netloc/double-slash-path hazard, provided trailing
slash stripping is disabled or the URL contains no `;`: if
`normalize_url cfg u` succeeds with value `r`, then
`normalize_url cfg r = .ok r`. -/
theorem c3_idempotent_amended (cfg : Config) (u r : Chars)
    (p : ParseResult)
    (hp : urlparse [] u = .ok p)
    (hz : ¬(p.netloc = [] ∧ p.path.take 2 = ['/', '/']))
    (hm : cfg.remove_trailing_slash = false ∨ ';' ∉ u)
    (hr : normalize_url cfg u = .ok r) :
    normalize_url cfg r = .ok r := by
  by_cases hue : u = []
  · subst hue
    unfold normalize_url at hr
    rw [if_pos rfl] at hr
    have hrv : r = [] := (Except.ok.inj hr).symm
    subst hrv
    rfl
  · unfold normalize_url at hr
    rw [if_neg hue, hp] at hr
    dsimp only at hr
    have hrv : r = urlunparse (normComponents cfg p) :=
      (Except.ok.inj hr).symm
    subst hrv
    exact normalize_fixed (normComponents_inv hp hz hm)

theorem c3_idempotent_amended_witness :
    normalize_url ⟨true, true, true⟩ ("http://EX.com/A/".data) =
      .ok ("https://ex.com/A".data) ∧
    normalize_url ⟨true, true, true⟩ ("https://ex.com/A".data) =
      .ok ("https://ex.com/A".data) :=
  ⟨by decide,
    c3_idempotent_amended ⟨true, true, true⟩ ("http://EX.com/A/".data)
      ("https://ex.com/A".data)
      ⟨"http".data, "EX.com".data, "/A/".data, [], [], []⟩
      (by decide) (by decide) (Or.inr (by decide)) (by decide)⟩

/-- C8: the claim that only the host has its case changed is false: the
netloc is lower-cased as a whole, so userinfo before `@` is lower-cased
too. -/
theorem c8_counterexample :
    normalizeStr ⟨true, true, false⟩ "http://UserA@HOST/Path?Q=hi" =
      .ok "https://usera@host/Path?Q=hi" ∧
    normalizeStr ⟨true, true, false⟩ "http://UserA@HOST/Path?Q=hi" ≠
      .ok "https://UserA@host/Path?Q=hi" := by
  exact ⟨by decide, by decide⟩

/-- C8 (amended): normalization lower-cases the entire authority component
(including any userinfo and port) and nothing else: the output is the
reassembly of the parsed components in which the path keeps its characters
(up to trailing-slash stripping), the params and the query are kept
verbatim (the query possibly dropped wholesale), and only the scheme
rewrite and the netloc lower-casing change characters. -/
theorem c8_path_query_case (cfg : Config) (u r : Chars) (p : ParseResult)
    (hu : u ≠ []) (hp : urlparse [] u = .ok p)
    (hr : normalize_url cfg u = .ok r) :
    ∃ pa t qu,
      r = urlunparse ⟨(if cfg.force_https ∧ p.scheme = ("http".data)
          then "https".data else p.scheme),
        p.netloc.map Char.toLower, pa, p.params, qu, []⟩ ∧
      pa ++ t = p.path ∧ (∀ c ∈ t, c = '/') ∧
      (qu = p.query ∨ qu = []) := by
  unfold normalize_url at hr
  rw [if_neg hu, hp] at hr
  dsimp only at hr
  have hrv : r = urlunparse (normComponents cfg p) :=
    (Except.ok.inj hr).symm
  obtain ⟨tp, htp, htpc⟩ : ∃ t,
      (if (cfg.remove_trailing_slash ∧ p.path.getLast? = some '/' ∧
          p.path ≠ ['/']) then rstripSlashes p.path else p.path) ++ t =
        p.path ∧ ∀ c ∈ t, c = '/' := by
    by_cases hc : (cfg.remove_trailing_slash ∧
        p.path.getLast? = some '/' ∧ p.path ≠ ['/'])
    · rw [if_pos hc]
      exact ⟨_, rstrip_decomp p.path, rstrip_trailing p.path⟩
    · rw [if_neg hc]
      exact ⟨[], List.append_nil _, by simp⟩
  refine ⟨_, tp, (if cfg.ignore_query_params then [] else p.query),
    ?_, htp, htpc, ?_⟩
  · rw [hrv]
    rfl
  · by_cases hig : cfg.ignore_query_params = true
    · rw [if_pos hig]
      exact Or.inr rfl
    · rw [if_neg hig]
      exact Or.inl rfl

theorem c8_path_query_case_witness :
    ∃ pa t qu,
      ("https://usera@host/Path?Q=hi".data : Chars) =
        urlunparse ⟨(if (⟨true, true, false⟩ : Config).force_https ∧
            ("http".data : Chars) = "http".data then "https".data
          else "http".data),
          ("UserA@HOST".data : Chars).map Char.toLower, pa, [], qu, []⟩ ∧
      pa ++ t = "/Path".data ∧ (∀ c ∈ t, c = '/') ∧
      (qu = "Q=hi".data ∨ qu = []) :=
  c8_path_query_case ⟨true, true, false⟩
    ("http://UserA@HOST/Path?Q=hi".data)
    ("https://usera@host/Path?Q=hi".data)
    ⟨"http".data, "UserA@HOST".data, "/Path".data, [], "Q=hi".data, []⟩
    (by decide) (by decide) (by decide)

end SCV
